import Mathlib

/-!
# Verification of the cdk-reflect construction core

A shallow embedding, in Lean 4, of the program-space exploration engine of
the `cdk-reflect` repository: the value IR, the distribution registry, the
minimal-value generator, the mutator's reservoir sampler, the zipper,
statement discretization, the evaluator dispatch, and the `Random` helper.

Conventions used throughout:

* TypeScript objects/records become Lean structures; tagged unions become
  inductives, with the source's tag names kept as constructor names where
  Lean's grammar allows it (`variable` is a Lean keyword, so the `Value`
  variant of that name is called `varRef`).
* JavaScript `Record<string, T>` objects are association lists
  (`List (String × T)`), preserving insertion order the way `Object.entries`
  does; lookup takes the first match as JS property lookup would.
* The external PRNG (the `pure-rand` library, wrapped by `Random`) is
  modelled by a deterministic stream of naturals: `uniformIntDistribution(lo,
  hi)` returns `lo + stream pos % (hi - lo + 1)` and advances the position.
  All theorems quantify over the stream.
* Exceptions and `Result` failures are distinct in the source (a `Failure`
  value is data, a `throw` unwinds), so errors are embedded as a sum of
  `failure`, `exception`, plus an artificial `fuelExhausted` marker used by
  the fuel-indexed embeddings of the recursive generator functions.
* Methods that mutate `this` (the distribution table, the PRNG, the
  mutation reservoir) become functions that thread the state explicitly.
-/

/-- `DistPtr` from the value IR: which distribution and which alternative
inside it produced a node (`{ distId, sourceIndex }`). -/
structure DistPtr where
  distId : String
  sourceIndex : Nat
  deriving DecidableEq, Repr

/-- The primitive names of `distributions.ts`:
`string | number | boolean | json | date | any`. -/
inductive PrimitiveName where
  | string | number | boolean | json | date | any
  deriving DecidableEq, Repr

/-- Payload of a `PrimitiveValue` node: a typed JS value. JS numbers are
modelled as integers (the generator and mutator only ever produce integers:
the mutator's comment says "keeping it an int"); dates by their epoch
milliseconds. -/
inductive PrimValue where
  | str (s : String)
  | num (n : Int)
  | boolean (b : Bool)
  | date (epochMillis : Int)
  deriving DecidableEq, Repr

/-- The `Value` expression IR with `DistPtr`s (the draft used by
`part_010` / `generate.ts` / `mutate.ts`, where `arguments` are plain
values and every node except `Variable` has a `distPtr` field).

The module declaring this type is not present under `src/` (only the older
distPtr-less drafts `values.ts` / `part_011` are); the fields are fixed by
every construction site in `part_010`, `part_009`, `generate.ts` and
`mutate.ts`, and by the spec's §3 "Value (expression IR)".  The `distPtr`
field is embedded as an `Option` because at the JS runtime the field can be
absent (that is exactly what `validateValue` in `part_010` checks for). -/
inductive Value where
  | classInstantiation (fqn : String) (distPtr : Option DistPtr)
      (parameterNames : List String) (arguments : List Value)
  | staticMethodCall (fqn : String) (distPtr : Option DistPtr)
      (staticMethod : String) (targetFqn : String)
      (parameterNames : List String) (arguments : List Value)
  | staticProperty (fqn : String) (distPtr : Option DistPtr)
      (staticProperty : String) (targetFqn : String)
  | structLiteral (fqn : String) (distPtr : Option DistPtr)
      (entries : List (String × Value))
  | mapLiteral (distPtr : Option DistPtr) (entries : List (String × Value))
  | arrayValue (distPtr : Option DistPtr) (elements : List Value)
  | primitiveValue (distPtr : Option DistPtr) (prim : PrimValue)
  | noValue (distPtr : Option DistPtr)
  | scopeValue (distPtr : Option DistPtr)
  | varRef (variableName : String)

/-- `Statement` from `statements.ts`: an assignment or a bare expression. -/
inductive Statement where
  | assignment (variableName : String) (value : Value)
  | expression (value : Value)

/-! ## Utility functions (`util.ts`) -/

/-- JS `String.prototype.split` at a one-character separator, embedded as an
explicit recursion over the character list (the JS builtin is external). -/
def splitChars (sep : Char) : List Char → List (List Char)
  | [] => [[]]
  | c :: rest =>
    if c = sep then
      [] :: splitChars sep rest
    else
      match splitChars sep rest with
      | acc :: more => (c :: acc) :: more
      | [] => [[c]]

/-- `classNameFromFqn` from `util.ts`: the last `.`-separated segment. -/
def classNameFromFqn (fqn : String) : String :=
  String.mk ((splitChars '.' fqn.data).getLastD [])

/-- ASCII lower-casing of one character (JS `toLowerCase` restricted to the
ASCII identifiers this code feeds it). -/
def asciiToLower (c : Char) : Char :=
  if 'A' ≤ c ∧ c ≤ 'Z' then Char.ofNat (c.toNat + 32) else c

/-- `lcfirst` from `util.ts`: lower-case the first character
(`substring(0, 1).toLowerCase() + substring(1)`). -/
def lcfirst (x : String) : String :=
  match x.data with
  | [] => ""
  | c :: rest => String.mk (asciiToLower c :: rest)

/-- `mapValues` from `util.ts`, on ordered association lists. -/
def mapValues {α β : Type} (xs : List (String × α)) (fn : α → β) :
    List (String × β) :=
  xs.map fun kv => (kv.1, fn kv.2)

/-- `range` from `util.ts`. -/
def rangeList (n : Nat) : List Nat := List.range n

/-! ## Distribution model (`distributions.ts`) -/

/-- `DistributionRef`: a stable handle into the distribution table. -/
structure DistributionRef where
  distId : String
  deriving DecidableEq, Repr

/-- `ParameterSource { name, dist }`. -/
structure ParameterSource where
  name : String
  dist : DistributionRef
  deriving DecidableEq, Repr

/-- `FqnSource` from `distributions.ts`: the ways to obtain a value of a
specific FQN. -/
inductive FqnSource where
  | classInstantiation (fqn : String) (parameters : List ParameterSource)
  | staticMethodCall (fqn : String) (staticMethod : String)
      (parameters : List ParameterSource) (targetFqn : String)
  | staticProperty (fqn : String) (staticProperty : String) (targetFqn : String)
  | valueObject (fqn : String) (fields : List (String × DistributionRef))
  deriving DecidableEq, Repr

/-- `ValueSource` from `distributions.ts`: one alternative inside a value
distribution. -/
inductive ValueSource where
  | primitive (primitive : PrimitiveName)
  | noValue
  | array (elements : DistributionRef)
  | map (elements : DistributionRef)
  | constant (value : Value)
  | fqn (fqn : String)
  | custom (sourceName : String)

/-- `ValueDistribution = ValueSource[]`. -/
abbrev ValueDistribution := List ValueSource

/-- `ResolvedValueSource = FqnSource | Exclude<ValueSource, IncludeFqnSources>`:
what `resolveDist` returns after splatting `fqn` references. -/
inductive ResolvedValueSource where
  | classInstantiation (fqn : String) (parameters : List ParameterSource)
  | staticMethodCall (fqn : String) (staticMethod : String)
      (parameters : List ParameterSource) (targetFqn : String)
  | staticProperty (fqn : String) (staticProperty : String) (targetFqn : String)
  | valueObject (fqn : String) (fields : List (String × DistributionRef))
  | primitive (primitive : PrimitiveName)
  | noValue
  | array (elements : DistributionRef)
  | map (elements : DistributionRef)
  | constant (value : Value)
  | custom (sourceName : String)

/-- Splat a `FqnSource` into a `ResolvedValueSource` (the identity injection
performed by `resolveDist`'s `ret.push(...)`). -/
def FqnSource.resolved : FqnSource → ResolvedValueSource
  | .classInstantiation fqn ps => .classInstantiation fqn ps
  | .staticMethodCall fqn m ps t => .staticMethodCall fqn m ps t
  | .staticProperty fqn p t => .staticProperty fqn p t
  | .valueObject fqn fs => .valueObject fqn fs

/-- Inject a non-`fqn` `ValueSource` into `ResolvedValueSource`; `fqn`
sources are never injected directly (they are splatted), the `fqn` case here
is dead code guarded by the caller. -/
def ValueSource.resolved : ValueSource → ResolvedValueSource
  | .primitive p => .primitive p
  | .noValue => .noValue
  | .array e => .array e
  | .map e => .map e
  | .constant v => .constant v
  | .custom n => .custom n
  | .fqn f => .custom ("unreachable:" ++ f)

/-- `ValueModel`: the distribution model, with JS objects embedded as ordered
association lists. -/
structure ValueModel where
  fqnSources : List (String × List FqnSource)
  distributions : List (String × ValueDistribution)

/-! ## Errors

The source distinguishes `Result` failures (data, inspected by `isFailure`
and recovered from) from thrown exceptions (contract violations that unwind).
`fuelExhausted` is an artificial marker used by the fuel-indexed embeddings
of the recursive functions; it propagates like an exception and the
termination theorem shows it is never produced once the fuel reaches an
explicit bound. -/
inductive GenErr where
  | failure (reason : String)
  | exception (message : String)
  | fuelExhausted
  deriving DecidableEq, Repr

/-- `prependFailure` from `util.ts`, lifted to `GenErr`: only `Result`
failures get a prefixed reason, anything else is passed through unchanged. -/
def GenErr.prepend (reason : String) : GenErr → GenErr
  | .failure r => .failure (reason ++ ": " ++ r)
  | e => e

/-! ## The PRNG wrapper (`random.ts` `Random`, over the external `pure-rand`)

`pure-rand` is an external dependency; it is modelled as a deterministic
stream of naturals.  `uniformIntDistribution(lo, hi)(rng)` becomes
`lo + stream pos % (hi - lo + 1)` — some value in `[lo, hi]` — and the
mutated-in-place generator state becomes an advancing position. -/
structure Rng where
  stream : Nat → Nat
  pos : Nat

/-- `Random.pickNr(lo, hi)`: a draw in `[lo, hi]`, advancing the state. -/
def Rng.pickNr (rng : Rng) (lo hi : Nat) : Nat × Rng :=
  (lo + rng.stream rng.pos % (hi + 1 - lo), ⟨rng.stream, rng.pos + 1⟩)

/-- `Random.pickFrom(xs)`: throws on an empty array, otherwise picks the
element at a uniform index. -/
def Rng.pickFrom {α : Type} (rng : Rng) (xs : List α) : Except GenErr (α × Rng) :=
  if h : xs.length = 0 then
    .error (.exception "Cannot pick from empty array")
  else
    let (i, rng1) := rng.pickNr 0 (xs.length - 1)
    .ok (xs.getD i (xs.get ⟨0, Nat.pos_of_ne_zero h⟩), rng1)

/-- One character of `Random.generateString`: `alphabet[pickNr(0, len-1)]`. -/
def Rng.pickChars (rng : Rng) (alphabet : String) : Nat → List Char × Rng
  | 0 => ([], rng)
  | n + 1 =>
    let (i, rng1) := rng.pickNr 0 (alphabet.length - 1)
    let (cs, rng2) := rng1.pickChars alphabet n
    ((alphabet.toList.getD i ' ') :: cs, rng2)

/-- `Random.generateString(minlen, maxlen, alphabet)`. -/
def Rng.generateString (rng : Rng) (minlen maxlen : Nat) (alphabet : String) :
    String × Rng :=
  let (len, rng1) := rng.pickNr minlen maxlen
  let (cs, rng2) := rng1.pickChars alphabet len
  (String.mk cs, rng2)

/-- One pass of `Random.shuffleMutate`'s Fisher-Yates loop, with `i` counting
down from `xs.length - 1` to `1`; `swapIdx` performs the in-place swap. -/
def swapIdx {α : Type} (xs : List α) (i j : Nat) : List α :=
  match xs.get? i, xs.get? j with
  | some a, some b => (xs.set i b).set j a
  | _, _ => xs

/-- The Fisher-Yates loop of `Random.shuffleMutate`, by the value of `i`. -/
def Rng.shuffleGo {α : Type} (rng : Rng) (xs : List α) : Nat → List α × Rng
  | 0 => (xs, rng)
  | i + 1 =>
    if i + 1 ≥ 1 then
      let (j, rng1) := rng.pickNr 0 (i + 1)
      rng1.shuffleGo (swapIdx xs (i + 1) j) i
    else (xs, rng)

/-- `Random.shuffleMutate(xs)`: Fisher-Yates shuffle. -/
def Rng.shuffleMutate {α : Type} (rng : Rng) (xs : List α) : List α × Rng :=
  match xs.length with
  | 0 => (xs, rng)
  | n + 1 => rng.shuffleGo xs n

/-- `ALPHABET_CHARS` from `part_010`/`generate.ts`. -/
def ALPHABET_CHARS : String :=
  "-abcdefghijklmnopqrstuvwxyzABCDEFGHIJKLMNOPQRSTUVWXYZ01923456789 _:$"

/-! ## Distribution registry operations

`DistributionOps` exists in two drafts: the `Result`-returning one (used by
the `part_010` generator) and the throwing one (used by `generate.ts` and
`mutate.ts`).  Both share `lookupDist` and `recordDistribution`.

The content hash (`crypto.createHash('sha256')` over `JSON.stringify`) uses
two external facilities; they are abstracted as a serialization function and
a hex-digest function, over which all theorems quantify. -/

/-- The two external functions used by `hashValueDistribution`:
`JSON.stringify` on a distribution, and the sha256 hex digest of a string. -/
structure HashCfg where
  stringify : ValueDistribution → String
  sha256hex : String → String

/-- `HASH_LENGTH = 12`. -/
def HASH_LENGTH : Nat := 12

/-- `hashValueDistribution(d)`: truncated hex digest of the JSON form. -/
def hashValueDistribution (cfg : HashCfg) (d : ValueDistribution) : String :=
  (cfg.sha256hex (cfg.stringify d)).take HASH_LENGTH

/-- `DistributionOps.recordDistribution(dist)` (`plan.ts`): content-address
the distribution by its truncated hash; if the id is already taken, compare
the stored distribution's JSON to the new one and throw on mismatch.  The
updated distribution table is returned alongside (unchanged when an error is
thrown, since the source throws before mutating). -/
def recordDistribution (cfg : HashCfg) (model : ValueModel)
    (dist : ValueDistribution) :
    Except GenErr DistributionRef × ValueModel :=
  let distId := hashValueDistribution cfg dist
  match model.distributions.lookup distId with
  | some existing =>
    if cfg.stringify existing ≠ cfg.stringify dist then
      (.error (.exception ("Hash collission on ID: " ++ distId ++
        ". Increase the hash size.")), model)
    else
      (.ok ⟨distId⟩, model)
  | none =>
    (.ok ⟨distId⟩,
     { model with distributions := model.distributions ++ [(distId, dist)] })

/-- `DistributionOps.lookupDist(ref)`: the distribution under the id, or `[]`. -/
def lookupDist (model : ValueModel) (ref : DistributionRef) : ValueDistribution :=
  (model.distributions.lookup ref.distId).getD []

/-- `lookupFqn` of the `Result` draft of `DistributionOps`: a failure when the
fqn has no (or an empty list of) constructors. -/
def lookupFqnR (model : ValueModel) (fqn : String) :
    Except GenErr (List FqnSource) :=
  match model.fqnSources.lookup fqn with
  | none => .error (.failure ("No constructors for type: " ++ fqn))
  | some constructors =>
    if constructors.length = 0 then
      .error (.failure ("No constructors for type: " ++ fqn))
    else
      .ok constructors

/-- `unwrapOr(lookupFqn(fqn), [])` as used by the `Result` draft of
`resolveDist`. -/
def lookupFqnOrEmpty (model : ValueModel) (fqn : String) : List FqnSource :=
  match lookupFqnR model fqn with
  | .error _ => []
  | .ok xs => xs

/-- The splat loop of `resolveDist` shared by both drafts, parameterized by
how an `fqn` source is expanded. -/
def resolveSources (expand : String → List FqnSource) :
    List ValueSource → List ResolvedValueSource
  | [] => []
  | .fqn f :: rest => (expand f).map FqnSource.resolved ++ resolveSources expand rest
  | src :: rest => src.resolved :: resolveSources expand rest

/-- `resolveDist` of the `Result` draft: splat `fqn` sources using
`unwrapOr(lookupFqn(...), [])`, and fail when the result is empty. -/
def resolveDistR (model : ValueModel) (ref : DistributionRef) :
    Except GenErr (List ResolvedValueSource) :=
  let ret := resolveSources (lookupFqnOrEmpty model) (lookupDist model ref)
  if ret.length = 0 then
    .error (.failure ("No values in distribution: " ++ ref.distId))
  else
    .ok ret

/-- `lookupFqn` of the throwing draft of `DistributionOps`. -/
def lookupFqnT (model : ValueModel) (fqn : String) :
    Except GenErr (List FqnSource) :=
  match model.fqnSources.lookup fqn with
  | none => .error (.exception ("No constructors for type: " ++ fqn))
  | some constructors =>
    if constructors.length = 0 then
      .error (.exception ("No constructors for type: " ++ fqn))
    else
      .ok constructors

/-- The splat loop of the throwing `resolveDist`: a missing fqn throws out of
the whole resolution. -/
def resolveSourcesT (model : ValueModel) :
    List ValueSource → Except GenErr (List ResolvedValueSource)
  | [] => .ok []
  | .fqn f :: rest =>
    match lookupFqnT model f with
    | .error e => .error e
    | .ok cs =>
      match resolveSourcesT model rest with
      | .error e => .error e
      | .ok tail => .ok (cs.map FqnSource.resolved ++ tail)
  | src :: rest =>
    match resolveSourcesT model rest with
    | .error e => .error e
    | .ok tail => .ok (src.resolved :: tail)

/-- `resolveDist` of the throwing draft: throws on a missing fqn and on an
empty resolution. -/
def resolveDistT (model : ValueModel) (ref : DistributionRef) :
    Except GenErr (List ResolvedValueSource) :=
  match resolveSourcesT model (lookupDist model ref) with
  | .error e => .error e
  | .ok ret =>
    if ret.length = 0 then
      .error (.exception ("No values in distribution: " ++ ref.distId))
    else
      .ok ret

/-- `distIncludesFqn(ref, fqn)` from `DistributionOps`. -/
def distIncludesFqn (model : ValueModel) (ref : DistributionRef) (fqn : String) :
    Bool :=
  (lookupDist model ref).any fun x =>
    match x with
    | .fqn f => f = fqn
    | _ => false

/-! ## The zipper over `Value`s

`mutate.ts`, `generate.ts`, `part_009` and `part_010` import their zipper
from `value-zipper.ts`, which is not present under `src/` (the `zipper.ts`
that is present is the draft for the older, distPtr-less `Value` type; its
`zipperSetRec` rebuilds nodes from explicit field lists).

Modelled from the spec: the missing `value-zipper.ts` module.  Per §3
"Zipper", a zipper is a stack (innermost first, as in `zipperDescend`'s
`[nextLevel(), ...z]`) of `ValueLoc` frames, each bundling a reference to
its parent compound node and a locator within it; `zipperSet(z, v)` and
`zipperDelete(z)` are pure and "rebuild the path from the focus up to the
root, preserving siblings" (so each rebuilt node keeps all its other
fields); deletion on a struct/map removes the entry, on an array/argument
list it removes the slot and re-indexes. -/
inductive ValueLoc where
  | classInstantiationLoc (ptr : Value) (argumentIndex : Nat)
  | staticMethodCallLoc (ptr : Value) (argumentIndex : Nat)
  | structFieldLoc (ptr : Value) (fieldName : String)
  | mapEntryLoc (ptr : Value) (key : String)
  | arrayElementLoc (ptr : Value) (index : Nat)

/-- A zipper: a stack of `ValueLoc`s, innermost first. -/
abbrev Zipper := List ValueLoc

/-- JS `{ ...entries, [key]: v }`: replace in place when the key exists
(insertion order preserved), append otherwise. -/
def assocSet {α : Type} : List (String × α) → String → α → List (String × α)
  | [], k, v => [(k, v)]
  | (k1, v1) :: rest, k, v =>
    if k1 = k then (k, v) :: rest else (k1, v1) :: assocSet rest k v

/-- JS `delete entries[key]`: drop the entry under the key. -/
def assocUnset {α : Type} : List (String × α) → String → List (String × α)
  | [], _ => []
  | (k1, v1) :: rest, k =>
    if k1 = k then rest else (k1, v1) :: assocUnset rest k

/-- `zipperDescend(z, v, loc)` for the argument-indexed compound nodes
(class instantiations, static method calls, arrays): push a frame for
parent `v` at index `i`.  Callers always pass a matching node; other node
kinds fall through to an array frame (dead code, as in the source the
overloads exclude it). -/
def zipperDescendN (z : Zipper) (v : Value) (i : Nat) : Zipper :=
  (match v with
   | .classInstantiation _ _ _ _ => ValueLoc.classInstantiationLoc v i
   | .staticMethodCall _ _ _ _ _ _ => ValueLoc.staticMethodCallLoc v i
   | _ => ValueLoc.arrayElementLoc v i) :: z

/-- `zipperDescend(z, v, loc)` for the string-keyed compound nodes (struct
literals and map literals). -/
def zipperDescendS (z : Zipper) (v : Value) (k : String) : Zipper :=
  (match v with
   | .structLiteral _ _ _ => ValueLoc.structFieldLoc v k
   | _ => ValueLoc.mapEntryLoc v k) :: z

/-- Rebuild one parent node around the (0- or 1-element) replacement list for
the focused position: the splice of `zipperSetRec`, preserving every other
field of the parent.  A frame whose `ptr` is not of the matching compound
kind (impossible by the source's typing) is returned unchanged. -/
def rebuildLoc : ValueLoc → List Value → Value
  | .classInstantiationLoc ptr i, children =>
    match ptr with
    | .classInstantiation fqn dp names args =>
      .classInstantiation fqn dp names (args.take i ++ children ++ args.drop (i + 1))
    | other => other
  | .staticMethodCallLoc ptr i, children =>
    match ptr with
    | .staticMethodCall fqn dp m t names args =>
      .staticMethodCall fqn dp m t names (args.take i ++ children ++ args.drop (i + 1))
    | other => other
  | .arrayElementLoc ptr i, children =>
    match ptr with
    | .arrayValue dp els =>
      .arrayValue dp (els.take i ++ children ++ els.drop (i + 1))
    | other => other
  | .mapEntryLoc ptr k, children =>
    match ptr with
    | .mapLiteral dp entries =>
      .mapLiteral dp
        (match children with
         | [] => assocUnset entries k
         | c :: _ => assocSet entries k c)
    | other => other
  | .structFieldLoc ptr k, children =>
    match ptr with
    | .structLiteral fqn dp entries =>
      .structLiteral fqn dp
        (match children with
         | [] => assocUnset entries k
         | c :: _ => assocSet entries k c)
    | other => other

/-- The recursion of `zipperSetRec`, processed from the outermost frame (the
last element of the zipper) inwards; this helper takes the frames already
reversed (outermost first). -/
def zipperSetRecAux : List ValueLoc → List Value → List Value
  | [], v => v
  | frame :: rest, v => [rebuildLoc frame (zipperSetRecAux rest v)]

/-- `zipperSetRec(z, value)`: `value` is `[v]` for replacement or `[]` for
deletion. -/
def zipperSetRec (z : Zipper) (value : List Value) : List Value :=
  zipperSetRecAux z.reverse value

/-- `zipperSet(z, v) = zipperSetRec(z, [v])[0]`. -/
def zipperSet (z : Zipper) (value : Value) : Value :=
  match zipperSetRec z [value] with
  | [v] => v
  | _ => value

/-- `zipperDelete(z)`: throws on an empty zipper, otherwise removes the
focused slot/entry. -/
def zipperDelete (z : Zipper) : Except GenErr Value :=
  if z.length = 0 then
    .error (.exception "Cannot delete in an empty zipper")
  else
    match zipperSetRec z [] with
    | [v] => .ok v
    | _ => .error (.exception "unreachable: empty rebuild")

/-! ## Mutations and custom distributions -/

/-- `Mutation` from `mutate.ts`: a `set` or `delete` at a zipper focus. -/
inductive Mutation where
  | set (zipper : Zipper) (value : Value)
  | delete (zipper : Zipper)

/-- `applyMutation(m)` from `mutate.ts`. -/
def applyMutation : Mutation → Except GenErr Value
  | .set z v => .ok (zipperSet z v)
  | .delete z => zipperDelete z

/-- `ICustomDistribution` from `custom-distribution.ts`: a named plug-in.
`minimalValue(distPtr, zipper, source)` produces a value (the `source`
argument carries only its `sourceName` here); `mutate(value, zipper,
mutator)` calls the proposer some number of times — modelled as the ordered
list of mutations it proposes. -/
structure CustomDist where
  minimalValue : DistPtr → Zipper → String → Value
  mutateProposals : Value → Zipper → List Mutation

/-- The configuration a `ValueGenerator` instance closes over: the hash
externals, the distribution model, and the custom distributions. -/
structure GenCtx where
  cfg : HashCfg
  model : ValueModel
  customs : List (String × CustomDist)

/-- `this.custom(name)`: lookup a custom distribution, throwing when
unknown. -/
def customLookup (ctx : GenCtx) (name : String) : Except GenErr CustomDist :=
  match ctx.customs.lookup name with
  | none => .error (.exception ("Unknown custom distribution: " ++ name))
  | some d => .ok d

/-- `stringFromDistPtr(x)` from `part_010`. -/
def stringFromDistPtr (x : DistPtr) : String :=
  x.distId ++ ":" ++ toString x.sourceIndex

/-- `valueHasDistPtr(v)` from `part_010`: every node type except `Variable`
carries a distPtr. -/
def valueHasDistPtr : Value → Bool
  | .varRef _ => false
  | _ => true

/-- The runtime `distPtr` field of a node (`none` both for `Variable` and
for a node whose field is absent). -/
def Value.getDistPtr : Value → Option DistPtr
  | .classInstantiation _ dp _ _ => dp
  | .staticMethodCall _ dp _ _ _ _ => dp
  | .staticProperty _ dp _ _ => dp
  | .structLiteral _ dp _ => dp
  | .mapLiteral dp _ => dp
  | .arrayValue dp _ => dp
  | .primitiveValue dp _ => dp
  | .noValue dp => dp
  | .scopeValue dp => dp
  | .varRef _ => none

/-- `validateValue(v)` from `part_010`: throw when a non-`Variable` node is
missing its distPtr, else pass the value through. -/
def validateValue (v : Value) : Except GenErr Value :=
  if valueHasDistPtr v = true ∧ v.getDistPtr = none then
    .error (.exception "Value is missing distPtr")
  else
    .ok v


/-! ## A state-threading error monad

The source methods thread two kinds of effects: mutation of instance state
(the PRNG, and for the mutator also the proposal reservoir) and
`Result`/exception propagation.  `StM σ α` threads the state also through
errors (a thrown exception does not roll back `this.random`). -/
def StM (σ α : Type) := σ → Except GenErr α × σ

/-- Return a pure value. -/
def StM.pure {σ α : Type} (a : α) : StM σ α := fun s => (.ok a, s)

/-- Sequencing: propagate any error, threading the state. -/
def StM.bind {σ α β : Type} (x : StM σ α) (f : α → StM σ β) : StM σ β :=
  fun s =>
    match x s with
    | (.ok a, s1) => f a s1
    | (.error e, s1) => (.error e, s1)

instance {σ : Type} : Monad (StM σ) where
  pure := StM.pure
  bind := StM.bind

/-- Raise an error (a `Result` failure or a thrown exception). -/
def StM.throw {σ α : Type} (e : GenErr) : StM σ α := fun s => (.error e, s)

/-- Lift a pure state transition (e.g. a PRNG draw) into the monad. -/
def StM.draw {σ α : Type} (g : σ → α × σ) : StM σ α :=
  fun s => let (a, s1) := g s; (.ok a, s1)

/-- Lift an `Except` value (no state use). -/
def StM.ofExcept {σ α : Type} (x : Except GenErr α) : StM σ α :=
  fun s => (x, s)

/-- Read the state. -/
def StM.get {σ : Type} : StM σ σ := fun s => (.ok s, s)

/-- Replace the state. -/
def StM.set {σ : Type} (s1 : σ) : StM σ Unit := fun _ => (.ok (), s1)

/-- A computation that never reports fuel exhaustion, whatever the state. -/
def StM.NoFuel {σ α : Type} (x : StM σ α) : Prop :=
  ∀ s, (x s).1 ≠ Except.error .fuelExhausted

/-- The generator's monad: state is the PRNG. -/
abbrev GenM (α : Type) := StM Rng α

/-- Modify the error of a computation (used for `prependFailure`), leaving
successes and the state untouched. -/
def StM.mapError {σ α : Type} (f : GenErr → GenErr) (x : StM σ α) : StM σ α :=
  fun s =>
    match x s with
    | (.error e, s1) => (.error (f e), s1)
    | ok => ok

/-! ## The minimal-value generator of `part_010` (`ValueGenerator`)

The `Result`-monadic draft with the recursion breaker.  The recursion is
embedded with a fuel parameter that is consumed exactly once per
`minimalValue` nesting (the only recursive knot in the source); the helper
loops are structural over their lists and receive the next-level
`minimalValue` as an explicit function argument.  `fuelExhausted` propagates
like an exception; in particular `trySourcesGo` recovers only from `Result`
failures, so fuel exhaustion is never masked by "try the next source". -/
namespace GenR

/-- The nested-generation oracle: `minimalValue` at the next fuel level. -/
abbrev MinOracle := DistributionRef → Zipper → GenM Value

/-- `minimalPrimitive(p, source)` from `part_010`: the minimal primitive
defaults (random 1-10 character string, random integer in `[1, 10]`,
`false`, the epoch, the empty map for `json`/`any`). -/
def minimalPrimitive (p : PrimitiveName) (source : DistPtr) : GenM Value :=
  match p with
  | .string =>
    StM.bind (StM.draw fun rng => rng.generateString 1 10 ALPHABET_CHARS)
      fun s => StM.pure (.primitiveValue (some source) (.str s))
  | .number =>
    StM.bind (StM.draw fun rng => rng.pickNr 1 10)
      fun n => StM.pure (.primitiveValue (some source) (.num (Int.ofNat n)))
  | .boolean => StM.pure (.primitiveValue (some source) (.boolean false))
  | .json => StM.pure (.mapLiteral (some source) [])
  | .any => StM.pure (.mapLiteral (some source) [])
  | .date => StM.pure (.primitiveValue (some source) (.date 0))

/-- The `no-value` padding of `fillMinimalArguments`: remaining parameter
slots get `NoValue` placeholders pointing at alternative 0 of their
parameter's distribution. -/
def padNoValues (ps : List ParameterSource) : List Value :=
  ps.map fun p => Value.noValue (some ⟨p.dist.distId, 0⟩)

/-- The argument loop of `fillMinimalArguments`: generate arguments in
order; once one resolves to `no-value`, stop and pad the remainder
(including the current position) with `NoValue` placeholders. -/
def fillArgsGo (mv : MinOracle) (base : Value) (loc : Zipper) :
    List ParameterSource → Nat → GenM (List Value)
  | [], _ => StM.pure []
  | p :: rest, i =>
    StM.bind (mv p.dist (zipperDescendN loc base i)) fun arg =>
      match arg with
      | .noValue _ => StM.pure (padNoValues (p :: rest))
      | arg =>
        StM.bind (fillArgsGo mv base loc rest (i + 1)) fun args =>
          StM.pure (arg :: args)

/-- The field loop of `fillMinimalFields` (`part_010`): descend into every
declared field in order; every field must succeed, and the produced value is
recorded in the entries map (a `no-value` result is recorded too). -/
def fillFieldsGo (mv : MinOracle) (base : Value) (loc : Zipper) :
    List (String × DistributionRef) → GenM (List (String × Value))
  | [] => StM.pure []
  | (k, ref) :: rest =>
    StM.bind (mv ref (zipperDescendS loc base k)) fun v =>
      StM.bind (fillFieldsGo mv base loc rest) fun entries =>
        StM.pure ((k, v) :: entries)

/-- `_minimalValueFromSource(source, distPtr, loc)` from `part_010`, with the
next-level generation oracle already specialized to the updated recursion
breaker. -/
def minimalValueFromSourceU (ctx : GenCtx) (mv : MinOracle)
    (source : ResolvedValueSource) (distPtr : DistPtr) (loc : Zipper) :
    GenM Value :=
  match source with
  | .classInstantiation fqn ps =>
    let base := Value.classInstantiation fqn (some distPtr) (ps.map (·.name)) []
    StM.bind (fillArgsGo mv base loc ps 0) fun args =>
      StM.pure (.classInstantiation fqn (some distPtr) (ps.map (·.name)) args)
  | .staticMethodCall fqn m ps t =>
    let base := Value.staticMethodCall fqn (some distPtr) m t (ps.map (·.name)) []
    StM.bind (fillArgsGo mv base loc ps 0) fun args =>
      StM.pure (.staticMethodCall fqn (some distPtr) m t (ps.map (·.name)) args)
  | .staticProperty fqn p t => StM.pure (.staticProperty fqn (some distPtr) p t)
  | .valueObject fqn fields =>
    let base := Value.structLiteral fqn (some distPtr) []
    StM.bind (fillFieldsGo mv base loc fields) fun entries =>
      StM.pure (.structLiteral fqn (some distPtr) entries)
  | .constant v => StM.pure v
  | .noValue => StM.pure (.noValue (some distPtr))
  | .primitive p => minimalPrimitive p distPtr
  | .array elemsRef =>
    -- A minimal array has one element in it; if the element cannot be
    -- generated, no array is generated at all.
    let arrayBase := Value.arrayValue (some distPtr) []
    StM.bind
      (StM.mapError (GenErr.prepend "Could not generate array")
        (mv elemsRef (zipperDescendN loc arrayBase 0)))
      fun element => StM.pure (.arrayValue (some distPtr) [element])
  | .map _ => StM.pure (.mapLiteral (some distPtr) [])
  | .custom name =>
    StM.bind (StM.ofExcept (customLookup ctx name)) fun d =>
      StM.pure (d.minimalValue distPtr loc name)

/-- `minimalValueFromSource(source, distPtr, loc)` from `part_010`: fail with
"Breaking recursion" when the distPtr is already on the construction stack,
otherwise run the body with the key added to the breaker (removed on return,
which the purely functional breaker gives for free), validating the produced
value. -/
def minimalValueFromSource (ctx : GenCtx)
    (mv : List String → MinOracle) (breaker : List String)
    (source : ResolvedValueSource) (distPtr : DistPtr) (loc : Zipper) :
    GenM Value :=
  let distPtrKey := stringFromDistPtr distPtr
  if breaker.contains distPtrKey then
    StM.throw (.failure "Breaking recursion")
  else
    StM.bind
      (minimalValueFromSourceU ctx (mv (distPtrKey :: breaker)) source distPtr loc)
      fun v => StM.ofExcept (validateValue v)

/-- The candidate loop of `minimalValue`: attempt each resolved source in
order (index `i` giving the `DistPtr`), returning the first success,
recovering only from `Result` failures, and reporting "no options left to
try" when every candidate fails. -/
def trySourcesGo (attempt : Nat → ResolvedValueSource → GenM Value) :
    List ResolvedValueSource → Nat → GenM Value
  | [], _ => StM.throw (.failure "no options left to try")
  | s :: rest, i => fun rng =>
    match attempt i s rng with
    | (.error (.failure _), rng1) => trySourcesGo attempt rest (i + 1) rng1
    | other => other

/-- `minimalValue(dist, loc)` from `part_010`, indexed by fuel: resolve the
distribution and try each candidate in order, skipping (via a `Result`
failure) distPtrs already on the construction stack. -/
def minimalValue (ctx : GenCtx) : Nat → List String → DistributionRef →
    Zipper → GenM Value
  | 0 => fun _ _ _ => StM.throw .fuelExhausted
  | fuel + 1 => fun breaker dist loc =>
    StM.bind (StM.ofExcept (resolveDistR ctx.model dist)) fun sources =>
      trySourcesGo
        (fun i s =>
          minimalValueFromSource ctx (minimalValue ctx fuel) breaker s
            ⟨dist.distId, i⟩ loc)
        sources 0

/-- `minimal(fqn)` from `part_010`: record the anonymous distribution
`[FqnRef(fqn)]` (which mutates the model) and generate a minimal value from
it with an empty zipper and an empty recursion breaker. -/
def minimal (cfg : HashCfg) (model : ValueModel)
    (customs : List (String × CustomDist)) (fuel : Nat) (fqn : String) :
    GenM Value :=
  match recordDistribution cfg model [ValueSource.fqn fqn] with
  | (.error e, _) => StM.throw e
  | (.ok ref, model1) => minimalValue ⟨cfg, model1, customs⟩ fuel [] ref []

end GenR

/-! ## Termination bound for the `part_010` generator

Every distPtr the generator ever attempts comes from a successful
`resolveDist` on a distribution stored in the model, so the recursion
breaker only ever holds keys from the finite set below; a key is added on
attempt and no key is attempted twice while on the construction stack (the
"Breaking recursion" check), so the `minimalValue` nesting depth — which is
exactly what the fuel counts — is bounded by the number of those keys. -/

/-- The length of the resolved distribution under an id (0 when resolution
fails). -/
def resolvedLen (model : ValueModel) (id : String) : Nat :=
  match resolveDistR model ⟨id⟩ with
  | .ok l => l.length
  | .error _ => 0

/-- All recursion-breaker keys that can ever be attempted against a fixed
model: one per alternative of each stored distribution's resolution. -/
def allPtrKeys (model : ValueModel) : Finset String :=
  (model.distributions.map Prod.fst).toFinset.biUnion fun id =>
    ((List.range (resolvedLen model id)).map
      (fun i => stringFromDistPtr ⟨id, i⟩)).toFinset

/-- The fuel bound for `GenR.minimal cfg model customs · fqn`: one more than
the number of attemptable distPtr keys of the model after the anonymous
`[FqnRef(fqn)]` distribution has been recorded. -/
def genBound (cfg : HashCfg) (model : ValueModel) (fqn : String) : Nat :=
  match recordDistribution cfg model [ValueSource.fqn fqn] with
  | (.ok _, model1) => (allPtrKeys model1).card + 1
  | (.error _, _) => 1

/-! ## Concrete instances used by witnesses

The hash externals are abstract parameters of the embedding; witnesses
instantiate them with simple concrete functions.  The deterministic PRNG
streams below pin the draws of concrete runs. -/

/-- A concrete hash configuration for witnesses: a constant serialization
and digest (content addressing is not exercised by these witnesses; the only
requirement is that the computed id be a concrete string). -/
def hashCfgConst : HashCfg := { stringify := fun _ => "", sha256hex := fun _ => "anonhash" }

/-- The all-zero draw stream. -/
def zeroRng : Rng := ⟨fun _ => 0, 0⟩

/-- The synthetic cyclic registry of the spec's recursion-termination test:
`A`'s constructor takes a `B`, `B`'s constructor takes an `A`, and each
parameter distribution offers the class reference first and a `NoValue`
escape hatch second. -/
def cyclicABModel : ValueModel :=
  { fqnSources :=
      [("A", [FqnSource.classInstantiation "A" [⟨"b", ⟨"dB"⟩⟩]]),
       ("B", [FqnSource.classInstantiation "B" [⟨"a", ⟨"dA"⟩⟩]])],
    distributions :=
      [("dB", [ValueSource.fqn "B", ValueSource.noValue]),
       ("dA", [ValueSource.fqn "A", ValueSource.noValue])] }

/-- A hash configuration whose serialization is the length of the
distribution and whose digest is constant: useful to exhibit both the
idempotent path and a hash collision concretely. -/
def hashCfgLen : HashCfg :=
  { stringify := fun d => toString d.length, sha256hex := fun _ => "h" }

/-- A model whose table already stores the one-element distribution
`[NoValue]` under the (constant) digest "h". -/
def modelStoredNoValue : ValueModel :=
  { fqnSources := [], distributions := [("h", [ValueSource.noValue])] }

/-- The struct scenario of the spec (`M.Props { name: string, count?: number }`):
a value object with a required string field and an optional number field
whose distribution lists `NoValue` first (the extractor's ordering for
optional members). -/
def propsModel : ValueModel :=
  { fqnSources :=
      [("M.Props", [FqnSource.valueObject "M.Props"
        [("name", ⟨"dName"⟩), ("count", ⟨"dCount"⟩)]])],
    distributions :=
      [("dName", [ValueSource.primitive .string]),
       ("dCount", [ValueSource.noValue, ValueSource.primitive .number])] }

/-- A generator context whose model stores one number-element distribution,
used to exercise the array source concretely. -/
def arrCtx : GenCtx :=
  ⟨hashCfgConst,
   { fqnSources := [], distributions := [("dEl", [ValueSource.primitive .number])] },
   []⟩

/-! ## Structural predicates on generated values -/

mutual
/-- The argument-count invariant of the claim set: every
`ClassInstantiation`/`StaticMethodCall` node has as many arguments as
parameter names, recursively. -/
def argLenOk : Value → Bool
  | .classInstantiation _ _ names args =>
    names.length == args.length && argLenOkList args
  | .staticMethodCall _ _ _ _ names args =>
    names.length == args.length && argLenOkList args
  | .structLiteral _ _ entries => argLenOkEntries entries
  | .mapLiteral _ entries => argLenOkEntries entries
  | .arrayValue _ els => argLenOkList els
  | _ => true
/-- `argLenOk` over a list of values. -/
def argLenOkList : List Value → Bool
  | [] => true
  | v :: vs => argLenOk v && argLenOkList vs
/-- `argLenOk` over entry lists. -/
def argLenOkEntries : List (String × Value) → Bool
  | [] => true
  | (_, v) :: rest => argLenOk v && argLenOkEntries rest
end

/-- Whether a `ValueSource`'s constant payload (if any) satisfies a
predicate. -/
def srcConstOk (P : Value → Bool) : ValueSource → Bool
  | .constant v => P v
  | _ => true

/-- All `Constant` sources stored in the model's distribution table carry
values satisfying `P`.  Constant values are returned by the generator
verbatim, so structural guarantees about generated values are relative to
the constants the model carries. -/
def ConstsOk (P : Value → Bool) (model : ValueModel) : Prop :=
  ∀ kv ∈ model.distributions, ∀ src ∈ kv.2, srcConstOk P src = true

/-- All registered custom distributions produce values satisfying `P`
(custom plug-ins are open-ended, the generator delegates to them). -/
def CustomsOk (P : Value → Bool) (customs : List (String × CustomDist)) : Prop :=
  ∀ nc ∈ customs, ∀ dp z n, P (nc.2.minimalValue dp z n) = true

/-! ## The evaluator (`evaluate.ts`, `Evaluator`)

The evaluator reifies the IR against the host library.  Host-side facilities
(the FQN-to-callable reflection of `resolveType`, `assertCallable`,
`Reflect.construct`/`Reflect.apply`, static member reads, and the
`Stack` scope object) are external (spec §1 keeps the host reflection
mechanism out of scope), so they are abstracted into a `Host` record whose
operations the theorems quantify over; each is invoked after the arguments
are evaluated left to right, exactly where the source calls into the host.
The dispatch of `Evaluator.evaluate` itself — in particular that the
`no-value` case returns `undefined` — is translated from `evaluate.ts`. -/

/-- A JS runtime value as the evaluator sees it: `undefined`, a primitive, an
array, a plain object (from map/struct literals), or an opaque host object. -/
inductive RtValue (H : Type) where
  | undef
  | prim (p : PrimValue)
  | arr (xs : List (RtValue H))
  | obj (entries : List (String × RtValue H))
  | host (h : H)

/-- The host-library surface the evaluator calls into. -/
structure Host (H : Type) where
  construct : String → List (RtValue H) → Except String (RtValue H)
  staticCall : String → String → List (RtValue H) → Except String (RtValue H)
  staticProp : String → String → Except String (RtValue H)
  scope : RtValue H

namespace Evaluator

mutual
/-- `Evaluator.evaluate(plan)` from `evaluate.ts`: dispatch on the node
variant.  Note the `no-value` case: `return undefined`. -/
def evaluate {H : Type} (host : Host H) (vars : List (String × RtValue H)) :
    Value → Except String (RtValue H)
  | .noValue _ => .ok .undef
  | .primitiveValue _ p => .ok (.prim p)
  | .scopeValue _ => .ok host.scope
  | .arrayValue _ els =>
    match evaluateList host vars els with
    | .ok xs => .ok (.arr xs)
    | .error e => .error e
  | .structLiteral _ _ entries =>
    match evaluateEntries host vars entries with
    | .ok es => .ok (.obj es)
    | .error e => .error e
  | .mapLiteral _ entries =>
    match evaluateEntries host vars entries with
    | .ok es => .ok (.obj es)
    | .error e => .error e
  | .classInstantiation fqn _ _ args =>
    match evaluateList host vars args with
    | .ok xs => host.construct fqn xs
    | .error e => .error e
  | .staticMethodCall fqn _ m _ _ args =>
    match evaluateList host vars args with
    | .ok xs => host.staticCall fqn m xs
    | .error e => .error e
  | .staticProperty fqn _ p _ => host.staticProp fqn p
  | .varRef name =>
    match vars.lookup name with
    | some v => .ok v
    | none => .error ("Undefined variable: " ++ name)
/-- Evaluate `plan.arguments.map(a => this.evaluate(a))`. -/
def evaluateList {H : Type} (host : Host H) (vars : List (String × RtValue H)) :
    List Value → Except String (List (RtValue H))
  | [] => .ok []
  | v :: vs =>
    match evaluate host vars v with
    | .ok x =>
      match evaluateList host vars vs with
      | .ok xs => .ok (x :: xs)
      | .error e => .error e
    | .error e => .error e
/-- Evaluate the entries of an object/map literal in order. -/
def evaluateEntries {H : Type} (host : Host H)
    (vars : List (String × RtValue H)) :
    List (String × Value) → Except String (List (String × RtValue H))
  | [] => .ok []
  | (k, v) :: rest =>
    match evaluate host vars v with
    | .ok x =>
      match evaluateEntries host vars rest with
      | .ok xs => .ok ((k, x) :: xs)
      | .error e => .error e
    | .error e => .error e
end

/-- `evaluateStatement(s)` from `evaluate.ts`: an assignment evaluates its
value and binds it (a second bind of the same name is a fatal error); an
expression is evaluated for side effect. -/
def evaluateStatement {H : Type} (host : Host H)
    (vars : List (String × RtValue H)) (s : Statement) :
    Except String (List (String × RtValue H)) :=
  match s with
  | .assignment name v =>
    if (vars.lookup name).isSome then
      .error ("Variable name already used: " ++ name)
    else
      match evaluate host vars v with
      | .ok x => .ok (vars ++ [(name, x)])
      | .error e => .error e
  | .expression v =>
    match evaluate host vars v with
    | .ok _ => .ok vars
    | .error e => .error e

end Evaluator

/-- A trivial host over the unit type: every host call fails (no library
loaded); used to evaluate host-free nodes concretely. -/
def trivialHost : Host Unit :=
  { construct := fun _ _ => .error "no host",
    staticCall := fun _ _ _ => .error "no host",
    staticProp := fun _ _ => .error "no host",
    scope := .host () }

/-! ## Statement discretization (`statements.ts`, `discretize`) -/

/-- The accumulator state of `discretize`: the emitted statements and the
per-name counters of `makeVariableName`. -/
structure DiscSt where
  statements : List Statement
  varCtr : List (String × Nat)

/-- `makeVariableName(fqn)`: `lcfirst` of the simple class name, suffixed
with the per-name counter only from the second occurrence on (`i > 1`). -/
def makeVariableName (fqn : String) (st : DiscSt) : String × DiscSt :=
  let variableName := lcfirst (classNameFromFqn fqn)
  let i := ((st.varCtr.lookup variableName).getD 0) + 1
  ((variableName ++ (if i > 1 then toString i else "")),
   { st with varCtr := assocSet st.varCtr variableName i })

/-- `extract(x, namingHint)`: emit an `Assignment` and return a `Variable`
reference to it. -/
def discretizeExtract (x : Value) (namingHint : String) (st : DiscSt) :
    Value × DiscSt :=
  let (variableName, st1) := makeVariableName namingHint st
  (.varRef variableName,
   { st1 with statements := st1.statements ++ [.assignment variableName x] })

/-- `maybeExtract(x, namingHint)`: extract only in a nested context
(`nestingLevel > 0`) and only for callables. -/
def discretizeMaybeExtract (nesting : Nat) (x : Value) (namingHint : String)
    (st : DiscSt) : Value × DiscSt :=
  if nesting = 0 then (x, st)
  else
    match x with
    | .classInstantiation _ _ _ _ => discretizeExtract x namingHint st
    | .staticMethodCall _ _ _ _ _ _ => discretizeExtract x namingHint st
    | x => (x, st)

mutual
/-- The `recurse` of `discretize`: rebuild the value bottom-up; a
`class-instantiation` is always extracted, a `static-method-call` only via
`maybeExtract` (the nesting level is raised only inside object/map literal
entries, by `withNesting`). -/
def discretizeRecurse (nesting : Nat) (st : DiscSt) :
    Value → Value × DiscSt
  | .structLiteral fqn dp entries =>
    let (entries1, st1) := discretizeRecurseEntries (nesting + 1) st entries
    (.structLiteral fqn dp entries1, st1)
  | .mapLiteral dp entries =>
    let (entries1, st1) := discretizeRecurseEntries (nesting + 1) st entries
    (.mapLiteral dp entries1, st1)
  | .classInstantiation fqn dp names args =>
    let (args1, st1) := discretizeRecurseList nesting st args
    discretizeExtract (.classInstantiation fqn dp names args1) fqn st1
  | .staticMethodCall fqn dp m t names args =>
    let (args1, st1) := discretizeRecurseList nesting st args
    discretizeMaybeExtract nesting
      (.staticMethodCall fqn dp m t names args1) fqn st1
  | .arrayValue dp els =>
    let (els1, st1) := discretizeRecurseList nesting st els
    (.arrayValue dp els1, st1)
  | x => (x, st)
/-- `x.arguments.map(recurse)` / `x.elements.map(recurse)`, threading the
statement state left to right. -/
def discretizeRecurseList (nesting : Nat) (st : DiscSt) :
    List Value → List Value × DiscSt
  | [] => ([], st)
  | v :: vs =>
    let (v1, st1) := discretizeRecurse nesting st v
    let (vs1, st2) := discretizeRecurseList nesting st1 vs
    (v1 :: vs1, st2)
/-- `mapValues(x.entries, recurse)`, threading the statement state. -/
def discretizeRecurseEntries (nesting : Nat) (st : DiscSt) :
    List (String × Value) → List (String × Value) × DiscSt
  | [] => ([], st)
  | (k, v) :: rest =>
    let (v1, st1) := discretizeRecurse nesting st v
    let (rest1, st2) := discretizeRecurseEntries nesting st1 rest
    ((k, v1) :: rest1, st2)
end

/-- `discretize(value)` from `statements.ts`: recursively rebuild the value
extracting nested callables into assignments; if the terminal value is a
variable, collapse its defining assignment back into a trailing
expression. -/
def discretize (value : Value) : List Statement :=
  let (v, st) := discretizeRecurse 0 ⟨[], []⟩ value
  match v with
  | .varRef name =>
    st.statements.map fun s =>
      match s with
      | .assignment vn sv => if vn = name then .expression sv else .assignment vn sv
      | s => s
  | v => st.statements ++ [.expression v]

/-- The claim's discretization example: `Outer(Inner())`, with an argument
slot for `Outer` and distPtrs on both nodes. -/
def outerInnerValue : Value :=
  .classInstantiation "Outer" (some ⟨"dO", 0⟩) ["x"]
    [.classInstantiation "Inner" (some ⟨"dI", 0⟩) [] []]

/-- A variant with the inner instantiation repeated twice, exercising the
variable-name counter. -/
def outerInnerTwiceValue : Value :=
  .classInstantiation "Outer" (some ⟨"dO", 0⟩) ["x", "y"]
    [.classInstantiation "Inner" (some ⟨"dI", 0⟩) [] [],
     .classInstantiation "Inner" (some ⟨"dI", 0⟩) [] []]

/-- A variant with a static method call nested in the class argument
position. -/
def outerStaticCallValue : Value :=
  .classInstantiation "Outer" (some ⟨"dO", 0⟩) ["x"]
    [.staticMethodCall "Maker" (some ⟨"dM", 0⟩) "of" "T" [] []]

/-! ## `Random.randomIteration` and the binary gcd (`part_008`)

The bitwise operations of the source's binary gcd translate to arithmetic:
`x >> 1` is `x / 2`, `x << s` is `x * 2 ^ s`, and `((u | v) & 1) == 0`
holds exactly when both `u` and `v` are even. -/

/-- The `while ((u & 1) == 0) u >>= 1` loop of `gcd`: strip factors of two.
(The source loop would not terminate on 0; the strip is only ever entered
with a positive argument, where the added `u ≠ 0` guard is vacuous.) -/
def oddPart (u : Nat) : Nat :=
  if h : u ≠ 0 ∧ u % 2 = 0 then oddPart (u / 2) else u
  termination_by u
  decreasing_by
    exact Nat.div_lt_self (Nat.pos_of_ne_zero h.1) (by omega)

/-- The common power-of-two stripping loop of `gcd` (`for shift; ((u | v) & 1)
== 0; shift++`), with a vacuous positivity guard for termination. -/
def stripCommon (u v s : Nat) : Nat × Nat × Nat :=
  if h : (u % 2 = 0 ∧ v % 2 = 0) ∧ 0 < u + v then
    stripCommon (u / 2) (v / 2) (s + 1)
  else
    (u, v, s)
  termination_by u + v
  decreasing_by
    omega

/-- The `do { ... } while (v != 0)` loop of `gcd`: strip `v`'s twos, swap so
`u` is the smaller, subtract, and stop when the difference hits zero.  Fuel
`u + v` always suffices (proved below). -/
def gcdLoopF : Nat → Nat → Nat → Nat
  | 0, u, _ => u
  | fuel + 1, u, v =>
    let v2 := oddPart v
    if u > v2 then
      if u - v2 = 0 then v2 else gcdLoopF fuel v2 (u - v2)
    else
      if v2 - u = 0 then u else gcdLoopF fuel u (v2 - u)

/-- `gcd(u, v)` from `part_008`: Stein's binary gcd. -/
def gcdBin (u v : Nat) : Nat :=
  if u = 0 then v
  else if v = 0 then u
  else
    let (u1, v1, shift) := stripCommon u v 0
    let u2 := oddPart u1
    gcdLoopF (u2 + v1) u2 v1 * 2 ^ shift

/-- `calculateCoprimes(min, target)`: the values in `[min, target)` coprime
with `target`, capped at the first 100000 (the loop breaks right after
pushing the 100000th). -/
def calculateCoprimes (min target : Nat) : List Nat :=
  ((List.range' min (target - min)).filter fun val => gcdBin val target == 1).take 100000

/-- `selectStride(n)`: pick a stride uniformly from the coprimes of `n` in
`[n / 2, n)` (the per-instance stride cache only memoizes
`calculateCoprimes` and is semantically transparent). -/
def selectStride (rng : Rng) (n : Nat) : Except GenErr (Nat × Rng) :=
  rng.pickFrom (calculateCoprimes (n / 2) n)

/-- The index walk of `randomIteration`: starting at `offset`, step by
`prime`, wrapping by a single subtraction (`index += prime; if (index >= N)
index -= N`), yielding `count` indices. -/
def lcgWalk (n prime : Nat) : Nat → Nat → List Nat
  | 0, _ => []
  | i + 1, index =>
    index :: lcgWalk n prime i
      (let idx := index + prime
       if idx ≥ n then idx - n else idx)

/-- `Random.randomIteration(xs)`: yield every element of `xs` paired with
its index, in LCG order (empty and singleton arrays short-circuit). -/
def randomIteration {α : Type} (xs : List α) (rng : Rng) :
    Except GenErr (List (α × Nat) × Rng) :=
  match xs with
  | [] => .ok ([], rng)
  | [x] => .ok ([(x, 0)], rng)
  | xs =>
    let n := xs.length
    let (offset, rng1) := rng.pickNr 0 (n - 1)
    match selectStride rng1 n with
    | .error e => .error e
    | .ok (prime, rng2) =>
      .ok ((lcgWalk n prime n offset).filterMap
        (fun i => (xs.get? i).map fun a => (a, i)), rng2)

/-! ## Reservoir sampling of `ValueMutator` (`mutate.ts` lines 29-46)

`proposeMutation(v)` draws `x = pickNr(0, n)` (uniform on `0..n`, where `n`
is the number of proposals made so far), increments `n`, and stores `v` into
reservoir slot `x` when `x < k`.  `pure-rand`'s `uniformIntDistribution(0, n)`
is uniform and successive draws are independent, so over a whole `mutate`
run enumerating `n` proposals, every admissible draw sequence
`[x₀, …, xₙ₋₁]` with `xᵢ ≤ i` is equally likely.  The distributional claim
is therefore stated by counting draw sequences: `drawSpace n` is the
(equiprobable) space of admissible draw sequences, and `reservoirSelect`
maps a draw sequence to the set of proposal indices left in the reservoir. -/

/-- One `proposeMutation` call with draw `x` and payload `v`: store `v` into
slot `x` iff `x < k` (`mutate.ts` lines 41-46). -/
def proposeMutation {α : Type} (k : Nat) (x : Nat) (v : α) (slots : List (Option α)) :
    List (Option α) :=
  if x < k then slots.set x (some v) else slots

/-- Run a whole proposal stream through the reservoir: each list entry is a
draw paired with its proposal's payload. -/
def runReservoir {α : Type} (k : Nat) : List (Nat × α) → List (Option α) → List (Option α)
  | [], slots => slots
  | (x, v) :: rest, slots => runReservoir k rest (proposeMutation k x v slots)

/-- The set of proposal indices that survive in the reservoir after
enumerating proposals `0..n-1` with draw sequence `l` (`new Array(k)` starts
with every slot empty; unfilled slots contribute nothing). -/
def reservoirSelect (k n : Nat) (l : List Nat) : Finset Nat :=
  ((runReservoir k (l.zip (List.range n)) (List.replicate k (Option.none))).filterMap id).toFinset

/-- All admissible draw sequences for `n` proposals: the `i`-th draw is
uniform on `0..i`, so sequence entry `i` ranges over `0..i` and all
sequences are equally likely. -/
def drawSpace : Nat → Finset (List Nat)
  | 0 => {[]}
  | n + 1 => (drawSpace n ×ˢ Finset.range (n + 1)).image fun p => p.1 ++ [p.2]

/-- Modelled from the spec: the reservoir selection is distributed as a
uniform sample without replacement of `min k n` of the `n` proposals, i.e.
each subset of size `min k n` appears with probability
`1 / choose n (min k n)` and no other subset appears.  Stated by counting
(cross-multiplied) over the equiprobable draw space. -/
def uniformReservoir (k n : Nat) : Prop :=
  ∀ A ∈ (Finset.range n).powerset,
    ((drawSpace n).filter fun l => reservoirSelect k n l = A).card * Nat.choose n (min k n)
      = if A.card = min k n then (drawSpace n).card else 0

/-! ## The older thrown-exception generator of `generate.ts` (`ValueGenerator`)

This is the draft the `ValueMutator` of `mutate.ts` extends: it resolves with
the throwing `DistributionOps` draft, always picks alternative 0
(`resolveDist(dist)[0]`, `sourceIndex: 0`), produces empty arrays, and its
`fillMinimalFields` omits `no-value` results.  The argument loop
(`fillMinimalArguments`) is the same break-then-pad loop as `part_010`'s, so
`GenR.fillArgsGo` is reused; `minimalPrimitive` is also identical.  The
recursion through `minimalValue` is fuel-indexed exactly like `GenR`'s
(this draft has no recursion breaker, so on cyclic models only the fuel
stops it — the fuel marker propagates as an error and no theorem below
depends on it being sufficient). -/
namespace GenT

/-- The field loop of `fillMinimalFields` (`generate.ts` lines 161-169):
descend into every declared field in order, recording only results that are
not `no-value`. -/
def fillFieldsGo (mv : GenR.MinOracle) (base : Value) (loc : Zipper) :
    List (String × DistributionRef) → GenM (List (String × Value))
  | [] => StM.pure []
  | (k, ref) :: rest =>
    StM.bind (mv ref (zipperDescendS loc base k)) fun v =>
      StM.bind (fillFieldsGo mv base loc rest) fun entries =>
        StM.pure
          (match v with
           | .noValue _ => entries
           | v => (k, v) :: entries)

/-- `minimalValueFromSource(source, distPtr, loc)` from `generate.ts`, with
the next-level generation oracle passed explicitly. -/
def minimalValueFromSource (ctx : GenCtx) (mv : GenR.MinOracle)
    (source : ResolvedValueSource) (distPtr : DistPtr) (loc : Zipper) :
    GenM Value :=
  match source with
  | .classInstantiation fqn ps =>
    let base := Value.classInstantiation fqn (some distPtr) (ps.map (·.name)) []
    StM.bind (GenR.fillArgsGo mv base loc ps 0) fun args =>
      StM.pure (.classInstantiation fqn (some distPtr) (ps.map (·.name)) args)
  | .staticMethodCall fqn m ps t =>
    let base := Value.staticMethodCall fqn (some distPtr) m t (ps.map (·.name)) []
    StM.bind (GenR.fillArgsGo mv base loc ps 0) fun args =>
      StM.pure (.staticMethodCall fqn (some distPtr) m t (ps.map (·.name)) args)
  | .staticProperty fqn p t => StM.pure (.staticProperty fqn (some distPtr) p t)
  | .valueObject fqn fields =>
    let base := Value.structLiteral fqn (some distPtr) []
    StM.bind (fillFieldsGo mv base loc fields) fun entries =>
      StM.pure (.structLiteral fqn (some distPtr) entries)
  | .constant v => StM.pure v
  | .noValue => StM.pure (.noValue (some distPtr))
  | .primitive p => GenR.minimalPrimitive p distPtr
  | .array _ => StM.pure (.arrayValue (some distPtr) [])
  | .map _ => StM.pure (.mapLiteral (some distPtr) [])
  | .custom name =>
    StM.bind (StM.ofExcept (customLookup ctx name)) fun d =>
      StM.pure (d.minimalValue distPtr loc name)

/-- `minimalValue(dist, loc)` from `generate.ts`, fuel-indexed: resolve the
distribution (throwing draft) and generate from alternative 0 (an empty
resolution would make `resolveDist(dist)[0]` undefined and crash the switch,
modelled as a thrown exception — `resolveDist` itself already throws on an
empty result, so the inner guard is dead code). -/
def minimalValue (ctx : GenCtx) : Nat → DistributionRef → Zipper → GenM Value
  | 0 => fun _ _ => StM.throw .fuelExhausted
  | fuel + 1 => fun dist loc =>
    StM.bind (StM.ofExcept (resolveDistT ctx.model dist)) fun sources =>
      match sources with
      | [] => StM.throw (.exception "undefined source")
      | s :: _ => minimalValueFromSource ctx (minimalValue ctx fuel) s ⟨dist.distId, 0⟩ loc

/-- `minimal(fqn)` from `generate.ts`: record the anonymous `[FqnRef(fqn)]`
distribution and generate from it at an empty zipper. -/
def minimal (cfg : HashCfg) (model : ValueModel)
    (customs : List (String × CustomDist)) (fuel : Nat) (fqn : String) :
    GenM Value :=
  match recordDistribution cfg model [ValueSource.fqn fqn] with
  | (.error e, _) => StM.throw e
  | (.ok ref, model1) => minimalValue ⟨cfg, model1, customs⟩ fuel ref []

end GenT

/-! ## The DistPtr invariant -/

mutual
/-- The invariant of the claim set: every node except `Variable` carries a
`DistPtr` (its `distPtr` field is present), recursively. -/
def hasDistPtrs : Value → Bool
  | .classInstantiation _ dp _ args => dp.isSome && hasDistPtrsList args
  | .staticMethodCall _ dp _ _ _ args => dp.isSome && hasDistPtrsList args
  | .staticProperty _ dp _ _ => dp.isSome
  | .structLiteral _ dp entries => dp.isSome && hasDistPtrsEntries entries
  | .mapLiteral dp entries => dp.isSome && hasDistPtrsEntries entries
  | .arrayValue dp els => dp.isSome && hasDistPtrsList els
  | .primitiveValue dp _ => dp.isSome
  | .noValue dp => dp.isSome
  | .scopeValue dp => dp.isSome
  | .varRef _ => true
/-- `hasDistPtrs` over a list of values. -/
def hasDistPtrsList : List Value → Bool
  | [] => true
  | v :: vs => hasDistPtrs v && hasDistPtrsList vs
/-- `hasDistPtrs` over entry lists. -/
def hasDistPtrsEntries : List (String × Value) → Bool
  | [] => true
  | (_, v) :: rest => hasDistPtrs v && hasDistPtrsEntries rest
end

/-- Well-formedness of one zipper frame: its parent node satisfies the
DistPtr invariant. -/
def locWf : ValueLoc → Bool
  | .classInstantiationLoc p _ => hasDistPtrs p
  | .staticMethodCallLoc p _ => hasDistPtrs p
  | .structFieldLoc p _ => hasDistPtrs p
  | .mapEntryLoc p _ => hasDistPtrs p
  | .arrayElementLoc p _ => hasDistPtrs p

/-- Well-formedness of a zipper: every frame's parent node satisfies the
DistPtr invariant. -/
def zipperWf (z : Zipper) : Bool := z.all locWf

/-- Well-formedness of a proposed mutation: its zipper is well-formed, and
for a `set` the spliced value satisfies the invariant too. -/
def mutationWf : Mutation → Bool
  | .set z v => zipperWf z && hasDistPtrs v
  | .delete z => zipperWf z

/-- Well-formedness of one reservoir slot (an empty slot is fine). -/
def optMutWf : Option Mutation → Bool
  | none => true
  | some m => mutationWf m

/-- Well-formedness of the whole reservoir. -/
def slotsWf (slots : List (Option Mutation)) : Bool := slots.all optMutWf

/-- All registered custom distributions propose only well-formed mutations
when handed a well-formed value and zipper (custom plug-ins are open-ended;
the mutator delegates to them). -/
def CustomMutsOk (customs : List (String × CustomDist)) : Prop :=
  ∀ nc ∈ customs, ∀ v z, hasDistPtrs v = true → zipperWf z = true →
    ∀ m ∈ nc.2.mutateProposals v z, mutationWf m = true

/-! ## The `ValueMutator` of `mutate.ts`

The mutator's instance state is the PRNG, the proposal counter `n` and the
reservoir `proposedMutations` (a JS array of `k` holes); `StM MutSt` threads
all three.  The inherited generator methods (`minimalValue`,
`minimalValueFromSource` from `generate.ts`) only touch the PRNG and are
lifted.  `mutateValue`'s recursion over the focused value is fuel-indexed
like the generators'.  JS accesses that the control flow keeps in range
(`value.elements[i]`, `value.arguments[arg]`, `value.entries[randomKey]`,
`source.parameters[value.arguments.length]`) would crash on `undefined` if
they ever fell out of range; these dead branches are modelled as thrown
exceptions. -/

/-- The instance state of a `ValueMutator`. -/
structure MutSt where
  rng : Rng
  n : Nat
  slots : List (Option Mutation)

/-- The mutator's monad: PRNG, proposal counter and reservoir. -/
abbrev MutM (α : Type) := StM MutSt α

/-- Run an inherited generator computation: only the PRNG part of the state
is touched. -/
def liftRng {α : Type} (x : GenM α) : MutM α := fun st =>
  match x st.rng with
  | (r, rng1) => (r, { st with rng := rng1 })

/-- Draw from the PRNG inside the mutator. -/
def drawM {α : Type} (g : Rng → α × Rng) : MutM α := fun st =>
  match g st.rng with
  | (a, rng1) => (.ok a, { st with rng := rng1 })

/-- `Random.pickFrom` inside the mutator (throws on an empty array). -/
def pickFromM {α : Type} (xs : List α) : MutM α := fun st =>
  match st.rng.pickFrom xs with
  | .ok (a, rng1) => (.ok a, { st with rng := rng1 })
  | .error e => (.error e, st)

/-- `proposeMutation(v)` as a state transition: draw `x = pickNr(0, n)`,
advance `n`, and store into slot `x` iff `x < k` (the slot update is the
`proposeMutation` function shared with the distribution analysis). -/
def proposeM (k : Nat) (m : Mutation) : MutM Unit := fun st =>
  match st.rng.pickNr 0 st.n with
  | (x, rng1) => (.ok (), ⟨rng1, st.n + 1, proposeMutation k x m st.slots⟩)

/-- Propose a list of mutations in order (the calls a custom distribution's
`mutate` makes through the callbacks it is handed). -/
def proposeAll (k : Nat) : List Mutation → MutM Unit
  | [] => StM.pure ()
  | m :: rest => StM.bind (proposeM k m) fun _ => proposeAll k rest

/-- JS `Math.round(v / k)` on integers: round half toward positive
infinity. -/
def jsRound (v k : Int) : Int := Int.fdiv (2 * v + k) (2 * k)

/-- `mutatePrimitiveValue(primitive)` from `mutate.ts` (lines 191-228):
flip a boolean; combine a number with a random operand 1-5 under a random
`+`/`-`/`*`/`/` (division JS-rounded, "keeping it an int"); slice or
prepend/append a random 1-4 character string; anything else (dates) is
returned unchanged. -/
def mutatePrimitiveValue (prim : PrimValue) : MutM PrimValue :=
  match prim with
  | .boolean b => StM.pure (.boolean (!b))
  | .num v =>
    StM.bind (drawM fun rng => rng.pickNr 1 5) fun opnd =>
      StM.bind (pickFromM ['+', '-', '*', '/']) fun op =>
        StM.pure (.num
          (if op = '+' then v + Int.ofNat opnd
           else if op = '-' then v - Int.ofNat opnd
           else if op = '/' then jsRound v (Int.ofNat opnd)
           else v * Int.ofNat opnd))
  | .str s =>
    StM.bind (pickFromM ["slice", "prepend", "append"]) fun op =>
      if op = "slice" then
        if s.data.length > 0 then
          StM.bind (drawM fun rng => rng.pickNr 0 s.data.length) fun i =>
            StM.bind (drawM fun rng => rng.pickNr 0 (s.data.length - i)) fun len =>
              StM.pure (.str (String.mk (s.data.take i ++ s.data.drop (i + len))))
        else StM.pure (.str s)
      else
        StM.bind (drawM fun rng => rng.generateString 1 4 ALPHABET_CHARS) fun str =>
          StM.pure (.str
            (if op = "prepend" then String.mk (str.data ++ s.data)
             else String.mk (s.data ++ str.data)))
  | .date d => StM.pure (.date d)

/-- The `sources.forEach((s, i) => ...)` loop of `mutateValue`: for every
alternative other than the value's own, propose replacing the focus with
that alternative's minimal value. -/
def proposeOtherSources (ctx : GenCtx) (k genFuel : Nat) (dp : DistPtr)
    (zipper : Zipper) : List ResolvedValueSource → Nat → MutM Unit
  | [], _ => StM.pure ()
  | s :: rest, i =>
    StM.bind
      (if i = dp.sourceIndex then StM.pure () else
        StM.bind
          (liftRng (GenT.minimalValueFromSource ctx (GenT.minimalValue ctx genFuel)
            s ⟨dp.distId, i⟩ zipper))
          fun v => proposeM k (.set zipper v))
      fun _ => proposeOtherSources ctx k genFuel dp zipper rest (i + 1)

/-- The argument loop of the class/static-method case: try each (shuffled)
argument position in turn, stopping after the first one whose recursive
mutation proposed something (`didPropose`). -/
def mutateArgsLoop (recurse : Value → Zipper → MutM Unit) (value : Value)
    (zipper : Zipper) (args : List Value) : List Nat → MutM Unit
  | [] => StM.pure ()
  | arg :: rest =>
    StM.bind StM.get fun st0 =>
      StM.bind
        (match args.get? arg with
         | some v => recurse v (zipperDescendN zipper value arg)
         | none => StM.throw (.exception "undefined argument"))
        fun _ =>
          StM.bind StM.get fun st1 =>
            if st1.n > st0.n then StM.pure ()
            else mutateArgsLoop recurse value zipper args rest

/-- The entry loop of the value-object case: recursively mutate every entry
of the struct literal in order. -/
def mutateEntriesLoop (recurse : Value → Zipper → MutM Unit) (value : Value)
    (zipper : Zipper) : List (String × Value) → MutM Unit
  | [] => StM.pure ()
  | (key, ev) :: rest =>
    StM.bind (recurse ev (zipperDescendS zipper value key)) fun _ =>
      mutateEntriesLoop recurse value zipper rest

/-- The shared body of the class-instantiation / static-method-call case:
propose appending a minimal next argument when one is missing, then walk the
shuffled argument positions until one proposes. -/
def mutateClassArgs (ctx : GenCtx) (k genFuel : Nat)
    (recurse : Value → Zipper → MutM Unit) (ps : List ParameterSource)
    (value : Value) (args : List Value) (zipper : Zipper) : MutM Unit :=
  StM.bind
    (if args.length < ps.length then
      match ps.get? args.length with
      | some p =>
        let newArgZipper := zipperDescendN zipper value args.length
        StM.bind (liftRng (GenT.minimalValue ctx genFuel p.dist newArgZipper))
          fun v => proposeM k (.set newArgZipper v)
      | none => StM.throw (.exception "undefined parameter")
    else StM.pure ())
    fun _ =>
      if args.length > 0 then
        StM.bind (drawM fun rng => rng.shuffleMutate (rangeList args.length))
          fun shuffled => mutateArgsLoop recurse value zipper args shuffled
      else StM.pure ()

/-- The `switch (source.type)` of `mutateValue` (`mutate.ts` lines 74-175),
with the recursive call passed explicitly. -/
def mutateValueSwitch (ctx : GenCtx) (k genFuel : Nat)
    (recurse : Value → Zipper → MutM Unit)
    (source : ResolvedValueSource) (value : Value) (zipper : Zipper) :
    MutM Unit :=
  match source with
  | .noValue => StM.pure ()
  | .staticProperty _ _ _ => StM.pure ()
  | .constant _ => StM.pure ()
  | .array elemsRef =>
    match value with
    | .arrayValue dp els =>
      let addZipper := zipperDescendN zipper (Value.arrayValue dp els) els.length
      StM.bind
        (StM.bind (liftRng (GenT.minimalValue ctx genFuel elemsRef addZipper))
          fun v => proposeM k (.set addZipper v))
        fun _ =>
          if els.length > 0 then
            StM.bind (drawM fun rng => rng.pickNr 0 (els.length - 1)) fun i =>
              let elZipper := zipperDescendN zipper (Value.arrayValue dp els) i
              StM.bind (proposeM k (.delete elZipper)) fun _ =>
                match els.get? i with
                | some v => recurse v elZipper
                | none => StM.throw (.exception "undefined element")
          else StM.pure ()
    | _ => StM.pure ()
  | .map elemsRef =>
    match value with
    | .mapLiteral dp entries =>
      StM.bind (drawM fun rng => rng.generateString 1 10 ALPHABET_CHARS) fun newKey =>
        let addZipper := zipperDescendS zipper (Value.mapLiteral dp entries) newKey
        StM.bind
          (StM.bind (liftRng (GenT.minimalValue ctx genFuel elemsRef addZipper))
            fun v => proposeM k (.set addZipper v))
          fun _ =>
            if (entries.map Prod.fst).length > 0 then
              StM.bind (pickFromM (entries.map Prod.fst)) fun randomKey =>
                let elZipper := zipperDescendS zipper (Value.mapLiteral dp entries) randomKey
                StM.bind (proposeM k (.delete elZipper)) fun _ =>
                  match entries.lookup randomKey with
                  | some v => recurse v elZipper
                  | none => StM.throw (.exception "undefined entry")
            else StM.pure ()
    | _ => StM.pure ()
  | .classInstantiation _ ps =>
    match value with
    | .classInstantiation fqn dp names args =>
      mutateClassArgs ctx k genFuel recurse ps
        (Value.classInstantiation fqn dp names args) args zipper
    | _ => StM.pure ()
  | .staticMethodCall _ _ ps _ =>
    match value with
    | .staticMethodCall fqn dp m t names args =>
      mutateClassArgs ctx k genFuel recurse ps
        (Value.staticMethodCall fqn dp m t names args) args zipper
    | _ => StM.pure ()
  | .valueObject _ _ =>
    match value with
    | .structLiteral fqn dp entries =>
      mutateEntriesLoop recurse (Value.structLiteral fqn dp entries) zipper entries
    | _ => StM.pure ()
  | .primitive _ =>
    match value with
    | .primitiveValue dp prim =>
      StM.bind (mutatePrimitiveValue prim) fun newPrim =>
        proposeM k (.set zipper (.primitiveValue dp newPrim))
    | _ => StM.pure ()
  | .custom name =>
    StM.bind (StM.ofExcept (customLookup ctx name)) fun d =>
      proposeAll k (d.mutateProposals value zipper)

/-- `mutateValue(value, zipper)` from `mutate.ts` (lines 56-176),
fuel-indexed: when the value is not a `Variable`, resolve its distribution,
propose all sibling alternatives, and — when the value's own source index is
in range — run the per-source mutation switch. -/
def mutateValue (ctx : GenCtx) (k genFuel : Nat) : Nat → Value → Zipper → MutM Unit
  | 0, _, _ => StM.throw .fuelExhausted
  | fuel + 1, value, zipper =>
    StM.bind
      (if valueHasDistPtr value = true then
        match value.getDistPtr with
        | none => StM.throw (.exception "Value is missing distPtr")
        | some dp =>
          StM.bind (StM.ofExcept (resolveDistT ctx.model ⟨dp.distId⟩)) fun sources =>
            StM.bind (proposeOtherSources ctx k genFuel dp zipper sources 0) fun _ =>
              StM.pure (sources.get? dp.sourceIndex)
      else StM.pure none)
      fun srcOpt =>
        match srcOpt with
        | none => StM.pure ()
        | some source =>
          mutateValueSwitch ctx k genFuel (mutateValue ctx k genFuel fuel)
            source value zipper

/-- Map `applyMutation` over the reservoir, preserving holes and propagating
the exception an `applyMutation` might throw. -/
def mapSlots : List (Option Mutation) → Except GenErr (List (Option Value))
  | [] => .ok []
  | none :: rest =>
    match mapSlots rest with
    | .error e => .error e
    | .ok vs => .ok (none :: vs)
  | some m :: rest =>
    match applyMutation m with
    | .error e => .error e
    | .ok v =>
      match mapSlots rest with
      | .error e => .error e
      | .ok vs => .ok (some v :: vs)

/-- `ValueMutator.mutate(value)` (`mutate.ts` lines 29-36): guard against a
second call, walk the value proposing mutations, then apply every mutation
left in the reservoir (holes stay holes). -/
def mutate (ctx : GenCtx) (k genFuel fuel : Nat) (value : Value) :
    MutM (List (Option Value)) :=
  StM.bind StM.get fun st0 =>
    if st0.n > 0 then StM.throw (.exception "You can only call mutate once!")
    else
      StM.bind (mutateValue ctx k genFuel fuel value []) fun _ =>
        StM.bind StM.get fun st1 => StM.ofExcept (mapSlots st1.slots)

/-- Invariant preservation for a mutator computation: whenever every
reservoir slot holds a well-formed mutation before a run, the same holds
after it, whether or not the run succeeds (errors keep the state). -/
def SlotsPres {α : Type} (x : MutM α) : Prop :=
  ∀ st, slotsWf st.slots = true → slotsWf ((x st).2.slots) = true

/-! ## Theorems

### Generic lemmas about the state-error monad -/

theorem StM.nofuel_pure {σ α : Type} (a : α) : StM.NoFuel (StM.pure (σ := σ) a) := by
  intro s; simp [StM.pure]

theorem StM.nofuel_throw {σ α : Type} {e : GenErr} (h : e ≠ .fuelExhausted) :
    StM.NoFuel (StM.throw (σ := σ) (α := α) e) := by
  intro s; simp [StM.throw, h]

theorem StM.nofuel_draw {σ α : Type} (g : σ → α × σ) :
    StM.NoFuel (StM.draw g) := by
  intro s; simp [StM.draw]

theorem StM.nofuel_ofExcept {σ α : Type} {x : Except GenErr α}
    (h : x ≠ .error .fuelExhausted) : StM.NoFuel (StM.ofExcept (σ := σ) x) := by
  intro s; simpa [StM.ofExcept] using h

theorem StM.nofuel_bind {σ α β : Type} {x : StM σ α} {f : α → StM σ β}
    (hx : StM.NoFuel x) (hf : ∀ a, StM.NoFuel (f a)) :
    StM.NoFuel (StM.bind x f) := by
  intro s
  rw [StM.bind]
  rcases hs : x s with ⟨r, s1⟩
  match r with
  | .ok a => exact hf a s1
  | .error e =>
    have := hx s
    rw [hs] at this
    simpa using this

theorem StM.nofuel_mapError {σ α : Type} {f : GenErr → GenErr} {x : StM σ α}
    (hf : ∀ e, e ≠ .fuelExhausted → f e ≠ .fuelExhausted)
    (hx : StM.NoFuel x) : StM.NoFuel (StM.mapError f x) := by
  intro s
  rw [StM.mapError]
  rcases hs : x s with ⟨r, s1⟩
  match r with
  | .ok a => simp
  | .error e =>
    have := hx s
    rw [hs] at this
    simpa using hf e (by simpa using this)

theorem GenErr.prepend_ne_fuel {m : String} {e : GenErr}
    (h : e ≠ .fuelExhausted) : GenErr.prepend m e ≠ .fuelExhausted := by
  cases e <;> simp_all [GenErr.prepend]

theorem StM.bind_ok {σ α β : Type} {x : StM σ α} {f : α → StM σ β} {s s2 : σ}
    {b : β} (h : StM.bind x f s = (.ok b, s2)) :
    ∃ a s1, x s = (.ok a, s1) ∧ f a s1 = (.ok b, s2) := by
  rw [StM.bind] at h
  rcases hs : x s with ⟨r, s1⟩
  rw [hs] at h
  match r, h with
  | .ok a, h => exact ⟨a, s1, rfl, h⟩
  | .error e, h => simp at h

theorem StM.pure_ok {σ α : Type} {a b : α} {s s2 : σ}
    (h : StM.pure a s = (.ok b, s2)) : a = b ∧ s = s2 := by
  rw [StM.pure] at h
  have h1 := congrArg Prod.fst h
  have h2 := congrArg Prod.snd h
  simp at h1 h2
  exact ⟨h1, h2⟩

theorem StM.ofExcept_ok {σ α : Type} {x : Except GenErr α} {a : α} {s s2 : σ}
    (h : StM.ofExcept x s = (.ok a, s2)) : x = .ok a ∧ s = s2 := by
  rw [StM.ofExcept] at h
  exact ⟨by simp_all, by simp_all⟩

theorem StM.draw_ok {σ α : Type} {g : σ → α × σ} {a : α} {s s2 : σ}
    (h : StM.draw g s = (.ok a, s2)) : g s = (a, s2) := by
  rw [StM.draw] at h
  rcases hg : g s with ⟨a1, s1⟩
  rw [hg] at h
  simp at h
  simp [h]

theorem StM.mapError_ok {σ α : Type} {f : GenErr → GenErr} {x : StM σ α}
    {a : α} {s s2 : σ} (h : StM.mapError f x s = (.ok a, s2)) :
    x s = (.ok a, s2) := by
  rw [StM.mapError] at h
  rcases hs : x s with ⟨r, s1⟩
  rw [hs] at h
  match r, h with
  | .ok b, h => simpa using h
  | .error e, h => simp at h

/-! ### The attempted keys of the generator stay inside `allPtrKeys` -/

theorem lookup_mem_keys {α : Type} {l : List (String × α)} {k : String}
    {v : α} (h : l.lookup k = some v) : k ∈ l.map Prod.fst := by
  induction l with
  | nil => simp [List.lookup] at h
  | cons hd tl ih =>
    rw [List.lookup] at h
    by_cases hk : k = hd.1
    · simp [hk]
    · have hbeq : (k == hd.1) = false := by simp [hk]
      rw [hbeq] at h
      simp only [List.map_cons, List.mem_cons]
      exact Or.inr (ih h)

theorem resolveDistR_ok_key_mem {model : ValueModel} {id : String}
    {sources : List ResolvedValueSource}
    (h : resolveDistR model ⟨id⟩ = .ok sources) :
    id ∈ model.distributions.map Prod.fst := by
  unfold resolveDistR at h
  rcases hl : (model.distributions.lookup id) with _ | dist
  · exfalso
    have hld : lookupDist model ⟨id⟩ = [] := by simp [lookupDist, hl]
    rw [hld] at h
    simp [resolveSources] at h
  · exact lookup_mem_keys hl

theorem resolveDistR_len {model : ValueModel} {id : String}
    {sources : List ResolvedValueSource}
    (h : resolveDistR model ⟨id⟩ = .ok sources) :
    resolvedLen model id = sources.length := by
  unfold resolvedLen
  rw [h]

theorem attempted_key_mem {model : ValueModel} {id : String}
    {sources : List ResolvedValueSource} {i : Nat}
    (h : resolveDistR model ⟨id⟩ = .ok sources) (hi : i < sources.length) :
    stringFromDistPtr ⟨id, i⟩ ∈ allPtrKeys model := by
  unfold allPtrKeys
  rw [Finset.mem_biUnion]
  refine ⟨id, ?_, ?_⟩
  · rw [List.mem_toFinset]
    exact resolveDistR_ok_key_mem h
  · rw [List.mem_toFinset, List.mem_map]
    exact ⟨i, by rw [List.mem_range, resolveDistR_len h]; exact hi, rfl⟩

/-! ### Fuel sufficiency for the `part_010` generator (claim C1) -/

namespace GenR

theorem nofuel_fillArgsGo {mv : MinOracle} {base : Value} {loc : Zipper}
    (h : ∀ d l, StM.NoFuel (mv d l)) (ps : List ParameterSource) (i : Nat) :
    StM.NoFuel (fillArgsGo mv base loc ps i) := by
  induction ps generalizing i with
  | nil => exact StM.nofuel_pure []
  | cons p rest ih =>
    rw [fillArgsGo]
    refine StM.nofuel_bind (h _ _) fun arg => ?_
    match arg with
    | .noValue dp => exact StM.nofuel_pure _
    | .classInstantiation a b c d | .staticMethodCall a b c d e f
    | .staticProperty a b c d | .structLiteral a b c | .mapLiteral a b
    | .arrayValue a b | .primitiveValue a b | .scopeValue a | .varRef a =>
      exact StM.nofuel_bind (ih (i + 1)) fun args => StM.nofuel_pure _

theorem nofuel_fillFieldsGo {mv : MinOracle} {base : Value} {loc : Zipper}
    (h : ∀ d l, StM.NoFuel (mv d l)) (fields : List (String × DistributionRef)) :
    StM.NoFuel (fillFieldsGo mv base loc fields) := by
  induction fields with
  | nil => exact StM.nofuel_pure []
  | cons kv rest ih =>
    rw [fillFieldsGo]
    exact StM.nofuel_bind (h _ _) fun v =>
      StM.nofuel_bind ih fun entries => StM.nofuel_pure _

theorem customLookup_ne_fuel {ctx : GenCtx} {name : String} :
    customLookup ctx name ≠ .error .fuelExhausted := by
  unfold customLookup
  rcases ctx.customs.lookup name <;> simp

theorem nofuel_minimalPrimitive (p : PrimitiveName) (distPtr : DistPtr) :
    StM.NoFuel (minimalPrimitive p distPtr) := by
  cases p <;>
    first
      | exact StM.nofuel_pure _
      | exact StM.nofuel_bind (StM.nofuel_draw _) fun a => StM.nofuel_pure _

theorem nofuel_minimalValueFromSourceU {ctx : GenCtx} {mv : MinOracle}
    (h : ∀ d l, StM.NoFuel (mv d l)) (source : ResolvedValueSource)
    (distPtr : DistPtr) (loc : Zipper) :
    StM.NoFuel (minimalValueFromSourceU ctx mv source distPtr loc) := by
  rcases source with ⟨fqn, ps⟩ | ⟨fqn, m, ps, t⟩ | ⟨fqn, p, t⟩ | ⟨fqn, fields⟩
    | p | _ | elemsRef | e | v | name
  · exact StM.nofuel_bind (nofuel_fillArgsGo h ps 0) fun args => StM.nofuel_pure _
  · exact StM.nofuel_bind (nofuel_fillArgsGo h ps 0) fun args => StM.nofuel_pure _
  · exact StM.nofuel_pure _
  · exact StM.nofuel_bind (nofuel_fillFieldsGo h fields) fun es => StM.nofuel_pure _
  · exact nofuel_minimalPrimitive p distPtr
  · exact StM.nofuel_pure _
  · exact StM.nofuel_bind
      (StM.nofuel_mapError (fun e he => GenErr.prepend_ne_fuel he) (h _ _))
      (fun el => StM.nofuel_pure _)
  · exact StM.nofuel_pure _
  · exact StM.nofuel_pure _
  · exact StM.nofuel_bind (StM.nofuel_ofExcept customLookup_ne_fuel)
      (fun d => StM.nofuel_pure _)

theorem validateValue_ne_fuel (v : Value) :
    validateValue v ≠ .error .fuelExhausted := by
  unfold validateValue
  split <;> simp

theorem nofuel_minimalValueFromSource {ctx : GenCtx}
    {mv : List String → MinOracle} {breaker : List String}
    {source : ResolvedValueSource} {distPtr : DistPtr} {loc : Zipper}
    (h : breaker.contains (stringFromDistPtr distPtr) = false →
      ∀ d l, StM.NoFuel (mv (stringFromDistPtr distPtr :: breaker) d l)) :
    StM.NoFuel (minimalValueFromSource ctx mv breaker source distPtr loc) := by
  rw [minimalValueFromSource]
  rcases hc : breaker.contains (stringFromDistPtr distPtr) with _ | _
  · simp only [hc, Bool.false_eq_true, if_false]
    exact StM.nofuel_bind (nofuel_minimalValueFromSourceU (h hc) source distPtr loc)
      fun v => StM.nofuel_ofExcept (validateValue_ne_fuel v)
  · simp only [hc, if_true]
    exact StM.nofuel_throw (by simp)

theorem nofuel_trySourcesGo
    {attempt : Nat → ResolvedValueSource → GenM Value} {n : Nat}
    (h : ∀ i s, i < n → StM.NoFuel (attempt i s)) :
    ∀ (sources : List ResolvedValueSource) (i0 : Nat),
      i0 + sources.length ≤ n → StM.NoFuel (trySourcesGo attempt sources i0) := by
  intro sources
  induction sources with
  | nil => intro i0 _; exact StM.nofuel_throw (by simp)
  | cons s rest ih =>
    intro i0 hlen rng
    rw [trySourcesGo]
    have hi0 : i0 < n := by simp at hlen; omega
    have hrest : i0 + 1 + rest.length ≤ n := by simp at hlen; omega
    beta_reduce
    rcases ha : attempt i0 s rng with ⟨r, rng1⟩
    match r with
    | .error (.failure f) =>
      exact ih (i0 + 1) hrest rng1
    | .ok v => simp
    | .error (.exception m) => simp
    | .error .fuelExhausted =>
      have hfe := h i0 s hi0 rng
      rw [ha] at hfe
      simp at hfe

/-- Evaluating the bind of a lifted `Except` reduces to a case split. -/
theorem StM.bind_ofExcept {σ α β : Type} (x : Except GenErr α)
    (f : α → StM σ β) :
    StM.bind (StM.ofExcept x) f =
      match x with
      | .ok a => f a
      | .error e => StM.throw e := by
  funext s
  cases x <;> rfl

/-- The errors of `resolveDistR` are always `Result` failures. -/
theorem resolveDistR_err {model : ValueModel} {ref : DistributionRef}
    {e : GenErr} (h : resolveDistR model ref = .error e) :
    e = .failure ("No values in distribution: " ++ ref.distId) := by
  unfold resolveDistR at h
  dsimp only at h
  split at h
  · injection h with h1
    exact h1.symm
  · simp at h

/-- Fuel sufficiency: as long as the recursion breaker holds distinct keys
from `allPtrKeys` and the fuel exceeds the number of keys not yet on the
construction stack, `minimalValue` never reports fuel exhaustion. -/
theorem nofuel_minimalValue {ctx : GenCtx} :
    ∀ (fuel : Nat) (breaker : List String),
      breaker.Nodup → (∀ k ∈ breaker, k ∈ allPtrKeys ctx.model) →
      (allPtrKeys ctx.model).card < fuel + breaker.length →
      ∀ (dist : DistributionRef) (loc : Zipper),
        StM.NoFuel (minimalValue ctx fuel breaker dist loc) := by
  intro fuel
  induction fuel with
  | zero =>
    intro breaker hnd hsub hcard dist loc
    exfalso
    have h1 : breaker.toFinset.card = breaker.length :=
      List.toFinset_card_of_nodup hnd
    have h2 : breaker.toFinset ⊆ allPtrKeys ctx.model := by
      intro k hk
      exact hsub k (List.mem_toFinset.mp hk)
    have h3 := Finset.card_le_card h2
    omega
  | succ fuel ih =>
    intro breaker hnd hsub hcard dist loc
    simp only [minimalValue, StM.bind_ofExcept]
    rcases hres : resolveDistR ctx.model dist with e | sources
    · exact StM.nofuel_throw (by rw [resolveDistR_err hres]; simp)
    · refine nofuel_trySourcesGo (n := sources.length) ?_ sources 0 (by omega)
      intro i s hi
      refine nofuel_minimalValueFromSource ?_
      intro hnotin d l
      have hkey : stringFromDistPtr ⟨dist.distId, i⟩ ∉ breaker := by
        intro hmem
        have hcontains : breaker.contains (stringFromDistPtr ⟨dist.distId, i⟩) = true := by
          exact List.elem_eq_true_of_mem hmem
        rw [hcontains] at hnotin
        exact Bool.true_eq_false.mp hnotin
      refine ih (stringFromDistPtr ⟨dist.distId, i⟩ :: breaker) ?_ ?_ ?_ d l
      · exact List.Nodup.cons hkey hnd
      · intro k hk
        rcases List.mem_cons.mp hk with hk1 | hk2
        · rw [hk1]; exact attempted_key_mem hres hi
        · exact hsub k hk2
      · simp only [List.length_cons]
        omega

end GenR

theorem recordDistribution_ne_fuel {cfg : HashCfg} {model : ValueModel}
    {dist : ValueDistribution} :
    (recordDistribution cfg model dist).1 ≠ .error .fuelExhausted := by
  unfold recordDistribution
  dsimp only
  split
  · split <;> simp
  · simp

/-- C1: for every fqn appearing in the model's `fqnSources`,
`ValueGenerator.minimal(fqn)` of `part_010` terminates even on a cyclic type
graph: the per-traversal recursion-breaker set of DistPtr keys (entered on
attempt, removed on return) never lets a DistPtr be re-attempted while it is
on the construction stack, so the `minimalValue` recursion depth — counted
here by the fuel index — is bounded by the finite number of DistPtr keys of
the model (`genBound`): at any fuel at or above that bound the fuel is never
exhausted, for every PRNG stream and custom-distribution set. -/
theorem claim_C1_minimal_terminates (cfg : HashCfg) (model : ValueModel)
    (customs : List (String × CustomDist)) (fqn : String) (rng : Rng)
    (hfqn : fqn ∈ model.fqnSources.map Prod.fst)
    (fuel : Nat) (hfuel : genBound cfg model fqn ≤ fuel) :
    (GenR.minimal cfg model customs fuel fqn rng).1 ≠
      Except.error .fuelExhausted := by
  rw [GenR.minimal]
  rcases hrec : recordDistribution cfg model [ValueSource.fqn fqn] with ⟨r, model1⟩
  have hbound : genBound cfg model fqn =
      (match (r, model1) with
       | (.ok _, m1) => (allPtrKeys m1).card + 1
       | (.error _, _) => 1) := by
    rw [genBound, hrec]
  match r with
  | .error e =>
    have := @recordDistribution_ne_fuel cfg model [ValueSource.fqn fqn]
    rw [hrec] at this
    simp only at this ⊢
    simpa [StM.throw] using this
  | .ok ref =>
    have hb2 : (allPtrKeys model1).card + 1 ≤ fuel := by
      rw [hbound] at hfuel
      exact hfuel
    refine GenR.nofuel_minimalValue fuel [] List.nodup_nil (by simp) ?_ ref [] rng
    simp only [List.length_nil, Nat.add_zero]
    omega

/-- Witness for C1: the cyclic two-class registry (`A(B)` / `B(A)` with
`NoValue` escape hatches): `A` is in `fqnSources` and generation at the
bound's fuel does not exhaust it. -/
theorem claim_C1_witness :
    ("A" ∈ cyclicABModel.fqnSources.map Prod.fst) ∧
      (GenR.minimal hashCfgConst cyclicABModel []
          (genBound hashCfgConst cyclicABModel "A") "A" zeroRng).1 ≠
        Except.error .fuelExhausted :=
  ⟨by decide,
   claim_C1_minimal_terminates hashCfgConst cyclicABModel [] "A" zeroRng
     (by decide) (genBound hashCfgConst cyclicABModel "A") (Nat.le_refl _)⟩

/-- C3: `DistributionOps.recordDistribution(d)` content-addresses `d` by the
truncated hash of its JSON form and is idempotent: (i) recording after a
successful record returns the same `DistRef` and leaves the table unchanged;
(ii) recording a distribution whose JSON form is identical to the one
already stored under its id returns that id with the table unchanged;
(iii) recording a distribution whose truncated-hash id matches a stored but
non-identical distribution fails fatally with the hash-collision error and
leaves the table unchanged. -/
theorem claim_C3_recordDistribution (cfg : HashCfg) (model : ValueModel)
    (d : ValueDistribution) :
    (∀ ref model1, recordDistribution cfg model d = (.ok ref, model1) →
      recordDistribution cfg model1 d = (.ok ref, model1)) ∧
    (∀ d2, model.distributions.lookup (hashValueDistribution cfg d) = some d2 →
      cfg.stringify d2 = cfg.stringify d →
      recordDistribution cfg model d =
        (.ok ⟨hashValueDistribution cfg d⟩, model)) ∧
    (∀ d2, model.distributions.lookup (hashValueDistribution cfg d) = some d2 →
      cfg.stringify d2 ≠ cfg.stringify d →
      recordDistribution cfg model d =
        (.error (.exception ("Hash collission on ID: " ++
           hashValueDistribution cfg d ++ ". Increase the hash size.")),
         model)) := by
  refine ⟨?_, ?_, ?_⟩
  · intro ref model1 h
    rw [recordDistribution] at h ⊢
    rcases hl : model.distributions.lookup (hashValueDistribution cfg d) with _ | d2
    · rw [hl] at h
      rw [Prod.mk.injEq] at h
      obtain ⟨h1, h2⟩ := h
      injection h1 with h1
      subst h1
      subst h2
      have hl2 : ({ model with distributions :=
          model.distributions ++ [(hashValueDistribution cfg d, d)]
            } : ValueModel).distributions.lookup (hashValueDistribution cfg d)
          = some d := by
        simp only
        rw [List.lookup_append, hl]
        simp [List.lookup]
      rw [hl2]
      simp
    · rw [hl] at h
      dsimp only at h
      by_cases hs : cfg.stringify d2 ≠ cfg.stringify d
      · rw [if_pos hs] at h
        rw [Prod.mk.injEq] at h
        exact absurd h.1 (by simp)
      · rw [if_neg hs] at h
        rw [Prod.mk.injEq] at h
        obtain ⟨h1, h2⟩ := h
        injection h1 with h1
        subst h1
        subst h2
        rw [hl]
        simp [if_neg hs]
  · intro d2 hl hs
    rw [recordDistribution]
    rw [hl]
    simp [hs]
  · intro d2 hl hs
    rw [recordDistribution]
    rw [hl]
    simp [hs]

/-- Witness for C3: with a constant digest, re-recording the stored
`[NoValue]` distribution returns the stored id "h" unchanged, and recording
the non-identical `[Primitive(string), NoValue]` (whose serialization
differs but whose digest collides) fails with the hash-collision error. -/
theorem claim_C3_witness :
    recordDistribution hashCfgLen modelStoredNoValue [ValueSource.noValue] =
      (.ok ⟨"h"⟩, modelStoredNoValue) ∧
    recordDistribution hashCfgLen modelStoredNoValue
        [ValueSource.primitive .string, ValueSource.noValue] =
      (.error (.exception ("Hash collission on ID: h. Increase the hash size.")),
       modelStoredNoValue) :=
  ⟨(claim_C3_recordDistribution hashCfgLen modelStoredNoValue
      [ValueSource.noValue]).2.1 [ValueSource.noValue] (by rfl) (by rfl),
   (claim_C3_recordDistribution hashCfgLen modelStoredNoValue
      [ValueSource.primitive .string, ValueSource.noValue]).2.2
     [ValueSource.noValue] (by rfl) (by decide)⟩

/-- C7: when the selected minimal source is an `Array` source, the `part_010`
`ValueGenerator` produces an `ArrayValue` containing exactly the one element
generated via the element distribution (descending the zipper at index 0 of
the array base), and when generating that element fails the array generation
itself fails, with the reason prefixed "Could not generate array" — it never
returns an empty array. -/
theorem claim_C7_array_single_element (ctx : GenCtx) (mv : GenR.MinOracle)
    (elemsRef : DistributionRef) (distPtr : DistPtr) (loc : Zipper) (rng : Rng) :
    (∀ e rng0,
      mv elemsRef (zipperDescendN loc (Value.arrayValue (some distPtr) []) 0) rng
          = (.ok e, rng0) →
      GenR.minimalValueFromSourceU ctx mv (.array elemsRef) distPtr loc rng =
        (.ok (.arrayValue (some distPtr) [e]), rng0)) ∧
    (∀ err rng0,
      mv elemsRef (zipperDescendN loc (Value.arrayValue (some distPtr) []) 0) rng
          = (.error err, rng0) →
      GenR.minimalValueFromSourceU ctx mv (.array elemsRef) distPtr loc rng =
        (.error (err.prepend "Could not generate array"), rng0)) := by
  constructor
  · intro e rng0 h
    rw [GenR.minimalValueFromSourceU]
    simp [StM.bind, StM.mapError, StM.pure, h]
  · intro err rng0 h
    rw [GenR.minimalValueFromSourceU]
    simp [StM.bind, StM.mapError, StM.pure, h]

/-- Witness for C7: over a model with a number element distribution, the
element generates to the integer 1 (all-zero stream) and the array source
yields exactly the singleton array around it. -/
theorem claim_C7_witness :
    GenR.minimalValueFromSourceU arrCtx (GenR.minimalValue arrCtx 5 [])
        (.array ⟨"dEl"⟩) ⟨"x", 0⟩ [] zeroRng =
      (.ok (.arrayValue (some ⟨"x", 0⟩)
        [.primitiveValue (some ⟨"dEl", 0⟩) (.num 1)]), ⟨zeroRng.stream, 1⟩) :=
  (claim_C7_array_single_element arrCtx (GenR.minimalValue arrCtx 5 [])
      ⟨"dEl"⟩ ⟨"x", 0⟩ [] zeroRng).1
    (.primitiveValue (some ⟨"dEl", 0⟩) (.num 1)) ⟨zeroRng.stream, 1⟩ (by rfl)

/-- C8 counterexample: on `M.Props { name: string, count?: number }` the
`part_010` `ValueGenerator.minimal` does NOT omit the optional field: its
`fillMinimalFields` stores every generated field value, so the returned
`StructLiteral` carries an entry mapping "count" to a `NoValue` node — the
claim's "no entry at all for it" is false on this input. -/
theorem claim_C8_counterexample :
    (GenR.minimal hashCfgConst propsModel [] 4 "M.Props" zeroRng).1 =
      .ok (.structLiteral "M.Props" (some ⟨"anonhash", 0⟩)
        [("name", .primitiveValue (some ⟨"dName", 0⟩) (.str "-")),
         ("count", .noValue (some ⟨"dCount", 0⟩))]) ∧
    (match (GenR.minimal hashCfgConst propsModel [] 4 "M.Props" zeroRng).1 with
     | .ok (.structLiteral _ _ entries) => "count" ∈ entries.map Prod.fst
     | _ => False) := by
  constructor
  · rfl
  · show "count" ∈ ["name", "count"]
    decide

/-- C8 as amended: for the struct with a required `name: string` field and
an optional `count?: number` field, `part_010`'s `minimal` returns a
`StructLiteral` whose entries contain the required field's generated value
and map the optional field to a `NoValue` node (the `NoValue` alternative is
listed first in the optional field's distribution and is selected first;
`fillMinimalFields` of `part_010` records it — entries are omitted only in
the older `generate.ts` draft of the generator). -/
theorem claim_C8_struct_optional_novalue_entry :
    (match (GenR.minimal hashCfgConst propsModel [] 4 "M.Props" zeroRng).1 with
     | .ok (.structLiteral fqn _ entries) =>
       fqn = "M.Props" ∧
       entries.lookup "name" =
         some (.primitiveValue (some ⟨"dName", 0⟩) (.str "-")) ∧
       entries.lookup "count" = some (.noValue (some ⟨"dCount", 0⟩))
     | _ => False) := by
  refine ⟨rfl, rfl, rfl⟩

/-! ### Inversion lemmas for the generator's success paths -/

theorem lookup_mem {α : Type} {l : List (String × α)} {k : String} {v : α}
    (h : l.lookup k = some v) : (k, v) ∈ l := by
  induction l with
  | nil => simp [List.lookup] at h
  | cons hd tl ih =>
    rw [List.lookup] at h
    by_cases hk : k = hd.1
    · have hbeq : (k == hd.1) = true := by simp [hk]
      rw [hbeq] at h
      injection h with h1
      have hkv : (k, v) = hd := by
        rcases hd with ⟨a, b⟩
        simp only at hk h1
        rw [hk, h1]
      rw [hkv]
      exact List.mem_cons_self _ _
    · have hbeq : (k == hd.1) = false := by simp [hk]
      rw [hbeq] at h
      exact List.mem_cons_of_mem hd (ih h)

theorem FqnSource.resolved_ne_constant (f : FqnSource) (v : Value) :
    f.resolved ≠ .constant v := by
  cases f <;> simp [FqnSource.resolved]

theorem resolveSources_cons_nonfqn {expand : String → List FqnSource}
    {rest : List ValueSource} {src : ValueSource}
    (hne : ∀ f, src ≠ ValueSource.fqn f) :
    resolveSources expand (src :: rest) =
      ValueSource.resolved src :: resolveSources expand rest := by
  cases src
  case fqn f => exact absurd rfl (hne f)
  all_goals rfl

theorem resolveSources_constant_mem {expand : String → List FqnSource}
    {srcs : List ValueSource} {v : Value}
    (h : ResolvedValueSource.constant v ∈ resolveSources expand srcs) :
    ValueSource.constant v ∈ srcs := by
  induction srcs with
  | nil => simp [resolveSources] at h
  | cons src rest ih =>
    rcases src with p | _ | e | e | w | f | n
    case fqn =>
      rw [resolveSources] at h
      rcases List.mem_append.mp h with h1 | h2
      · exfalso
        rcases List.mem_map.mp h1 with ⟨fs, _, hfs⟩
        exact FqnSource.resolved_ne_constant fs v hfs
      · exact List.mem_cons_of_mem _ (ih h2)
    case constant =>
      rw [resolveSources_cons_nonfqn (fun f hh => ValueSource.noConfusion hh)] at h
      rcases List.mem_cons.mp h with h1 | h2
      · have hwv : w = v := by
          have h3 := h1.symm
          simp [ValueSource.resolved] at h3
          exact h3
        rw [hwv]
        exact List.mem_cons_self _ _
      · exact List.mem_cons_of_mem _ (ih h2)
    all_goals
      rw [resolveSources_cons_nonfqn (fun f hh => ValueSource.noConfusion hh)] at h
    all_goals
      rcases List.mem_cons.mp h with h1 | h2
    all_goals
      first
        | exact absurd h1.symm (by simp [ValueSource.resolved])
        | exact List.mem_cons_of_mem _ (ih h2)

theorem resolveDistR_ok_sources {model : ValueModel} {ref : DistributionRef}
    {sources : List ResolvedValueSource}
    (h : resolveDistR model ref = .ok sources) :
    sources = resolveSources (lookupFqnOrEmpty model) (lookupDist model ref) := by
  unfold resolveDistR at h
  dsimp only at h
  split at h
  · simp at h
  · injection h with h1
    exact h1.symm

/-- Any `Constant` alternative of a successfully resolved distribution comes
from the model's table, hence satisfies `ConstsOk`'s predicate. -/
theorem constant_source_ok {P : Value → Bool} {model : ValueModel}
    (hconsts : ConstsOk P model) {ref : DistributionRef}
    {sources : List ResolvedValueSource}
    (hres : resolveDistR model ref = .ok sources) :
    ∀ s ∈ sources, ∀ v, s = ResolvedValueSource.constant v → P v = true := by
  intro s hs v hv
  subst hv
  rw [resolveDistR_ok_sources hres] at hs
  have hmem : ValueSource.constant v ∈ lookupDist model ref :=
    resolveSources_constant_mem hs
  unfold lookupDist at hmem
  rcases hl : model.distributions.lookup ref.distId with _ | dist
  · rw [hl] at hmem
    simp at hmem
  · rw [hl] at hmem
    simp only [Option.getD_some] at hmem
    have := hconsts (ref.distId, dist) (lookup_mem hl) (ValueSource.constant v) hmem
    simpa [srcConstOk] using this

theorem validateValue_ok {v w : Value} (h : validateValue v = .ok w) : w = v := by
  unfold validateValue at h
  split at h
  · simp at h
  · injection h with h1
    exact h1.symm

theorem GenR.trySourcesGo_ok
    {attempt : Nat → ResolvedValueSource → GenM Value} :
    ∀ {sources : List ResolvedValueSource} {i0 : Nat} {rng : Rng} {v : Value}
      {rng1 : Rng},
      GenR.trySourcesGo attempt sources i0 rng = (.ok v, rng1) →
      ∃ i s rng0, s ∈ sources ∧ attempt i s rng0 = (.ok v, rng1) := by
  intro sources
  induction sources with
  | nil => intro i0 rng v rng1 h; simp [GenR.trySourcesGo, StM.throw] at h
  | cons s rest ih =>
    intro i0 rng v rng1 h
    rw [GenR.trySourcesGo] at h
    beta_reduce at h
    rcases ha : attempt i0 s rng with ⟨r, rngx⟩
    rw [ha] at h
    match r, h with
    | .error (.failure f), h =>
      rcases ih h with ⟨i, s2, rng0, hmem, hok⟩
      exact ⟨i, s2, rng0, List.mem_cons_of_mem _ hmem, hok⟩
    | .ok w, h =>
      refine ⟨i0, s, rng, List.mem_cons_self _ _, ?_⟩
      rw [ha]
      exact h
    | .error (.exception m), h => simp at h
    | .error .fuelExhausted, h => simp at h

theorem GenR.minimalValueFromSource_ok {ctx : GenCtx}
    {mv : List String → GenR.MinOracle} {breaker : List String}
    {source : ResolvedValueSource} {distPtr : DistPtr} {loc : Zipper}
    {rng rng1 : Rng} {v : Value}
    (h : GenR.minimalValueFromSource ctx mv breaker source distPtr loc rng =
      (.ok v, rng1)) :
    GenR.minimalValueFromSourceU ctx
        (mv (stringFromDistPtr distPtr :: breaker)) source distPtr loc rng =
      (.ok v, rng1) := by
  rw [GenR.minimalValueFromSource] at h
  split at h
  · simp [StM.throw] at h
  · rcases StM.bind_ok h with ⟨w, rng0, hu, hval⟩
    rcases StM.ofExcept_ok hval with ⟨hv, hrng⟩
    have hvv := validateValue_ok hv
    rw [← hvv] at hu
    rw [hrng] at hu
    exact hu

/-! ### The argument-count invariant of generated values (claim C6) -/

theorem argLenOkList_padNoValues (ps : List ParameterSource) :
    argLenOkList (GenR.padNoValues ps) = true := by
  induction ps with
  | nil => rfl
  | cons p rest ih =>
    rw [GenR.padNoValues] at ih ⊢
    simp only [List.map_cons, argLenOkList, argLenOk]
    simpa using ih

theorem padNoValues_length (ps : List ParameterSource) :
    (GenR.padNoValues ps).length = ps.length := by
  simp [GenR.padNoValues]

theorem GenR.fillArgsGo_argLenOk {mv : GenR.MinOracle} {base : Value}
    {loc : Zipper}
    (hmv : ∀ d l rng v rng1, mv d l rng = (.ok v, rng1) → argLenOk v = true) :
    ∀ (ps : List ParameterSource) (i : Nat) (rng : Rng) (args : List Value)
      (rng1 : Rng),
      GenR.fillArgsGo mv base loc ps i rng = (.ok args, rng1) →
      args.length = ps.length ∧ argLenOkList args = true := by
  intro ps
  induction ps with
  | nil =>
    intro i rng args rng1 h
    rcases StM.pure_ok h with ⟨h1, _⟩
    rw [← h1]
    exact ⟨rfl, rfl⟩
  | cons p rest ih =>
    intro i rng args rng1 h
    rw [GenR.fillArgsGo] at h
    rcases StM.bind_ok h with ⟨arg, rng0, hmv1, hcont⟩
    have harg := hmv _ _ _ _ _ hmv1
    match arg, hcont with
    | .noValue dp, hcont =>
      rcases StM.pure_ok hcont with ⟨h1, _⟩
      rw [← h1]
      exact ⟨by rw [padNoValues_length], argLenOkList_padNoValues _⟩
    | .classInstantiation a b c d, hcont | .staticMethodCall a b c d e f, hcont
    | .staticProperty a b c d, hcont | .structLiteral a b c, hcont
    | .mapLiteral a b, hcont | .arrayValue a b, hcont
    | .primitiveValue a b, hcont | .scopeValue a, hcont | .varRef a, hcont =>
      rcases StM.bind_ok hcont with ⟨args2, rng2, hrec, hpure⟩
      rcases StM.pure_ok hpure with ⟨h1, _⟩
      rcases ih _ _ _ _ hrec with ⟨hlen, hok⟩
      rw [← h1]
      constructor
      · simp [hlen]
      · simp only [argLenOkList, Bool.and_eq_true]
        exact ⟨harg, hok⟩

theorem GenR.fillFieldsGo_argLenOk {mv : GenR.MinOracle} {base : Value}
    {loc : Zipper}
    (hmv : ∀ d l rng v rng1, mv d l rng = (.ok v, rng1) → argLenOk v = true) :
    ∀ (fields : List (String × DistributionRef)) (rng : Rng)
      (entries : List (String × Value)) (rng1 : Rng),
      GenR.fillFieldsGo mv base loc fields rng = (.ok entries, rng1) →
      argLenOkEntries entries = true := by
  intro fields
  induction fields with
  | nil =>
    intro rng entries rng1 h
    rcases StM.pure_ok h with ⟨h1, _⟩
    rw [← h1]
    rfl
  | cons kv rest ih =>
    intro rng entries rng1 h
    rw [GenR.fillFieldsGo] at h
    rcases StM.bind_ok h with ⟨v, rng0, hmv1, hcont⟩
    rcases StM.bind_ok hcont with ⟨entries2, rng2, hrec, hpure⟩
    rcases StM.pure_ok hpure with ⟨h1, _⟩
    rw [← h1]
    simp only [argLenOkEntries, Bool.and_eq_true]
    exact ⟨hmv _ _ _ _ _ hmv1, ih _ _ _ hrec⟩

theorem GenR.minimalPrimitive_argLenOk {p : PrimitiveName} {dp : DistPtr}
    {rng rng1 : Rng} {v : Value}
    (h : GenR.minimalPrimitive p dp rng = (.ok v, rng1)) : argLenOk v = true := by
  cases p <;>
    first
      | (rcases StM.pure_ok h with ⟨h1, _⟩; rw [← h1]; rfl)
      | (rcases StM.bind_ok h with ⟨a, rng0, hdraw, hpure⟩;
         rcases StM.pure_ok hpure with ⟨h1, _⟩; rw [← h1]; rfl)

theorem GenR.minimalValueFromSourceU_argLenOk {ctx : GenCtx}
    {mv : GenR.MinOracle}
    (hmv : ∀ d l rng v rng1, mv d l rng = (.ok v, rng1) → argLenOk v = true)
    (hcustoms : CustomsOk argLenOk ctx.customs)
    {source : ResolvedValueSource} {distPtr : DistPtr} {loc : Zipper}
    (hconst : ∀ w, source = ResolvedValueSource.constant w → argLenOk w = true)
    {rng rng1 : Rng} {v : Value}
    (h : GenR.minimalValueFromSourceU ctx mv source distPtr loc rng =
      (.ok v, rng1)) : argLenOk v = true := by
  rcases source with ⟨fqn, ps⟩ | ⟨fqn, m, ps, t⟩ | ⟨fqn, p, t⟩ | ⟨fqn, fields⟩
    | p | _ | elemsRef | e | w | name
  · rw [GenR.minimalValueFromSourceU] at h
    rcases StM.bind_ok h with ⟨args, rng0, hfill, hpure⟩
    rcases StM.pure_ok hpure with ⟨h1, _⟩
    rcases GenR.fillArgsGo_argLenOk hmv _ _ _ _ _ hfill with ⟨hlen, hok⟩
    rw [← h1]
    simp only [argLenOk, Bool.and_eq_true]
    exact ⟨by simp [hlen], hok⟩
  · rw [GenR.minimalValueFromSourceU] at h
    rcases StM.bind_ok h with ⟨args, rng0, hfill, hpure⟩
    rcases StM.pure_ok hpure with ⟨h1, _⟩
    rcases GenR.fillArgsGo_argLenOk hmv _ _ _ _ _ hfill with ⟨hlen, hok⟩
    rw [← h1]
    simp only [argLenOk, Bool.and_eq_true]
    exact ⟨by simp [hlen], hok⟩
  · rcases StM.pure_ok h with ⟨h1, _⟩; rw [← h1]; rfl
  · rw [GenR.minimalValueFromSourceU] at h
    rcases StM.bind_ok h with ⟨entries, rng0, hfill, hpure⟩
    rcases StM.pure_ok hpure with ⟨h1, _⟩
    rw [← h1]
    simpa only [argLenOk] using GenR.fillFieldsGo_argLenOk hmv _ _ _ _ hfill
  · exact GenR.minimalPrimitive_argLenOk h
  · rcases StM.pure_ok h with ⟨h1, _⟩; rw [← h1]; rfl
  · rw [GenR.minimalValueFromSourceU] at h
    rcases StM.bind_ok h with ⟨el, rng0, hel, hpure⟩
    rcases StM.pure_ok hpure with ⟨h1, _⟩
    have helem := hmv _ _ _ _ _ (StM.mapError_ok hel)
    rw [← h1]
    simp only [argLenOk, argLenOkList, Bool.and_eq_true]
    simp [helem]
  · rcases StM.pure_ok h with ⟨h1, _⟩; rw [← h1]; rfl
  · rcases StM.pure_ok h with ⟨h1, _⟩
    rw [← h1]
    exact hconst w rfl
  · rw [GenR.minimalValueFromSourceU] at h
    rcases StM.bind_ok h with ⟨d, rng0, hlk, hpure⟩
    rcases StM.pure_ok hpure with ⟨h1, _⟩
    rcases StM.ofExcept_ok hlk with ⟨hcl, _⟩
    rw [← h1]
    unfold customLookup at hcl
    rcases hl : ctx.customs.lookup name with _ | d2
    · rw [hl] at hcl; simp at hcl
    · rw [hl] at hcl
      injection hcl with hd
      rw [← hd]
      exact hcustoms (name, d2) (lookup_mem hl) distPtr loc name

theorem GenR.minimalValue_argLenOk {ctx : GenCtx}
    (hconsts : ConstsOk argLenOk ctx.model)
    (hcustoms : CustomsOk argLenOk ctx.customs) :
    ∀ (fuel : Nat) (breaker : List String) (dist : DistributionRef)
      (loc : Zipper) (rng : Rng) (v : Value) (rng1 : Rng),
      GenR.minimalValue ctx fuel breaker dist loc rng = (.ok v, rng1) →
      argLenOk v = true := by
  intro fuel
  induction fuel with
  | zero =>
    intro breaker dist loc rng v rng1 h
    simp [GenR.minimalValue, StM.throw] at h
  | succ fuel ih =>
    intro breaker dist loc rng v rng1 h
    rw [GenR.minimalValue] at h
    beta_reduce at h
    rw [StM.bind_ofExcept] at h
    rcases hres : resolveDistR ctx.model dist with e | sources
    · rw [hres] at h
      simp [StM.throw] at h
    · rw [hres] at h
      rcases GenR.trySourcesGo_ok h with ⟨i, s, rng0, hmem, hok⟩
      have hU := GenR.minimalValueFromSource_ok hok
      refine GenR.minimalValueFromSourceU_argLenOk ?_ hcustoms ?_ hU
      · intro d l rng2 w rng3 hw
        exact ih _ _ _ _ _ _ hw
      · intro w hw
        exact constant_source_ok hconsts hres s hmem w hw

theorem ConstsOk_record {P : Value → Bool} {cfg : HashCfg} {model : ValueModel}
    {fqn : String} {ref : DistributionRef} {model1 : ValueModel}
    (hconsts : ConstsOk P model)
    (h : recordDistribution cfg model [ValueSource.fqn fqn] = (.ok ref, model1)) :
    ConstsOk P model1 := by
  rw [recordDistribution] at h
  rcases hl : model.distributions.lookup
      (hashValueDistribution cfg [ValueSource.fqn fqn]) with _ | d2
  · rw [hl] at h
    rw [Prod.mk.injEq] at h
    obtain ⟨h1, h2⟩ := h
    rw [← h2]
    intro kv hkv src hsrc
    rcases List.mem_append.mp hkv with hm | hm
    · exact hconsts kv hm src hsrc
    · simp at hm
      rw [hm] at hsrc
      simp at hsrc
      rw [hsrc]
      rfl
  · rw [hl] at h
    dsimp only at h
    split at h
    · rw [Prod.mk.injEq] at h
      simp at h
    · rw [Prod.mk.injEq] at h
      rw [← h.2]
      exact hconsts

/-- C6: for every `ClassInstantiation` or `StaticMethodCall` node in a value
produced by the `part_010` `ValueGenerator.minimal`, the argument list's
length equals the parameter-name list's length (recursively, at every such
node), provided every `Constant` source in the model and every custom
distribution already satisfies the invariant; moreover once an argument
resolves to `NoValue`, `fillMinimalArguments` stops and fills the whole
remainder (from that parameter on) with `NoValue` placeholders carrying the
parameter's distribution id at alternative 0. -/
theorem claim_C6_argument_counts (cfg : HashCfg) (model : ValueModel)
    (customs : List (String × CustomDist))
    (hconsts : ConstsOk argLenOk model)
    (hcustoms : CustomsOk argLenOk customs) :
    (∀ fuel fqn rng v rng1,
      GenR.minimal cfg model customs fuel fqn rng = (.ok v, rng1) →
      argLenOk v = true) ∧
    (∀ (mv : GenR.MinOracle) (base : Value) (loc : Zipper)
       (p : ParameterSource) (rest : List ParameterSource) (i : Nat)
       (rng rng0 : Rng) (dp : Option DistPtr),
      mv p.dist (zipperDescendN loc base i) rng = (.ok (.noValue dp), rng0) →
      GenR.fillArgsGo mv base loc (p :: rest) i rng =
        (.ok (GenR.padNoValues (p :: rest)), rng0)) := by
  constructor
  · intro fuel fqn rng v rng1 h
    rw [GenR.minimal] at h
    rcases hrec : recordDistribution cfg model [ValueSource.fqn fqn]
      with ⟨r, model1⟩
    rw [hrec] at h
    match r, h with
    | .error e, h => simp [StM.throw] at h
    | .ok ref, h =>
      exact GenR.minimalValue_argLenOk (ConstsOk_record hconsts hrec)
        hcustoms fuel [] ref [] rng v rng1 h
  · intro mv base loc p rest i rng rng0 dp h
    rw [GenR.fillArgsGo, StM.bind]
    rw [h]
    rfl

/-- Witness for C6: on the cyclic `A`/`B` registry the generator returns
`A(B(A(no-value)))` — the inner `A`'s single parameter slot is a `NoValue`
placeholder and every call node has as many arguments as parameter names. -/
theorem claim_C6_witness :
    argLenOk (.classInstantiation "A" (some ⟨"anonhash", 0⟩) ["b"]
      [.classInstantiation "B" (some ⟨"dB", 0⟩) ["a"]
        [.classInstantiation "A" (some ⟨"dA", 0⟩) ["b"]
          [.noValue (some ⟨"dB", 0⟩)]]]) = true :=
  (claim_C6_argument_counts hashCfgConst cyclicABModel []
      (by unfold ConstsOk; decide) (fun nc h => absurd h (List.not_mem_nil nc))).1
    4 "A" zeroRng _ zeroRng (by rfl)

/-- C9 counterexample: evaluating a `NoValue` node with the `Evaluator` of
`evaluate.ts` does not fail at all: with a concrete (trivial) host and empty
variables it succeeds with the JS `undefined` — in particular it is not the
error "no-value cannot be evaluated" the claim requires. -/
theorem claim_C9_counterexample :
    Evaluator.evaluate trivialHost [] (Value.noValue none) =
      .ok RtValue.undef ∧
    Evaluator.evaluate trivialHost [] (Value.noValue none) ≠
      .error "no-value cannot be evaluated" := by
  constructor
  · rfl
  · intro h
    rw [Evaluator.evaluate] at h
    exact Except.noConfusion h

/-- C9 as amended: evaluating a `NoValue` node with the `Evaluator`
(`evaluate.ts`) always succeeds and yields `undefined`, for every host,
variable environment and distPtr — it never raises an error.  (The error
"no-value cannot be evaluated" exists only in the older `Synthesizer` draft
of the evaluator, `part_005`.) -/
theorem claim_C9_novalue_evaluates_to_undefined {H : Type} (host : Host H)
    (vars : List (String × RtValue H)) (dp : Option DistPtr) :
    Evaluator.evaluate host vars (Value.noValue dp) = .ok RtValue.undef := by
  rw [Evaluator.evaluate]

/-- C5 counterexample: `discretize(ClassInstantiation(Outer,
[ClassInstantiation(Inner, [])]))` yields the assignment under the name
"inner", not "inner1": `makeVariableName` appends the counter only from the
second occurrence of a name on (`i > 1`), so the claimed statements
`Assignment(inner1 = Inner())` / `Expression(Outer(inner1))` are not
produced — the variable is named "inner". -/
theorem claim_C5_counterexample :
    discretize outerInnerValue =
      [.assignment "inner" (.classInstantiation "Inner" (some ⟨"dI", 0⟩) [] []),
       .expression (.classInstantiation "Outer" (some ⟨"dO", 0⟩) ["x"]
         [.varRef "inner"])] ∧
    (match discretize outerInnerValue with
     | .assignment n _ :: _ => n
     | _ => "") ≠ "inner1" := by
  constructor
  · rfl
  · intro h
    rw [show (match discretize outerInnerValue with
        | .assignment n _ :: _ => n
        | _ => "") = "inner" from rfl] at h
    simp at h

/-- C5 as amended: `discretize` extracts every nested `ClassInstantiation`
into a fresh `Assignment` named `lcfirst(simpleName(fqn))`, with a numeric
suffix only from the second repeat on (first "inner", then "inner2", ...),
replacing the original position with a `Variable` reference, while the
top-level instantiation ends up as the trailing `Expression` (it is
extracted and then collapsed back by the tail optimization); a
`StaticMethodCall` nested in a class-argument position is NOT extracted
(extraction of static method calls happens only under object/map-literal
nesting, where `nestingLevel > 0`). -/
theorem claim_C5_discretize_extraction :
    discretize outerInnerValue =
      [.assignment "inner" (.classInstantiation "Inner" (some ⟨"dI", 0⟩) [] []),
       .expression (.classInstantiation "Outer" (some ⟨"dO", 0⟩) ["x"]
         [.varRef "inner"])] ∧
    discretize outerInnerTwiceValue =
      [.assignment "inner" (.classInstantiation "Inner" (some ⟨"dI", 0⟩) [] []),
       .assignment "inner2" (.classInstantiation "Inner" (some ⟨"dI", 0⟩) [] []),
       .expression (.classInstantiation "Outer" (some ⟨"dO", 0⟩) ["x", "y"]
         [.varRef "inner", .varRef "inner2"])] ∧
    discretize outerStaticCallValue =
      [.expression (.classInstantiation "Outer" (some ⟨"dO", 0⟩) ["x"]
        [.staticMethodCall "Maker" (some ⟨"dM", 0⟩) "of" "T" [] []])] := by
  exact ⟨rfl, rfl, rfl⟩

/-! ### Correctness of the binary gcd (`part_008`) -/

theorem oddPart_of_odd (u : Nat) (h : u % 2 = 1) : oddPart u = u := by
  unfold oddPart
  exact dif_neg (by omega)

theorem oddPart_odd : ∀ u : Nat, u ≠ 0 → oddPart u % 2 = 1 := by
  intro u
  induction u using Nat.strong_induction_on with
  | _ u IH =>
    intro hu
    unfold oddPart
    by_cases h : u ≠ 0 ∧ u % 2 = 0
    · rw [dif_pos h]
      exact IH (u / 2) (Nat.div_lt_self (Nat.pos_of_ne_zero hu) (by omega)) (by omega)
    · rw [dif_neg h]
      omega

theorem oddPart_le : ∀ u : Nat, oddPart u ≤ u := by
  intro u
  induction u using Nat.strong_induction_on with
  | _ u IH =>
    unfold oddPart
    by_cases h : u ≠ 0 ∧ u % 2 = 0
    · rw [dif_pos h]
      exact le_trans (IH (u / 2) (Nat.div_lt_self (Nat.pos_of_ne_zero h.1) (by omega)))
        (Nat.div_le_self u 2)
    · rw [dif_neg h]

theorem gcd_oddPart_right : ∀ v u : Nat, u % 2 = 1 → Nat.gcd u (oddPart v) = Nat.gcd u v := by
  intro v
  induction v using Nat.strong_induction_on with
  | _ v IH =>
    intro u hu
    unfold oddPart
    by_cases h : v ≠ 0 ∧ v % 2 = 0
    · rw [dif_pos h]
      rw [IH (v / 2) (Nat.div_lt_self (Nat.pos_of_ne_zero h.1) (by omega)) u hu]
      have h2 : Nat.Coprime 2 u := Nat.coprime_two_left.mpr (Nat.odd_iff.mpr hu)
      have hv : v = 2 * (v / 2) := by omega
      calc Nat.gcd u (v / 2) = Nat.gcd u (2 * (v / 2)) :=
            (Nat.Coprime.gcd_mul_left_cancel_right (v / 2) h2).symm
        _ = Nat.gcd u v := by rw [← hv]
    · rw [dif_neg h]

theorem gcdLoopF_gcd : ∀ fuel u v : Nat, u % 2 = 1 → 1 ≤ v → u + v ≤ fuel →
    gcdLoopF fuel u v = Nat.gcd u v := by
  intro fuel
  induction fuel with
  | zero => intro u v hu hv hf; omega
  | succ fuel IH =>
    intro u v hu hv hf
    have hv2odd : oddPart v % 2 = 1 := oddPart_odd v (by omega)
    have hv2le : oddPart v ≤ v := oddPart_le v
    have hkey : Nat.gcd u (oddPart v) = Nat.gcd u v := gcd_oddPart_right v u hu
    show (if u > oddPart v then
        if u - oddPart v = 0 then oddPart v else gcdLoopF fuel (oddPart v) (u - oddPart v)
      else
        if oddPart v - u = 0 then u else gcdLoopF fuel u (oddPart v - u)) = Nat.gcd u v
    by_cases hgt : u > oddPart v
    · rw [if_pos hgt, if_neg (by omega)]
      rw [IH (oddPart v) (u - oddPart v) hv2odd (by omega) (by omega)]
      calc Nat.gcd (oddPart v) (u - oddPart v)
          = Nat.gcd (oddPart v) (u - oddPart v + oddPart v) := (Nat.gcd_add_self_right _ _).symm
        _ = Nat.gcd (oddPart v) u := by congr 1; omega
        _ = Nat.gcd u (oddPart v) := Nat.gcd_comm _ _
        _ = Nat.gcd u v := hkey
    · rw [if_neg hgt]
      by_cases heq : oddPart v - u = 0
      · rw [if_pos heq]
        have : oddPart v = u := by omega
        rw [← hkey, this, Nat.gcd_self]
      · rw [if_neg heq]
        rw [IH u (oddPart v - u) hu (by omega) (by omega)]
        calc Nat.gcd u (oddPart v - u)
            = Nat.gcd u (oddPart v - u + u) := (Nat.gcd_add_self_right _ _).symm
          _ = Nat.gcd u (oddPart v) := by congr 1; omega
          _ = Nat.gcd u v := hkey

theorem stripCommon_spec : ∀ u v s : Nat, u ≠ 0 → v ≠ 0 →
    (stripCommon u v s).1 ≠ 0 ∧ (stripCommon u v s).2.1 ≠ 0 ∧
    ¬((stripCommon u v s).1 % 2 = 0 ∧ (stripCommon u v s).2.1 % 2 = 0) ∧
    2 ^ (stripCommon u v s).2.2 * Nat.gcd (stripCommon u v s).1 (stripCommon u v s).2.1
      = 2 ^ s * Nat.gcd u v := by
  intro u
  induction u using Nat.strong_induction_on with
  | _ u IH =>
    intro v s hu hv
    unfold stripCommon
    by_cases h : (u % 2 = 0 ∧ v % 2 = 0) ∧ 0 < u + v
    · rw [dif_pos h]
      have hrec := IH (u / 2) (Nat.div_lt_self (Nat.pos_of_ne_zero hu) (by omega))
        (v / 2) (s + 1) (by omega) (by omega)
      refine ⟨hrec.1, hrec.2.1, hrec.2.2.1, ?_⟩
      rw [hrec.2.2.2]
      have hgu : u = 2 * (u / 2) := by omega
      have hgv : v = 2 * (v / 2) := by omega
      calc 2 ^ (s + 1) * Nat.gcd (u / 2) (v / 2)
          = 2 ^ s * (2 * Nat.gcd (u / 2) (v / 2)) := by ring
        _ = 2 ^ s * Nat.gcd (2 * (u / 2)) (2 * (v / 2)) := by rw [Nat.gcd_mul_left]
        _ = 2 ^ s * Nat.gcd u v := by rw [← hgu, ← hgv]
    · rw [dif_neg h]
      exact ⟨hu, hv, fun hc => h ⟨hc, by omega⟩, rfl⟩

theorem gcdBin_eq_gcd (u v : Nat) : gcdBin u v = Nat.gcd u v := by
  unfold gcdBin
  by_cases hu : u = 0
  · rw [if_pos hu, hu, Nat.gcd_zero_left]
  by_cases hv : v = 0
  · rw [if_neg hu, if_pos hv, hv, Nat.gcd_zero_right]
  rw [if_neg hu, if_neg hv]
  rcases hst : stripCommon u v 0 with ⟨a, b, t⟩
  have hspec := stripCommon_spec u v 0 hu hv
  rw [hst] at hspec
  dsimp only at hspec
  obtain ⟨ha, hb, hne, hgcd⟩ := hspec
  have hu2odd : oddPart a % 2 = 1 := oddPart_odd a ha
  have hloop : gcdLoopF (oddPart a + b) (oddPart a) b = Nat.gcd (oddPart a) b :=
    gcdLoopF_gcd _ _ _ hu2odd (by omega) (le_refl _)
  have hab : Nat.gcd (oddPart a) b = Nat.gcd a b := by
    by_cases haodd : a % 2 = 1
    · rw [oddPart_of_odd a haodd]
    · have hbodd : b % 2 = 1 := by omega
      calc Nat.gcd (oddPart a) b = Nat.gcd b (oddPart a) := Nat.gcd_comm _ _
        _ = Nat.gcd b a := gcd_oddPart_right a b hbodd
        _ = Nat.gcd a b := Nat.gcd_comm _ _
  show gcdLoopF (oddPart a + b) (oddPart a) b * 2 ^ t = Nat.gcd u v
  rw [hloop, hab]
  simp only [pow_zero, one_mul] at hgcd
  rw [Nat.mul_comm]
  exact hgcd

/-! ### The LCG walk of `randomIteration` visits every index exactly once -/

theorem mem_calculateCoprimes (x min target : Nat) (h : x ∈ calculateCoprimes min target) :
    min ≤ x ∧ x < min + (target - min) ∧ Nat.gcd x target = 1 := by
  unfold calculateCoprimes at h
  have h1 := List.mem_of_mem_take h
  rw [List.mem_filter] at h1
  obtain ⟨hr, hg⟩ := h1
  rw [List.mem_range'_1] at hr
  refine ⟨hr.1, hr.2, ?_⟩
  rw [← gcdBin_eq_gcd]
  simpa using hg

theorem coprimes_ne_nil (n : Nat) (hn : 2 ≤ n) : calculateCoprimes (n / 2) n ≠ [] := by
  unfold calculateCoprimes
  intro hemp
  rw [List.take_eq_nil_iff] at hemp
  rcases hemp with h | h
  · exact absurd h (by omega)
  · have hcop : Nat.Coprime (n - 1) n := by
      have h2 : n - 1 + 1 = n := by omega
      have hg : Nat.gcd (n - 1) (n - 1 + 1) = 1 := by simp
      rwa [h2] at hg
    have hmem : (n - 1) ∈ (List.range' (n / 2) (n - n / 2)).filter
        fun val => gcdBin val n == 1 := by
      rw [List.mem_filter]
      refine ⟨?_, ?_⟩
      · rw [List.mem_range'_1]; omega
      · rw [gcdBin_eq_gcd]
        rw [Nat.Coprime] at hcop
        rw [hcop]
        rfl
    rw [h] at hmem
    exact absurd hmem (List.not_mem_nil _)

theorem pickFrom_ok {α : Type} (l : List α) (rng : Rng) (h : l ≠ []) :
    ∃ a rng1, rng.pickFrom l = .ok (a, rng1) ∧ a ∈ l := by
  unfold Rng.pickFrom
  have hlen : ¬ l.length = 0 := by simpa [List.length_eq_zero] using h
  rw [dif_neg hlen]
  dsimp only
  refine ⟨_, _, rfl, ?_⟩
  by_cases hi : (rng.pickNr 0 (l.length - 1)).1 < l.length
  · rw [List.getD_eq_get l _ hi]
    exact List.get_mem _ _ _
  · rw [List.getD_eq_default l _ (by omega)]
    exact List.get_mem _ _ _

theorem lcgWalk_eq_map (n prime : Nat) (hp : prime < n) :
    ∀ i index, index < n →
      lcgWalk n prime i index = (List.range i).map fun j => (index + j * prime) % n := by
  intro i
  induction i with
  | zero => intro index _; rfl
  | succ i IH =>
    intro index hindex
    have hnext : (if index + prime ≥ n then index + prime - n else index + prime)
        = (index + prime) % n := by
      by_cases hc : index + prime ≥ n
      · rw [if_pos hc, Nat.mod_eq_sub_mod hc, Nat.mod_eq_of_lt (by omega)]
      · rw [if_neg hc, Nat.mod_eq_of_lt (by omega)]
    show index :: lcgWalk n prime i (if index + prime ≥ n then index + prime - n
        else index + prime) = _
    rw [hnext, IH ((index + prime) % n) (Nat.mod_lt _ (by omega))]
    rw [List.range_succ_eq_map, List.map_cons, List.map_map]
    refine congrArg₂ List.cons ?_ ?_
    · rw [Nat.zero_mul, Nat.add_zero, Nat.mod_eq_of_lt hindex]
    · refine congrArg₂ List.map ?_ rfl
      funext j
      show ((index + prime) % n + j * prime) % n = (index + Nat.succ j * prime) % n
      rw [Nat.mod_add_mod, Nat.succ_mul]
      refine congrArg₂ HMod.hMod ?_ rfl
      omega

theorem lcgWalk_mem_lt (n offset prime : Nat) (hoff : offset < n) (hp : prime < n) :
    ∀ i ∈ lcgWalk n prime n offset, i < n := by
  intro i hi
  rw [lcgWalk_eq_map n prime hp n offset hoff, List.mem_map] at hi
  obtain ⟨j, _, hfj⟩ := hi
  rw [← hfj]
  exact Nat.mod_lt _ (by omega)

theorem lcgWalk_perm (n offset prime : Nat) (hoff : offset < n) (hp : prime < n)
    (hcop : Nat.gcd n prime = 1) : (lcgWalk n prime n offset).Perm (List.range n) := by
  rw [lcgWalk_eq_map n prime hp n offset hoff]
  have hn : 0 < n := by omega
  have hinj : ∀ j1 ∈ List.range n, ∀ j2 ∈ List.range n,
      (offset + j1 * prime) % n = (offset + j2 * prime) % n → j1 = j2 := by
    intro j1 h1 j2 h2 heq
    rw [List.mem_range] at h1 h2
    have hm : offset + j1 * prime ≡ offset + j2 * prime [MOD n] := heq
    have hm2 : j1 * prime ≡ j2 * prime [MOD n] := Nat.ModEq.add_left_cancel' offset hm
    have hm3 : j1 ≡ j2 [MOD n] := Nat.ModEq.cancel_right_of_coprime hcop hm2
    have h4 : j1 % n = j2 % n := hm3
    rwa [Nat.mod_eq_of_lt h1, Nat.mod_eq_of_lt h2] at h4
  have hnodup : ((List.range n).map fun j => (offset + j * prime) % n).Nodup :=
    List.Nodup.map_on hinj (List.nodup_range n)
  refine List.perm_of_nodup_nodup_toFinset_eq hnodup (List.nodup_range n) ?_
  apply Finset.eq_of_subset_of_card_le
  · intro a ha
    rw [List.mem_toFinset] at ha ⊢
    rw [List.mem_map] at ha
    obtain ⟨j, _, hfj⟩ := ha
    rw [List.mem_range, ← hfj]
    exact Nat.mod_lt _ hn
  · rw [List.toFinset_card_of_nodup hnodup, List.toFinset_card_of_nodup (List.nodup_range n)]
    simp

theorem map_snd_filterMap_get {α : Type} (xs : List α) :
    ∀ l : List Nat, (∀ i ∈ l, i < xs.length) →
      ((l.filterMap fun i => (xs.get? i).map fun a => (a, i)).map Prod.snd) = l := by
  intro l
  induction l with
  | nil => intro _; rfl
  | cons i l IH =>
    intro h
    have hi : i < xs.length := h i (List.mem_cons_self i l)
    rw [List.filterMap_cons, List.get?_eq_get hi]
    show ((xs.get ⟨i, hi⟩, i) :: l.filterMap fun j => (xs.get? j).map fun a => (a, j)).map
        Prod.snd = i :: l
    rw [List.map_cons, IH (fun j hj => h j (List.mem_cons_of_mem i hj))]

/-- C10: `Random.randomIteration(xs)` always succeeds and yields every element
of `xs` exactly once, each paired with its index: the yielded indices are a
permutation of `0..xs.length-1` (the LCG stride drawn from
`calculateCoprimes(⌊N/2⌋, N)` is coprime with `N`, so the walk starting at the
random offset visits every index exactly once), and each yielded pair is
`(xs[i], i)`. -/
theorem claim_C10_random_iteration {α : Type} (xs : List α) (rng : Rng) :
    ∃ ys rng1, randomIteration xs rng = .ok (ys, rng1) ∧
      (ys.map Prod.snd).Perm (List.range xs.length) ∧
      ∀ p ∈ ys, xs.get? p.2 = some p.1 := by
  match xs with
  | [] =>
    exact ⟨[], rng, rfl, by simp, by simp⟩
  | [x] =>
    refine ⟨[(x, 0)], rng, rfl, by simp [List.range_succ], ?_⟩
    intro p hp
    rw [List.mem_singleton] at hp
    rw [hp]
    rfl
  | x :: y :: yt =>
    have hlen : 2 ≤ (x :: y :: yt).length := by simp
    rcases hpn : rng.pickNr 0 ((x :: y :: yt).length - 1) with ⟨offset, rng1⟩
    have h1 := congrArg Prod.fst hpn
    dsimp only [Rng.pickNr] at h1
    have hoff : offset < (x :: y :: yt).length := by
      rw [← h1]
      have hK : (x :: y :: yt).length - 1 + 1 - 0 = (x :: y :: yt).length := by
        simp only [List.length_cons]
        omega
      rw [hK]
      have hpos : 0 < (x :: y :: yt).length := by simp
      simpa using Nat.mod_lt (rng.stream rng.pos) hpos
    obtain ⟨prime, rng2, hpickf, hmem⟩ :=
      pickFrom_ok (calculateCoprimes ((x :: y :: yt).length / 2) (x :: y :: yt).length) rng1
        (coprimes_ne_nil _ hlen)
    have hmemc := mem_calculateCoprimes _ _ _ hmem
    have hp : prime < (x :: y :: yt).length := by
      have := hmemc.2.1
      omega
    have hcop : Nat.gcd (x :: y :: yt).length prime = 1 := by
      rw [Nat.gcd_comm]
      exact hmemc.2.2
    refine ⟨(lcgWalk (x :: y :: yt).length prime (x :: y :: yt).length offset).filterMap
      (fun i => ((x :: y :: yt).get? i).map fun a => (a, i)), rng2, ?_, ?_, ?_⟩
    · show randomIteration (x :: y :: yt) rng = _
      simp only [randomIteration, selectStride]
      rw [hpn]
      show (match Rng.pickFrom rng1 (calculateCoprimes ((x :: y :: yt).length / 2)
          (x :: y :: yt).length) with
        | .error e => Except.error e
        | .ok (prime, rng2) =>
          Except.ok ((lcgWalk (x :: y :: yt).length prime (x :: y :: yt).length offset).filterMap
            (fun i => ((x :: y :: yt).get? i).map fun a => (a, i)), rng2)) = _
      rw [hpickf]
    · rw [map_snd_filterMap_get (x :: y :: yt) _ (lcgWalk_mem_lt _ _ _ hoff hp)]
      exact lcgWalk_perm _ _ _ hoff hp hcop
    · intro p hpm
      rw [List.mem_filterMap] at hpm
      obtain ⟨i, _, hfi⟩ := hpm
      obtain ⟨a, hga, hpa⟩ := Option.map_eq_some'.mp hfi
      rw [← hpa]
      exact hga

/-! ### Reservoir sampling: counting draw sequences -/

theorem drawSpace_length : ∀ n : Nat, ∀ l ∈ drawSpace n, l.length = n := by
  intro n
  induction n with
  | zero =>
    intro l hl
    rw [drawSpace, Finset.mem_singleton] at hl
    rw [hl]
    rfl
  | succ n IH =>
    intro l hl
    rw [drawSpace, Finset.mem_image] at hl
    obtain ⟨p, hp, rfl⟩ := hl
    rw [Finset.mem_product] at hp
    show (p.1 ++ [p.2]).length = n + 1
    rw [List.length_append, IH p.1 hp.1]
    rfl

theorem append_singleton_inj {l1 l2 : List Nat} {a b : Nat}
    (h : l1 ++ [a] = l2 ++ [b]) : l1 = l2 ∧ a = b := by
  have h2 := congrArg List.reverse h
  simp only [List.reverse_append, List.reverse_singleton, List.singleton_append,
    List.cons.injEq] at h2
  exact ⟨List.reverse_injective h2.2, h2.1⟩

theorem drawSpace_card : ∀ n : Nat, (drawSpace n).card = Nat.factorial n := by
  intro n
  induction n with
  | zero => rfl
  | succ n IH =>
    rw [drawSpace]
    rw [Finset.card_image_of_injOn]
    · rw [Finset.card_product, Finset.card_range, IH, Nat.factorial_succ, Nat.mul_comm]
    · intro p _ q _ hpq
      have h := append_singleton_inj hpq
      exact Prod.ext h.1 h.2

theorem runReservoir_append {α : Type} (k : Nat) :
    ∀ (xs ys : List (Nat × α)) (slots : List (Option α)),
      runReservoir k (xs ++ ys) slots = runReservoir k ys (runReservoir k xs slots) := by
  intro xs
  induction xs with
  | nil => intro ys slots; rfl
  | cons p xs IH =>
    intro ys slots
    rcases p with ⟨x, v⟩
    exact IH ys (proposeMutation k x v slots)

theorem runReservoir_one {α : Type} : ∀ (ps : List (Nat × α)) (s : Option α),
    ∃ t, runReservoir 1 ps [s] = [t] := by
  intro ps
  induction ps with
  | nil => intro s; exact ⟨s, rfl⟩
  | cons p ps IH =>
    intro s
    rcases p with ⟨x, v⟩
    show ∃ t, runReservoir 1 ps (proposeMutation 1 x v [s]) = [t]
    unfold proposeMutation
    by_cases hx : x < 1
    · rw [if_pos hx]
      have hx0 : x = 0 := by omega
      rw [hx0]
      exact IH (some v)
    · rw [if_neg hx]
      exact IH s

theorem reservoirSelect_append (n x : Nat) (l : List Nat) (hl : l.length = n) :
    reservoirSelect 1 (n + 1) (l ++ [x]) =
      if x = 0 then ({n} : Finset Nat) else reservoirSelect 1 n l := by
  unfold reservoirSelect
  have hzip : (l ++ [x]).zip (List.range (n + 1)) = l.zip (List.range n) ++ [(x, n)] := by
    rw [List.range_succ, List.zip_append (by rw [hl, List.length_range])]
    rfl
  rw [hzip, runReservoir_append]
  obtain ⟨t, ht⟩ := runReservoir_one (l.zip (List.range n)) (Option.none (α := Nat))
  show ((runReservoir 1 [(x, n)] (runReservoir 1 (l.zip (List.range n))
      [Option.none])).filterMap id).toFinset = _
  rw [ht]
  by_cases hx : x = 0
  · rw [if_pos hx, hx]
    show (([some n].filterMap id).toFinset : Finset Nat) = {n}
    simp
  · rw [if_neg hx]
    show ((proposeMutation 1 x n [t]).filterMap id).toFinset = _
    unfold proposeMutation
    rw [if_neg (by omega)]
    show (List.filterMap id [t]).toFinset
      = (List.filterMap id (runReservoir 1 (l.zip (List.range n)) [Option.none])).toFinset
    rw [ht]

theorem reservoirSelect_single : ∀ n : Nat, 1 ≤ n → ∀ l ∈ drawSpace n,
    ∃ j, j < n ∧ reservoirSelect 1 n l = {j} := by
  intro n
  induction n with
  | zero => intro h; omega
  | succ n IH =>
    intro _ l hl
    rw [drawSpace, Finset.mem_image] at hl
    obtain ⟨p, hp, rfl⟩ := hl
    rw [Finset.mem_product] at hp
    show ∃ j, j < n + 1 ∧ reservoirSelect 1 (n + 1) (p.1 ++ [p.2]) = {j}
    rw [reservoirSelect_append n p.2 p.1 (drawSpace_length n p.1 hp.1)]
    by_cases hx : p.2 = 0
    · rw [if_pos hx]
      exact ⟨n, by omega, rfl⟩
    · rw [if_neg hx]
      rcases Nat.eq_zero_or_pos n with hn0 | hn1
      · exfalso
        have := Finset.mem_range.mp hp.2
        omega
      · obtain ⟨j, hj, hsel⟩ := IH hn1 p.1 hp.1
        exact ⟨j, by omega, hsel⟩

theorem reservoirFiber : ∀ n : Nat, 1 ≤ n → ∀ j, j < n →
    ((drawSpace n).filter fun l => reservoirSelect 1 n l = {j}).card
      = Nat.factorial (n - 1) := by
  intro n
  induction n with
  | zero => intro h; omega
  | succ n IH =>
    intro _ j hj
    rcases Nat.eq_zero_or_pos n with hn0 | hn1
    · subst hn0
      have hj0 : j = 0 := by omega
      subst hj0
      decide
    · rw [drawSpace, Finset.filter_image]
      rw [Finset.card_image_of_injOn (by
        intro p _ q _ hpq
        have h := append_singleton_inj hpq
        exact Prod.ext h.1 h.2)]
      by_cases hjn : j = n
      · rw [Finset.filter_congr (q := fun p => p.2 = 0) (by
          intro p hp
          rw [Finset.mem_product] at hp
          show reservoirSelect 1 (n + 1) (p.1 ++ [p.2]) = {j} ↔ p.2 = 0
          rw [reservoirSelect_append n p.2 p.1 (drawSpace_length n p.1 hp.1)]
          constructor
          · intro h
            by_contra hx
            rw [if_neg hx] at h
            obtain ⟨j', hj', hsel⟩ := reservoirSelect_single n hn1 p.1 hp.1
            rw [hsel] at h
            have := Finset.singleton_injective h
            omega
          · intro h
            rw [if_pos h, hjn])]
        have hsplit : (drawSpace n ×ˢ Finset.range (n + 1)).filter (fun p => p.2 = 0)
            = drawSpace n ×ˢ ({0} : Finset Nat) := by
          ext ⟨a, b⟩
          simp only [Finset.mem_filter, Finset.mem_product, Finset.mem_range,
            Finset.mem_singleton]
          constructor
          · rintro ⟨⟨h1, _⟩, h3⟩
            exact ⟨h1, h3⟩
          · rintro ⟨h1, h3⟩
            exact ⟨⟨h1, by omega⟩, h3⟩
        rw [hsplit, Finset.card_product, Finset.card_singleton, drawSpace_card, Nat.mul_one]
        rfl
      · have hjlt : j < n := by omega
        rw [Finset.filter_congr (q := fun p => reservoirSelect 1 n p.1 = {j} ∧ p.2 ≠ 0) (by
          intro p hp
          rw [Finset.mem_product] at hp
          show reservoirSelect 1 (n + 1) (p.1 ++ [p.2]) = {j}
            ↔ (reservoirSelect 1 n p.1 = {j} ∧ p.2 ≠ 0)
          rw [reservoirSelect_append n p.2 p.1 (drawSpace_length n p.1 hp.1)]
          constructor
          · intro h
            by_cases hx : p.2 = 0
            · rw [if_pos hx] at h
              have := Finset.singleton_injective h
              omega
            · rw [if_neg hx] at h
              exact ⟨h, hx⟩
          · rintro ⟨h1, h2⟩
            rw [if_neg h2]
            exact h1)]
        have hsplit : (drawSpace n ×ˢ Finset.range (n + 1)).filter
              (fun p => reservoirSelect 1 n p.1 = {j} ∧ p.2 ≠ 0)
            = ((drawSpace n).filter fun l => reservoirSelect 1 n l = {j})
              ×ˢ ((Finset.range (n + 1)).filter fun x => x ≠ 0) := by
          ext ⟨a, b⟩
          simp only [Finset.mem_filter, Finset.mem_product, Finset.mem_range]
          constructor
          · rintro ⟨⟨h1, h2⟩, h3, h4⟩
            exact ⟨⟨h1, h3⟩, h2, h4⟩
          · rintro ⟨⟨h1, h3⟩, h2, h4⟩
            exact ⟨⟨h1, h2⟩, h3, h4⟩
        rw [hsplit, Finset.card_product, IH hn1 j hjlt]
        rw [Finset.filter_ne' (Finset.range (n + 1)) 0]
        rw [Finset.card_erase_of_mem (Finset.mem_range.mpr (by omega)), Finset.card_range]
        show Nat.factorial (n - 1) * (n + 1 - 1) = Nat.factorial n
        have heq : n + 1 - 1 = n := rfl
        rw [heq, Nat.mul_comm]
        exact Nat.mul_factorial_pred hn1

/-- C2 counterexample: with `k = 2` variants and a stream of 2 proposals the
reservoir of `proposeMutation` is NOT a uniform sample without replacement.
Proposal 0 always lands in slot 0, and proposal 1 then overwrites slot 0 with
probability 1/2 (draw 0) or fills slot 1 (draw 1); the outcome is the full set
`{0, 1}` only half of the time (a uniform 2-of-2 sample would always be
`{0, 1}`), and half of the time slot 1 stays empty and proposal 0 is lost. -/
theorem claim_C2_counterexample : ¬ uniformReservoir 2 2 := by
  unfold uniformReservoir
  decide

/-- C2 (amended, default `k = 1`): over the equiprobable space of admissible
draw sequences, the single surviving proposal of `proposeMutation`'s
reservoir is uniform over the `n` enumerated proposals: each singleton `{j}`
with `j < n` is selected by exactly `(n-1)!` of the `n!` draw sequences, and
no other subset of proposal indices ever survives. -/
theorem claim_C2_reservoir_uniform_default (n : Nat) (A : Finset Nat)
    (hA : A ∈ (Finset.range n).powerset) :
    ((drawSpace n).filter fun l => reservoirSelect 1 n l = A).card * Nat.choose n (min 1 n)
      = if A.card = min 1 n then (drawSpace n).card else 0 := by
  rcases Nat.eq_zero_or_pos n with hn0 | hn1
  · subst hn0
    rw [Finset.range_zero, Finset.powerset_empty, Finset.mem_singleton] at hA
    subst hA
    decide
  · have hmin : min 1 n = 1 := by omega
    rw [hmin]
    rw [Finset.mem_powerset] at hA
    by_cases hcard : A.card = 1
    · rw [if_pos hcard]
      obtain ⟨j, rfl⟩ := Finset.card_eq_one.mp hcard
      have hjn : j < n := Finset.mem_range.mp (hA (Finset.mem_singleton_self j))
      rw [reservoirFiber n hn1 j hjn, Nat.choose_one_right, drawSpace_card, Nat.mul_comm]
      exact Nat.mul_factorial_pred hn1
    · rw [if_neg hcard]
      have hempty : (drawSpace n).filter (fun l => reservoirSelect 1 n l = A) = ∅ := by
        rw [Finset.filter_eq_empty_iff]
        intro l hl hsel
        obtain ⟨j, _, hsel1⟩ := reservoirSelect_single n hn1 l hl
        apply hcard
        rw [← hsel, hsel1]
        exact Finset.card_singleton j
      rw [hempty]
      simp

/-- C2 witness: the amended uniformity statement evaluated at `n = 3`,
`A = \x7b1\x7d`: exactly `2! = 2` of the `3! = 6` draw sequences select
proposal 1. -/
theorem claim_C2_witness :
    ({1} : Finset Nat) ∈ (Finset.range 3).powerset ∧
    (((drawSpace 3).filter fun l => reservoirSelect 1 3 l = {1}).card
        * Nat.choose 3 (min 1 3)
      = if ({1} : Finset Nat).card = min 1 3 then (drawSpace 3).card else 0) :=
  ⟨by decide, claim_C2_reservoir_uniform_default 3 {1} (by decide)⟩

/-! ### The DistPtr invariant of generated values (claim C4) -/

theorem hasDistPtrsList_padNoValues (ps : List ParameterSource) :
    hasDistPtrsList (GenR.padNoValues ps) = true := by
  induction ps with
  | nil => rfl
  | cons p rest ih =>
    rw [GenR.padNoValues] at ih ⊢
    simp only [List.map_cons, hasDistPtrsList, hasDistPtrs]
    simpa using ih

theorem GenR.fillArgsGo_hasDistPtrs {mv : GenR.MinOracle} {base : Value}
    {loc : Zipper}
    (hmv : ∀ d l rng v rng1, mv d l rng = (.ok v, rng1) → hasDistPtrs v = true) :
    ∀ (ps : List ParameterSource) (i : Nat) (rng : Rng) (args : List Value)
      (rng1 : Rng),
      GenR.fillArgsGo mv base loc ps i rng = (.ok args, rng1) →
      hasDistPtrsList args = true := by
  intro ps
  induction ps with
  | nil =>
    intro i rng args rng1 h
    rcases StM.pure_ok h with ⟨h1, _⟩
    rw [← h1]
    rfl
  | cons p rest ih =>
    intro i rng args rng1 h
    rw [GenR.fillArgsGo] at h
    rcases StM.bind_ok h with ⟨arg, rng0, hmv1, hcont⟩
    have harg := hmv _ _ _ _ _ hmv1
    match arg, hcont with
    | .noValue dp, hcont =>
      rcases StM.pure_ok hcont with ⟨h1, _⟩
      rw [← h1]
      exact hasDistPtrsList_padNoValues _
    | .classInstantiation a b c d, hcont | .staticMethodCall a b c d e f, hcont
    | .staticProperty a b c d, hcont | .structLiteral a b c, hcont
    | .mapLiteral a b, hcont | .arrayValue a b, hcont
    | .primitiveValue a b, hcont | .scopeValue a, hcont | .varRef a, hcont =>
      rcases StM.bind_ok hcont with ⟨args2, rng2, hrec, hpure⟩
      rcases StM.pure_ok hpure with ⟨h1, _⟩
      rw [← h1]
      simp only [hasDistPtrsList, Bool.and_eq_true]
      exact ⟨harg, ih _ _ _ _ hrec⟩

theorem GenR.fillFieldsGo_hasDistPtrs {mv : GenR.MinOracle} {base : Value}
    {loc : Zipper}
    (hmv : ∀ d l rng v rng1, mv d l rng = (.ok v, rng1) → hasDistPtrs v = true) :
    ∀ (fields : List (String × DistributionRef)) (rng : Rng)
      (entries : List (String × Value)) (rng1 : Rng),
      GenR.fillFieldsGo mv base loc fields rng = (.ok entries, rng1) →
      hasDistPtrsEntries entries = true := by
  intro fields
  induction fields with
  | nil =>
    intro rng entries rng1 h
    rcases StM.pure_ok h with ⟨h1, _⟩
    rw [← h1]
    rfl
  | cons kv rest ih =>
    intro rng entries rng1 h
    rw [GenR.fillFieldsGo] at h
    rcases StM.bind_ok h with ⟨v, rng0, hmv1, hcont⟩
    rcases StM.bind_ok hcont with ⟨entries2, rng2, hrec, hpure⟩
    rcases StM.pure_ok hpure with ⟨h1, _⟩
    rw [← h1]
    simp only [hasDistPtrsEntries, Bool.and_eq_true]
    exact ⟨hmv _ _ _ _ _ hmv1, ih _ _ _ hrec⟩

theorem fillFieldsGoT_hasDistPtrs {mv : GenR.MinOracle} {base : Value}
    {loc : Zipper}
    (hmv : ∀ d l rng v rng1, mv d l rng = (.ok v, rng1) → hasDistPtrs v = true) :
    ∀ (fields : List (String × DistributionRef)) (rng : Rng)
      (entries : List (String × Value)) (rng1 : Rng),
      GenT.fillFieldsGo mv base loc fields rng = (.ok entries, rng1) →
      hasDistPtrsEntries entries = true := by
  intro fields
  induction fields with
  | nil =>
    intro rng entries rng1 h
    rcases StM.pure_ok h with ⟨h1, _⟩
    rw [← h1]
    rfl
  | cons kv rest ih =>
    intro rng entries rng1 h
    rw [GenT.fillFieldsGo] at h
    rcases StM.bind_ok h with ⟨v, rng0, hmv1, hcont⟩
    rcases StM.bind_ok hcont with ⟨entries2, rng2, hrec, hpure⟩
    rcases StM.pure_ok hpure with ⟨h1, _⟩
    have hv := hmv _ _ _ _ _ hmv1
    have hrest := ih _ _ _ hrec
    match v, hv, h1 with
    | .noValue dp, hv, h1 =>
      rw [← h1]
      exact hrest
    | .classInstantiation a b c d, hv, h1 | .staticMethodCall a b c d e f, hv, h1
    | .staticProperty a b c d, hv, h1 | .structLiteral a b c, hv, h1
    | .mapLiteral a b, hv, h1 | .arrayValue a b, hv, h1
    | .primitiveValue a b, hv, h1 | .scopeValue a, hv, h1 | .varRef a, hv, h1 =>
      rw [← h1]
      simp only [hasDistPtrsEntries, Bool.and_eq_true]
      exact ⟨hv, hrest⟩

theorem GenR.minimalPrimitive_hasDistPtrs {p : PrimitiveName} {dp : DistPtr}
    {rng rng1 : Rng} {v : Value}
    (h : GenR.minimalPrimitive p dp rng = (.ok v, rng1)) :
    hasDistPtrs v = true := by
  cases p <;>
    first
      | (rcases StM.pure_ok h with ⟨h1, _⟩; rw [← h1]; rfl)
      | (rcases StM.bind_ok h with ⟨a, rng0, hdraw, hpure⟩;
         rcases StM.pure_ok hpure with ⟨h1, _⟩; rw [← h1]; rfl)

theorem GenR.minimalValueFromSourceU_hasDistPtrs {ctx : GenCtx}
    {mv : GenR.MinOracle}
    (hmv : ∀ d l rng v rng1, mv d l rng = (.ok v, rng1) → hasDistPtrs v = true)
    (hcustoms : CustomsOk hasDistPtrs ctx.customs)
    {source : ResolvedValueSource} {distPtr : DistPtr} {loc : Zipper}
    (hconst : ∀ w, source = ResolvedValueSource.constant w → hasDistPtrs w = true)
    {rng rng1 : Rng} {v : Value}
    (h : GenR.minimalValueFromSourceU ctx mv source distPtr loc rng =
      (.ok v, rng1)) : hasDistPtrs v = true := by
  rcases source with ⟨fqn, ps⟩ | ⟨fqn, m, ps, t⟩ | ⟨fqn, p, t⟩ | ⟨fqn, fields⟩
    | p | _ | elemsRef | e | w | name
  · rw [GenR.minimalValueFromSourceU] at h
    rcases StM.bind_ok h with ⟨args, rng0, hfill, hpure⟩
    rcases StM.pure_ok hpure with ⟨h1, _⟩
    rw [← h1]
    simp only [hasDistPtrs, Bool.and_eq_true, Option.isSome_some]
    exact ⟨trivial, GenR.fillArgsGo_hasDistPtrs hmv _ _ _ _ _ hfill⟩
  · rw [GenR.minimalValueFromSourceU] at h
    rcases StM.bind_ok h with ⟨args, rng0, hfill, hpure⟩
    rcases StM.pure_ok hpure with ⟨h1, _⟩
    rw [← h1]
    simp only [hasDistPtrs, Bool.and_eq_true, Option.isSome_some]
    exact ⟨trivial, GenR.fillArgsGo_hasDistPtrs hmv _ _ _ _ _ hfill⟩
  · rcases StM.pure_ok h with ⟨h1, _⟩; rw [← h1]; rfl
  · rw [GenR.minimalValueFromSourceU] at h
    rcases StM.bind_ok h with ⟨entries, rng0, hfill, hpure⟩
    rcases StM.pure_ok hpure with ⟨h1, _⟩
    rw [← h1]
    simp only [hasDistPtrs, Bool.and_eq_true, Option.isSome_some]
    exact ⟨trivial, GenR.fillFieldsGo_hasDistPtrs hmv _ _ _ _ hfill⟩
  · exact GenR.minimalPrimitive_hasDistPtrs h
  · rcases StM.pure_ok h with ⟨h1, _⟩; rw [← h1]; rfl
  · rw [GenR.minimalValueFromSourceU] at h
    rcases StM.bind_ok h with ⟨el, rng0, hel, hpure⟩
    rcases StM.pure_ok hpure with ⟨h1, _⟩
    have helem := hmv _ _ _ _ _ (StM.mapError_ok hel)
    rw [← h1]
    simp only [hasDistPtrs, hasDistPtrsList, Bool.and_eq_true, Option.isSome_some]
    simp [helem]
  · rcases StM.pure_ok h with ⟨h1, _⟩; rw [← h1]; rfl
  · rcases StM.pure_ok h with ⟨h1, _⟩
    rw [← h1]
    exact hconst w rfl
  · rw [GenR.minimalValueFromSourceU] at h
    rcases StM.bind_ok h with ⟨d, rng0, hlk, hpure⟩
    rcases StM.pure_ok hpure with ⟨h1, _⟩
    rcases StM.ofExcept_ok hlk with ⟨hcl, _⟩
    rw [← h1]
    unfold customLookup at hcl
    rcases hl : ctx.customs.lookup name with _ | d2
    · rw [hl] at hcl; simp at hcl
    · rw [hl] at hcl
      injection hcl with hd
      rw [← hd]
      exact hcustoms (name, d2) (lookup_mem hl) distPtr loc name

theorem GenR.minimalValue_hasDistPtrs {ctx : GenCtx}
    (hconsts : ConstsOk hasDistPtrs ctx.model)
    (hcustoms : CustomsOk hasDistPtrs ctx.customs) :
    ∀ (fuel : Nat) (breaker : List String) (dist : DistributionRef)
      (loc : Zipper) (rng : Rng) (v : Value) (rng1 : Rng),
      GenR.minimalValue ctx fuel breaker dist loc rng = (.ok v, rng1) →
      hasDistPtrs v = true := by
  intro fuel
  induction fuel with
  | zero =>
    intro breaker dist loc rng v rng1 h
    simp [GenR.minimalValue, StM.throw] at h
  | succ fuel ih =>
    intro breaker dist loc rng v rng1 h
    rw [GenR.minimalValue] at h
    beta_reduce at h
    rw [StM.bind_ofExcept] at h
    rcases hres : resolveDistR ctx.model dist with e | sources
    · rw [hres] at h
      simp [StM.throw] at h
    · rw [hres] at h
      rcases GenR.trySourcesGo_ok h with ⟨i, s, rng0, hmem, hok⟩
      have hU := GenR.minimalValueFromSource_ok hok
      refine GenR.minimalValueFromSourceU_hasDistPtrs ?_ hcustoms ?_ hU
      · intro d l rng2 w rng3 hw
        exact ih _ _ _ _ _ _ hw
      · intro w hw
        exact constant_source_ok hconsts hres s hmem w hw

theorem resolveSourcesT_cons_nonfqn {model : ValueModel}
    {rest : List ValueSource} {src : ValueSource}
    (hne : ∀ f, src ≠ ValueSource.fqn f) :
    resolveSourcesT model (src :: rest) =
      match resolveSourcesT model rest with
      | .error e => .error e
      | .ok tail => .ok (ValueSource.resolved src :: tail) := by
  cases src
  case fqn f => exact absurd rfl (hne f)
  all_goals rfl

theorem resolveSourcesT_constant_mem {model : ValueModel} :
    ∀ {srcs : List ValueSource} {out : List ResolvedValueSource},
      resolveSourcesT model srcs = .ok out →
      ∀ v, ResolvedValueSource.constant v ∈ out → ValueSource.constant v ∈ srcs := by
  intro srcs
  induction srcs with
  | nil =>
    intro out h v hv
    rw [resolveSourcesT] at h
    injection h with h1
    rw [← h1] at hv
    simp at hv
  | cons src rest ih =>
    intro out h v hv
    rcases src with p | _ | e | e | w | f | n
    case fqn =>
      rw [resolveSourcesT] at h
      rcases hfk : lookupFqnT model f with e1 | cs
      · rw [hfk] at h; simp at h
      · rw [hfk] at h
        rcases hrt : resolveSourcesT model rest with e1 | tail
        · rw [hrt] at h; simp at h
        · rw [hrt] at h
          injection h with h1
          rw [← h1] at hv
          rcases List.mem_append.mp hv with h2 | h2
          · exfalso
            rcases List.mem_map.mp h2 with ⟨fs, _, hfs⟩
            exact FqnSource.resolved_ne_constant fs v hfs
          · exact List.mem_cons_of_mem _ (ih hrt v h2)
    case constant =>
      rw [resolveSourcesT_cons_nonfqn (fun f hh => ValueSource.noConfusion hh)] at h
      rcases hrt : resolveSourcesT model rest with e1 | tail
      · rw [hrt] at h; simp at h
      · rw [hrt] at h
        injection h with h1
        rw [← h1] at hv
        rcases List.mem_cons.mp hv with h2 | h2
        · have hwv : w = v := by
            have h3 := h2.symm
            simp [ValueSource.resolved] at h3
            exact h3
          rw [hwv]
          exact List.mem_cons_self _ _
        · exact List.mem_cons_of_mem _ (ih hrt v h2)
    all_goals
      rw [resolveSourcesT_cons_nonfqn (fun f hh => ValueSource.noConfusion hh)] at h
    all_goals
      rcases hrt : resolveSourcesT model rest with e1 | tail
    all_goals
      rw [hrt] at h
    all_goals
      first
        | (injection h with h1
           rw [← h1] at hv
           rcases List.mem_cons.mp hv with h2 | h2
           · exact absurd h2 (by simp [ValueSource.resolved])
           · exact List.mem_cons_of_mem _ (ih hrt v h2))
        | simp at h

theorem resolveDistT_constant_ok {P : Value → Bool} {model : ValueModel}
    (hconsts : ConstsOk P model) {ref : DistributionRef}
    {sources : List ResolvedValueSource}
    (hres : resolveDistT model ref = .ok sources) :
    ∀ s ∈ sources, ∀ v, s = ResolvedValueSource.constant v → P v = true := by
  intro s hs v hv
  subst hv
  unfold resolveDistT at hres
  rcases hrs : resolveSourcesT model (lookupDist model ref) with e | ret
  · rw [hrs] at hres; simp at hres
  · rw [hrs] at hres
    dsimp only at hres
    have hret : ret = sources := by
      split at hres
      · simp at hres
      · injection hres with h1
    have hmem : ValueSource.constant v ∈ lookupDist model ref :=
      resolveSourcesT_constant_mem hrs v (by rw [hret]; exact hs)
    unfold lookupDist at hmem
    rcases hl : model.distributions.lookup ref.distId with _ | dist
    · rw [hl] at hmem
      simp at hmem
    · rw [hl] at hmem
      simp only [Option.getD_some] at hmem
      have := hconsts (ref.distId, dist) (lookup_mem hl) (ValueSource.constant v) hmem
      simpa [srcConstOk] using this

theorem GenT.minimalValueFromSource_hasDistPtrs {ctx : GenCtx}
    {mv : GenR.MinOracle}
    (hmv : ∀ d l rng v rng1, mv d l rng = (.ok v, rng1) → hasDistPtrs v = true)
    (hcustoms : CustomsOk hasDistPtrs ctx.customs)
    {source : ResolvedValueSource} {distPtr : DistPtr} {loc : Zipper}
    (hconst : ∀ w, source = ResolvedValueSource.constant w → hasDistPtrs w = true)
    {rng rng1 : Rng} {v : Value}
    (h : GenT.minimalValueFromSource ctx mv source distPtr loc rng =
      (.ok v, rng1)) : hasDistPtrs v = true := by
  rcases source with ⟨fqn, ps⟩ | ⟨fqn, m, ps, t⟩ | ⟨fqn, p, t⟩ | ⟨fqn, fields⟩
    | p | _ | elemsRef | e | w | name
  · rw [GenT.minimalValueFromSource] at h
    rcases StM.bind_ok h with ⟨args, rng0, hfill, hpure⟩
    rcases StM.pure_ok hpure with ⟨h1, _⟩
    rw [← h1]
    simp only [hasDistPtrs, Bool.and_eq_true, Option.isSome_some]
    exact ⟨trivial, GenR.fillArgsGo_hasDistPtrs hmv _ _ _ _ _ hfill⟩
  · rw [GenT.minimalValueFromSource] at h
    rcases StM.bind_ok h with ⟨args, rng0, hfill, hpure⟩
    rcases StM.pure_ok hpure with ⟨h1, _⟩
    rw [← h1]
    simp only [hasDistPtrs, Bool.and_eq_true, Option.isSome_some]
    exact ⟨trivial, GenR.fillArgsGo_hasDistPtrs hmv _ _ _ _ _ hfill⟩
  · rcases StM.pure_ok h with ⟨h1, _⟩; rw [← h1]; rfl
  · rw [GenT.minimalValueFromSource] at h
    rcases StM.bind_ok h with ⟨entries, rng0, hfill, hpure⟩
    rcases StM.pure_ok hpure with ⟨h1, _⟩
    rw [← h1]
    simp only [hasDistPtrs, Bool.and_eq_true, Option.isSome_some]
    exact ⟨trivial, fillFieldsGoT_hasDistPtrs hmv _ _ _ _ hfill⟩
  · exact GenR.minimalPrimitive_hasDistPtrs h
  · rcases StM.pure_ok h with ⟨h1, _⟩; rw [← h1]; rfl
  · rcases StM.pure_ok h with ⟨h1, _⟩; rw [← h1]; rfl
  · rcases StM.pure_ok h with ⟨h1, _⟩; rw [← h1]; rfl
  · rcases StM.pure_ok h with ⟨h1, _⟩
    rw [← h1]
    exact hconst w rfl
  · rw [GenT.minimalValueFromSource] at h
    rcases StM.bind_ok h with ⟨d, rng0, hlk, hpure⟩
    rcases StM.pure_ok hpure with ⟨h1, _⟩
    rcases StM.ofExcept_ok hlk with ⟨hcl, _⟩
    rw [← h1]
    unfold customLookup at hcl
    rcases hl : ctx.customs.lookup name with _ | d2
    · rw [hl] at hcl; simp at hcl
    · rw [hl] at hcl
      injection hcl with hd
      rw [← hd]
      exact hcustoms (name, d2) (lookup_mem hl) distPtr loc name

theorem minimalValueT_hasDistPtrs {ctx : GenCtx}
    (hconsts : ConstsOk hasDistPtrs ctx.model)
    (hcustoms : CustomsOk hasDistPtrs ctx.customs) :
    ∀ (fuel : Nat) (dist : DistributionRef) (loc : Zipper) (rng : Rng)
      (v : Value) (rng1 : Rng),
      GenT.minimalValue ctx fuel dist loc rng = (.ok v, rng1) →
      hasDistPtrs v = true := by
  intro fuel
  induction fuel with
  | zero =>
    intro dist loc rng v rng1 h
    simp [GenT.minimalValue, StM.throw] at h
  | succ fuel ih =>
    intro dist loc rng v rng1 h
    rw [GenT.minimalValue] at h
    beta_reduce at h
    rw [GenR.StM.bind_ofExcept] at h
    rcases hres : resolveDistT ctx.model dist with e | sources
    · rw [hres] at h
      simp [StM.throw] at h
    · rw [hres] at h
      match sources, h with
      | [], h => simp [StM.throw] at h
      | s :: rest, h =>
        refine GenT.minimalValueFromSource_hasDistPtrs ?_ hcustoms ?_ h
        · intro d l rng2 w rng3 hw
          exact ih _ _ _ _ _ hw
        · intro w hw
          exact resolveDistT_constant_ok hconsts hres s (List.mem_cons_self _ _) w hw

theorem hasDistPtrsList_iff :
    ∀ l : List Value, hasDistPtrsList l = true ↔ ∀ v ∈ l, hasDistPtrs v = true := by
  intro l
  induction l with
  | nil => simp [hasDistPtrsList]
  | cons v vs ih =>
    rw [hasDistPtrsList, Bool.and_eq_true, ih]
    constructor
    · rintro ⟨h1, h2⟩ w hw
      rcases List.mem_cons.mp hw with h | h
      · rw [h]; exact h1
      · exact h2 w h
    · intro h
      exact ⟨h v (List.mem_cons_self _ _), fun w hw => h w (List.mem_cons_of_mem _ hw)⟩

theorem hasDistPtrsEntries_iff :
    ∀ es : List (String × Value),
      hasDistPtrsEntries es = true ↔ ∀ kv ∈ es, hasDistPtrs kv.2 = true := by
  intro es
  induction es with
  | nil => simp [hasDistPtrsEntries]
  | cons kv rest ih =>
    rcases kv with ⟨k, v⟩
    rw [hasDistPtrsEntries, Bool.and_eq_true, ih]
    constructor
    · rintro ⟨h1, h2⟩ kw hw
      rcases List.mem_cons.mp hw with h | h
      · rw [h]; exact h1
      · exact h2 kw h
    · intro h
      exact ⟨h (k, v) (List.mem_cons_self _ _),
        fun kw hw => h kw (List.mem_cons_of_mem _ hw)⟩

theorem assocSet_wf {v : Value} (hv : hasDistPtrs v = true) :
    ∀ (es : List (String × Value)) (k : String),
      hasDistPtrsEntries es = true →
      hasDistPtrsEntries (assocSet es k v) = true := by
  intro es
  induction es with
  | nil =>
    intro k _
    rw [assocSet, hasDistPtrsEntries, hasDistPtrsEntries]
    simp [hv]
  | cons kv rest ih =>
    intro k hes
    rcases kv with ⟨k1, v1⟩
    rw [hasDistPtrsEntries, Bool.and_eq_true] at hes
    rw [assocSet]
    by_cases hk : k1 = k
    · rw [if_pos hk]
      rw [hasDistPtrsEntries, Bool.and_eq_true]
      exact ⟨hv, (hasDistPtrsEntries_iff rest).mpr fun kw hw =>
        (hasDistPtrsEntries_iff rest).mp hes.2 kw hw⟩
    · rw [if_neg hk]
      rw [hasDistPtrsEntries, Bool.and_eq_true]
      exact ⟨hes.1, ih k hes.2⟩

theorem assocUnset_wf :
    ∀ (es : List (String × Value)) (k : String),
      hasDistPtrsEntries es = true →
      hasDistPtrsEntries (assocUnset es k) = true := by
  intro es
  induction es with
  | nil => intro k h; exact h
  | cons kv rest ih =>
    intro k hes
    rcases kv with ⟨k1, v1⟩
    rw [hasDistPtrsEntries, Bool.and_eq_true] at hes
    rw [assocUnset]
    by_cases hk : k1 = k
    · rw [if_pos hk]
      exact hes.2
    · rw [if_neg hk]
      rw [hasDistPtrsEntries, Bool.and_eq_true]
      exact ⟨hes.1, ih k hes.2⟩

theorem rebuildLoc_wf {frame : ValueLoc} {children : List Value}
    (hf : locWf frame = true) (hc : ∀ c ∈ children, hasDistPtrs c = true) :
    hasDistPtrs (rebuildLoc frame children) = true := by
  rcases frame with ⟨ptr, i⟩ | ⟨ptr, i⟩ | ⟨ptr, k⟩ | ⟨ptr, k⟩ | ⟨ptr, i⟩ <;>
    rw [locWf] at hf <;>
    rcases ptr with ⟨a, dp, c, args⟩ | ⟨a, dp, b, c, d, args⟩ | ⟨a, dp, b, c⟩
      | ⟨a, dp, entries⟩ | ⟨dp, entries⟩ | ⟨dp, els⟩ | ⟨dp, b⟩ | dp | dp | a <;>
    try exact hf
  case classInstantiationLoc.classInstantiation =>
    show hasDistPtrs (Value.classInstantiation a dp c
      (args.take i ++ children ++ args.drop (i + 1))) = true
    simp only [hasDistPtrs, Bool.and_eq_true] at hf ⊢
    refine ⟨hf.1, (hasDistPtrsList_iff _).mpr ?_⟩
    intro w hw
    rcases List.mem_append.mp hw with h | h
    · rcases List.mem_append.mp h with h1 | h1
      · exact (hasDistPtrsList_iff _).mp hf.2 w (List.mem_of_mem_take h1)
      · exact hc w h1
    · exact (hasDistPtrsList_iff _).mp hf.2 w (List.mem_of_mem_drop h)
  case staticMethodCallLoc.staticMethodCall =>
    show hasDistPtrs (Value.staticMethodCall a dp b c d
      (args.take i ++ children ++ args.drop (i + 1))) = true
    simp only [hasDistPtrs, Bool.and_eq_true] at hf ⊢
    refine ⟨hf.1, (hasDistPtrsList_iff _).mpr ?_⟩
    intro w hw
    rcases List.mem_append.mp hw with h | h
    · rcases List.mem_append.mp h with h1 | h1
      · exact (hasDistPtrsList_iff _).mp hf.2 w (List.mem_of_mem_take h1)
      · exact hc w h1
    · exact (hasDistPtrsList_iff _).mp hf.2 w (List.mem_of_mem_drop h)
  case arrayElementLoc.arrayValue =>
    show hasDistPtrs (Value.arrayValue dp
      (els.take i ++ children ++ els.drop (i + 1))) = true
    simp only [hasDistPtrs, Bool.and_eq_true] at hf ⊢
    refine ⟨hf.1, (hasDistPtrsList_iff _).mpr ?_⟩
    intro w hw
    rcases List.mem_append.mp hw with h | h
    · rcases List.mem_append.mp h with h1 | h1
      · exact (hasDistPtrsList_iff _).mp hf.2 w (List.mem_of_mem_take h1)
      · exact hc w h1
    · exact (hasDistPtrsList_iff _).mp hf.2 w (List.mem_of_mem_drop h)
  case structFieldLoc.structLiteral =>
    simp only [hasDistPtrs, Bool.and_eq_true] at hf
    rcases children with _ | ⟨c, crest⟩
    · show hasDistPtrs (Value.structLiteral a dp (assocUnset entries k)) = true
      simp only [hasDistPtrs, Bool.and_eq_true]
      exact ⟨hf.1, assocUnset_wf entries k hf.2⟩
    · show hasDistPtrs (Value.structLiteral a dp (assocSet entries k c)) = true
      simp only [hasDistPtrs, Bool.and_eq_true]
      exact ⟨hf.1, assocSet_wf (hc c (List.mem_cons_self _ _)) entries k hf.2⟩
  case mapEntryLoc.mapLiteral =>
    simp only [hasDistPtrs, Bool.and_eq_true] at hf
    rcases children with _ | ⟨c, crest⟩
    · show hasDistPtrs (Value.mapLiteral dp (assocUnset entries k)) = true
      simp only [hasDistPtrs, Bool.and_eq_true]
      exact ⟨hf.1, assocUnset_wf entries k hf.2⟩
    · show hasDistPtrs (Value.mapLiteral dp (assocSet entries k c)) = true
      simp only [hasDistPtrs, Bool.and_eq_true]
      exact ⟨hf.1, assocSet_wf (hc c (List.mem_cons_self _ _)) entries k hf.2⟩

theorem zipperSetRecAux_wf :
    ∀ (frames : List ValueLoc) (children : List Value),
      frames.all locWf = true → (∀ c ∈ children, hasDistPtrs c = true) →
      ∀ v ∈ zipperSetRecAux frames children, hasDistPtrs v = true := by
  intro frames
  induction frames with
  | nil => intro children _ hc v hv; exact hc v hv
  | cons frame rest ih =>
    intro children hall hc v hv
    rw [List.all_cons, Bool.and_eq_true] at hall
    rw [zipperSetRecAux] at hv
    rw [List.mem_singleton] at hv
    rw [hv]
    exact rebuildLoc_wf hall.1 (ih children hall.2 hc)

theorem zipperSet_wf {z : Zipper} {v : Value} (hz : zipperWf z = true)
    (hv : hasDistPtrs v = true) : hasDistPtrs (zipperSet z v) = true := by
  have hall : z.reverse.all locWf = true := by
    rw [List.all_reverse]
    exact hz
  have hrec := zipperSetRecAux_wf z.reverse [v] hall
    (fun c hcm => by rw [List.mem_singleton] at hcm; rw [hcm]; exact hv)
  rw [zipperSet]
  rw [zipperSetRec]
  rcases hres : zipperSetRecAux z.reverse [v] with _ | ⟨w, rest⟩
  · exact hv
  · rcases rest with _ | ⟨w2, rest2⟩
    · exact hrec w (by rw [hres]; exact List.mem_cons_self _ _)
    · exact hv

theorem zipperDelete_wf {z : Zipper} {w : Value} (hz : zipperWf z = true)
    (h : zipperDelete z = .ok w) : hasDistPtrs w = true := by
  have hall : z.reverse.all locWf = true := by
    rw [List.all_reverse]
    exact hz
  have hrec := zipperSetRecAux_wf z.reverse [] hall (fun c hcm => absurd hcm (List.not_mem_nil c))
  rw [zipperDelete] at h
  split at h
  · simp at h
  · rw [zipperSetRec] at h
    rcases hres : zipperSetRecAux z.reverse [] with _ | ⟨v, rest⟩
    · rw [hres] at h
      simp at h
    · rcases rest with _ | ⟨v2, rest2⟩
      · rw [hres] at h
        injection h with h1
        rw [← h1]
        exact hrec v (by rw [hres]; exact List.mem_cons_self _ _)
      · rw [hres] at h
        simp at h

theorem applyMutation_wf {m : Mutation} {w : Value} (hm : mutationWf m = true)
    (h : applyMutation m = .ok w) : hasDistPtrs w = true := by
  rcases m with ⟨z, v⟩ | z
  · rw [mutationWf, Bool.and_eq_true] at hm
    rw [applyMutation] at h
    injection h with h1
    rw [← h1]
    exact zipperSet_wf hm.1 hm.2
  · rw [mutationWf] at hm
    rw [applyMutation] at h
    exact zipperDelete_wf hm h

theorem all_set_of_all {α : Type} (p : α → Bool) :
    ∀ (l : List α) (i : Nat) (a : α), l.all p = true → p a = true →
      (l.set i a).all p = true := by
  intro l
  induction l with
  | nil => intro i a h _; exact h
  | cons b rest ih =>
    intro i a h ha
    rw [List.all_cons, Bool.and_eq_true] at h
    cases i with
    | zero =>
      rw [List.set_cons_zero, List.all_cons, Bool.and_eq_true]
      exact ⟨ha, h.2⟩
    | succ i =>
      rw [List.set_cons_succ, List.all_cons, Bool.and_eq_true]
      exact ⟨h.1, ih i a h.2 ha⟩

theorem slotsPres_pure {α : Type} (a : α) : SlotsPres (StM.pure a) :=
  fun _ h => h

theorem slotsPres_throw {α : Type} (e : GenErr) :
    SlotsPres (StM.throw (α := α) e) := fun _ h => h

theorem slotsPres_get : SlotsPres StM.get := fun _ h => h

theorem slotsPres_ofExcept {α : Type} (x : Except GenErr α) :
    SlotsPres (StM.ofExcept x) := fun _ h => h

theorem slotsPres_liftRng {α : Type} (x : GenM α) : SlotsPres (liftRng x) := by
  intro st h
  unfold liftRng
  rcases hx : x st.rng with ⟨r, rng1⟩
  exact h

theorem slotsPres_drawM {α : Type} (g : Rng → α × Rng) : SlotsPres (drawM g) := by
  intro st h
  unfold drawM
  rcases hx : g st.rng with ⟨a, rng1⟩
  exact h

theorem slotsPres_pickFromM {α : Type} (xs : List α) : SlotsPres (pickFromM xs) := by
  intro st h
  unfold pickFromM
  rcases hx : st.rng.pickFrom xs with e | ⟨a, rng1⟩
  · exact h
  · exact h

theorem slotsPres_bind {α β : Type} {x : MutM α} {f : α → MutM β}
    (hx : SlotsPres x)
    (hf : ∀ a st st1, x st = (.ok a, st1) → SlotsPres (f a)) :
    SlotsPres (StM.bind x f) := by
  intro st h
  rw [StM.bind]
  rcases hxs : x st with ⟨r, s1⟩
  have hs1 : slotsWf s1.slots = true := by
    have := hx st h
    rw [hxs] at this
    exact this
  match r with
  | .ok a => exact hf a st s1 hxs s1 hs1
  | .error e => exact hs1

theorem slotsPres_proposeM {k : Nat} {m : Mutation} (hm : mutationWf m = true) :
    SlotsPres (proposeM k m) := by
  intro st h
  unfold proposeM
  rcases hp : st.rng.pickNr 0 st.n with ⟨x, rng1⟩
  show slotsWf (proposeMutation k x m st.slots) = true
  unfold proposeMutation
  by_cases hx : x < k
  · rw [if_pos hx]
    exact all_set_of_all optMutWf st.slots x (some m) h hm
  · rw [if_neg hx]
    exact h

theorem slotsPres_proposeAll {k : Nat} :
    ∀ {ms : List Mutation}, (∀ m ∈ ms, mutationWf m = true) →
      SlotsPres (proposeAll k ms) := by
  intro ms
  induction ms with
  | nil => intro _; exact slotsPres_pure ()
  | cons m rest ih =>
    intro hms
    rw [proposeAll]
    exact slotsPres_bind (slotsPres_proposeM (hms m (List.mem_cons_self _ _)))
      fun _ _ _ _ => ih fun m2 hm2 => hms m2 (List.mem_cons_of_mem _ hm2)

theorem slotsPres_mutatePrimitiveValue (prim : PrimValue) :
    SlotsPres (mutatePrimitiveValue prim) := by
  rcases prim with s | v | b | d
  · rw [mutatePrimitiveValue]
    refine slotsPres_bind (slotsPres_pickFromM _) fun op _ _ _ => ?_
    by_cases hop : op = "slice"
    · rw [if_pos hop]
      by_cases hlen : s.data.length > 0
      · rw [if_pos hlen]
        refine slotsPres_bind (slotsPres_drawM _) fun i _ _ _ => ?_
        exact slotsPres_bind (slotsPres_drawM _) fun len _ _ _ => slotsPres_pure _
      · rw [if_neg hlen]
        exact slotsPres_pure _
    · rw [if_neg hop]
      exact slotsPres_bind (slotsPres_drawM _) fun str _ _ _ => slotsPres_pure _
  · rw [mutatePrimitiveValue]
    refine slotsPres_bind (slotsPres_drawM _) fun opnd _ _ _ => ?_
    exact slotsPres_bind (slotsPres_pickFromM _) fun op _ _ _ => slotsPres_pure _
  · exact slotsPres_pure _
  · exact slotsPres_pure _

theorem liftRng_ok {α : Type} {x : GenM α} {st st1 : MutSt} {a : α}
    (h : liftRng x st = (.ok a, st1)) : ∃ rng1, x st.rng = (.ok a, rng1) := by
  unfold liftRng at h
  rcases hx : x st.rng with ⟨r, rng1⟩
  rw [hx] at h
  have h2 : (r, ({ st with rng := rng1 } : MutSt)) = ((Except.ok a : Except GenErr α), st1) := h
  have hr := congrArg Prod.fst h2
  dsimp only at hr
  refine ⟨rng1, ?_⟩
  rw [hr]

theorem drawM_ok {α : Type} {g : Rng → α × Rng} {st st1 : MutSt} {a : α}
    (h : drawM g st = (.ok a, st1)) : a = (g st.rng).1 := by
  unfold drawM at h
  rcases hx : g st.rng with ⟨b, rng1⟩
  rw [hx] at h
  have h2 : ((Except.ok b : Except GenErr α), ({ st with rng := rng1 } : MutSt)) = (.ok a, st1) := h
  have hr := congrArg Prod.fst h2
  dsimp only at hr
  injection hr with hba
  exact hba.symm

theorem getD_mem_of_mem {α : Type} (xs : List α) (i : Nat) (d : α) (hd : d ∈ xs) :
    xs.getD i d ∈ xs := by
  by_cases hi : i < xs.length
  · rw [List.getD_eq_get xs d hi]
    exact List.get_mem _ _ _
  · rw [List.getD_eq_default xs d (Nat.le_of_not_lt hi)]
    exact hd

theorem Rng.pickFrom_mem {α : Type} {rng : Rng} {xs : List α} {a : α} {rng1 : Rng}
    (h : rng.pickFrom xs = .ok (a, rng1)) : a ∈ xs := by
  unfold Rng.pickFrom at h
  split at h
  · simp at h
  · dsimp only at h
    injection h with h1
    have h2 := congrArg Prod.fst h1
    dsimp only at h2
    rw [← h2]
    exact getD_mem_of_mem _ _ _ (List.get_mem _ _ _)

theorem pickFromM_ok {α : Type} {xs : List α} {st st1 : MutSt} {a : α}
    (h : pickFromM xs st = (.ok a, st1)) : a ∈ xs := by
  unfold pickFromM at h
  rcases hx : st.rng.pickFrom xs with e | ⟨b, rng1⟩
  · rw [hx] at h
    simp at h
  · rw [hx] at h
    have h2 : ((Except.ok b : Except GenErr α), ({ st with rng := rng1 } : MutSt)) = (.ok a, st1) := h
    have hr := congrArg Prod.fst h2
    dsimp only at hr
    injection hr with hba
    rw [← hba]
    exact Rng.pickFrom_mem hx

theorem zipperDescendN_wf {z : Zipper} {v : Value} {i : Nat}
    (hz : zipperWf z = true) (hv : hasDistPtrs v = true) :
    zipperWf (zipperDescendN z v i) = true := by
  cases v <;>
    (show zipperWf (_ :: z) = true
     rw [zipperWf, List.all_cons, Bool.and_eq_true]
     exact ⟨hv, hz⟩)

theorem zipperDescendS_wf {z : Zipper} {v : Value} {k : String}
    (hz : zipperWf z = true) (hv : hasDistPtrs v = true) :
    zipperWf (zipperDescendS z v k) = true := by
  cases v <;>
    (show zipperWf (_ :: z) = true
     rw [zipperWf, List.all_cons, Bool.and_eq_true]
     exact ⟨hv, hz⟩)

theorem proposeOtherSources_slotsPres {ctx : GenCtx} {k genFuel : Nat}
    (hconsts : ConstsOk hasDistPtrs ctx.model)
    (hcustoms : CustomsOk hasDistPtrs ctx.customs)
    {dp : DistPtr} {zipper : Zipper} (hz : zipperWf zipper = true) :
    ∀ (sources : List ResolvedValueSource) (i : Nat),
      (∀ s ∈ sources, ∀ w, s = ResolvedValueSource.constant w →
        hasDistPtrs w = true) →
      SlotsPres (proposeOtherSources ctx k genFuel dp zipper sources i) := by
  intro sources
  induction sources with
  | nil => intro i _; exact slotsPres_pure ()
  | cons s rest ih =>
    intro i hsrc
    rw [proposeOtherSources]
    refine slotsPres_bind ?_ fun _ _ _ _ =>
      ih (i + 1) fun s2 hs2 => hsrc s2 (List.mem_cons_of_mem _ hs2)
    by_cases hi : i = dp.sourceIndex
    · rw [if_pos hi]
      exact slotsPres_pure ()
    · rw [if_neg hi]
      refine slotsPres_bind (slotsPres_liftRng _) fun v st st1 hok => ?_
      obtain ⟨rng1, hgen⟩ := liftRng_ok hok
      have hv : hasDistPtrs v = true := by
        refine GenT.minimalValueFromSource_hasDistPtrs ?_ hcustoms ?_ hgen
        · intro d l rng2 w rng3 hw
          exact minimalValueT_hasDistPtrs hconsts hcustoms genFuel _ _ _ _ _ hw
        · intro w hw
          exact hsrc s (List.mem_cons_self _ _) w hw
      refine slotsPres_proposeM ?_
      rw [mutationWf, Bool.and_eq_true]
      exact ⟨hz, hv⟩

theorem mutateArgsLoop_slotsPres {recurse : Value → Zipper → MutM Unit}
    (hrec : ∀ v z, hasDistPtrs v = true → zipperWf z = true →
      SlotsPres (recurse v z))
    {value : Value} {zipper : Zipper} {args : List Value}
    (hvalue : hasDistPtrs value = true) (hz : zipperWf zipper = true)
    (hargs : ∀ a ∈ args, hasDistPtrs a = true) :
    ∀ idxs : List Nat, SlotsPres (mutateArgsLoop recurse value zipper args idxs) := by
  intro idxs
  induction idxs with
  | nil => exact slotsPres_pure ()
  | cons arg rest ih =>
    rw [mutateArgsLoop]
    refine slotsPres_bind slotsPres_get fun st0 _ _ _ => ?_
    refine slotsPres_bind ?_ fun _ _ _ _ => ?_
    · rcases hget : args.get? arg with _ | v
      · exact slotsPres_throw _
      · exact hrec v _ (hargs v (List.get?_mem hget)) (zipperDescendN_wf hz hvalue)
    · refine slotsPres_bind slotsPres_get fun st1 _ _ _ => ?_
      by_cases hgt : st1.n > st0.n
      · rw [if_pos hgt]
        exact slotsPres_pure ()
      · rw [if_neg hgt]
        exact ih

theorem mutateEntriesLoop_slotsPres {recurse : Value → Zipper → MutM Unit}
    (hrec : ∀ v z, hasDistPtrs v = true → zipperWf z = true →
      SlotsPres (recurse v z))
    {value : Value} {zipper : Zipper}
    (hvalue : hasDistPtrs value = true) (hz : zipperWf zipper = true) :
    ∀ entries : List (String × Value),
      (∀ kv ∈ entries, hasDistPtrs kv.2 = true) →
      SlotsPres (mutateEntriesLoop recurse value zipper entries) := by
  intro entries
  induction entries with
  | nil => intro _; exact slotsPres_pure ()
  | cons kv rest ih =>
    intro hes
    rcases kv with ⟨key, ev⟩
    rw [mutateEntriesLoop]
    refine slotsPres_bind
      (hrec ev _ (hes (key, ev) (List.mem_cons_self _ _)) (zipperDescendS_wf hz hvalue))
      fun _ _ _ _ => ih fun kw hw => hes kw (List.mem_cons_of_mem _ hw)

theorem mutateClassArgs_slotsPres {ctx : GenCtx} {k genFuel : Nat}
    (hconsts : ConstsOk hasDistPtrs ctx.model)
    (hcustoms : CustomsOk hasDistPtrs ctx.customs)
    {recurse : Value → Zipper → MutM Unit}
    (hrec : ∀ v z, hasDistPtrs v = true → zipperWf z = true →
      SlotsPres (recurse v z))
    {ps : List ParameterSource} {value : Value} {args : List Value}
    {zipper : Zipper}
    (hvalue : hasDistPtrs value = true) (hz : zipperWf zipper = true)
    (hargs : ∀ a ∈ args, hasDistPtrs a = true) :
    SlotsPres (mutateClassArgs ctx k genFuel recurse ps value args zipper) := by
  rw [mutateClassArgs]
  refine slotsPres_bind ?_ fun _ _ _ _ => ?_
  · by_cases hlt : args.length < ps.length
    · rw [if_pos hlt]
      rcases hget : ps.get? args.length with _ | p
      · exact slotsPres_throw _
      · refine slotsPres_bind (slotsPres_liftRng _) fun v st st1 hok => ?_
        obtain ⟨rng1, hgen⟩ := liftRng_ok hok
        have hv := minimalValueT_hasDistPtrs hconsts hcustoms genFuel _ _ _ _ _ hgen
        refine slotsPres_proposeM ?_
        rw [mutationWf, Bool.and_eq_true]
        exact ⟨zipperDescendN_wf hz hvalue, hv⟩
    · rw [if_neg hlt]
      exact slotsPres_pure ()
  · by_cases hpos : args.length > 0
    · rw [if_pos hpos]
      exact slotsPres_bind (slotsPres_drawM _) fun shuffled _ _ _ =>
        mutateArgsLoop_slotsPres hrec hvalue hz hargs shuffled
    · rw [if_neg hpos]
      exact slotsPres_pure ()

theorem mutateValueSwitch_slotsPres {ctx : GenCtx} {k genFuel : Nat}
    (hconsts : ConstsOk hasDistPtrs ctx.model)
    (hcustoms : CustomsOk hasDistPtrs ctx.customs)
    (hmuts : CustomMutsOk ctx.customs)
    {recurse : Value → Zipper → MutM Unit}
    (hrec : ∀ v z, hasDistPtrs v = true → zipperWf z = true →
      SlotsPres (recurse v z))
    {source : ResolvedValueSource} {value : Value} {zipper : Zipper}
    (hvalue : hasDistPtrs value = true) (hz : zipperWf zipper = true) :
    SlotsPres (mutateValueSwitch ctx k genFuel recurse source value zipper) := by
  rcases source with ⟨sfqn, ps⟩ | ⟨sfqn, sm, ps, stt⟩ | ⟨sfqn, sp, stt⟩
    | ⟨sfqn, fields⟩ | sprim | _ | elemsRef | emapRef | w | name
  · -- class-instantiation source
    rcases value with ⟨a, dp, c, args⟩ | ⟨a, dp, b, c, d, args⟩ | ⟨a, dp, b, c⟩
      | ⟨a, dp, entries⟩ | ⟨dp, entries⟩ | ⟨dp, els⟩ | ⟨dp, b⟩ | dp | dp | a <;>
      try exact slotsPres_pure ()
    case classInstantiation =>
      refine mutateClassArgs_slotsPres hconsts hcustoms hrec hvalue hz ?_
      simp only [hasDistPtrs, Bool.and_eq_true] at hvalue
      exact (hasDistPtrsList_iff args).mp hvalue.2
  · -- static-method-call source
    rcases value with ⟨a, dp, c, args⟩ | ⟨a, dp, b, c, d, args⟩ | ⟨a, dp, b, c⟩
      | ⟨a, dp, entries⟩ | ⟨dp, entries⟩ | ⟨dp, els⟩ | ⟨dp, b⟩ | dp | dp | a <;>
      try exact slotsPres_pure ()
    case staticMethodCall =>
      refine mutateClassArgs_slotsPres hconsts hcustoms hrec hvalue hz ?_
      simp only [hasDistPtrs, Bool.and_eq_true] at hvalue
      exact (hasDistPtrsList_iff args).mp hvalue.2
  · exact slotsPres_pure ()
  · -- value-object source
    rcases value with ⟨a, dp, c, args⟩ | ⟨a, dp, b, c, d, args⟩ | ⟨a, dp, b, c⟩
      | ⟨a, dp, entries⟩ | ⟨dp, entries⟩ | ⟨dp, els⟩ | ⟨dp, b⟩ | dp | dp | a <;>
      try exact slotsPres_pure ()
    case structLiteral =>
      refine mutateEntriesLoop_slotsPres hrec hvalue hz entries ?_
      simp only [hasDistPtrs, Bool.and_eq_true] at hvalue
      exact (hasDistPtrsEntries_iff entries).mp hvalue.2
  · -- primitive source
    rcases value with ⟨a, dp, c, args⟩ | ⟨a, dp, b, c, d, args⟩ | ⟨a, dp, b, c⟩
      | ⟨a, dp, entries⟩ | ⟨dp, entries⟩ | ⟨dp, els⟩ | ⟨dp, b⟩ | dp | dp | a <;>
      try exact slotsPres_pure ()
    case primitiveValue =>
      refine slotsPres_bind (slotsPres_mutatePrimitiveValue _) fun newPrim _ _ _ => ?_
      refine slotsPres_proposeM ?_
      rw [mutationWf, Bool.and_eq_true]
      refine ⟨hz, ?_⟩
      simp only [hasDistPtrs] at hvalue ⊢
      exact hvalue
  · exact slotsPres_pure ()
  · -- array source
    rcases value with ⟨a, dp, c, args⟩ | ⟨a, dp, b, c, d, args⟩ | ⟨a, dp, b, c⟩
      | ⟨a, dp, entries⟩ | ⟨dp, entries⟩ | ⟨dp, els⟩ | ⟨dp, b⟩ | dp | dp | a <;>
      try exact slotsPres_pure ()
    case arrayValue =>
      refine slotsPres_bind ?_ fun _ _ _ _ => ?_
      · refine slotsPres_bind (slotsPres_liftRng _) fun v st st1 hok => ?_
        obtain ⟨rng1, hgen⟩ := liftRng_ok hok
        have hv := minimalValueT_hasDistPtrs hconsts hcustoms genFuel _ _ _ _ _ hgen
        refine slotsPres_proposeM ?_
        rw [mutationWf, Bool.and_eq_true]
        exact ⟨zipperDescendN_wf hz hvalue, hv⟩
      · by_cases hpos : els.length > 0
        · rw [if_pos hpos]
          refine slotsPres_bind (slotsPres_drawM _) fun i _ _ _ => ?_
          refine slotsPres_bind (slotsPres_proposeM ?_) fun _ _ _ _ => ?_
          · rw [mutationWf]
            exact zipperDescendN_wf hz hvalue
          · rcases hget : els.get? i with _ | v
            · exact slotsPres_throw _
            · refine hrec v _ ?_ (zipperDescendN_wf hz hvalue)
              simp only [hasDistPtrs, Bool.and_eq_true] at hvalue
              exact (hasDistPtrsList_iff els).mp hvalue.2 v (List.get?_mem hget)
        · rw [if_neg hpos]
          exact slotsPres_pure ()
  · -- map source
    rcases value with ⟨a, dp, c, args⟩ | ⟨a, dp, b, c, d, args⟩ | ⟨a, dp, b, c⟩
      | ⟨a, dp, entries⟩ | ⟨dp, entries⟩ | ⟨dp, els⟩ | ⟨dp, b⟩ | dp | dp | a <;>
      try exact slotsPres_pure ()
    case mapLiteral =>
      refine @slotsPres_bind _ _
        (drawM fun rng => rng.generateString 1 10 ALPHABET_CHARS) _
        (slotsPres_drawM _) ?_
      intro newKey st0 st1 hok0
      refine slotsPres_bind ?_ fun _ _ _ _ => ?_
      · refine slotsPres_bind (slotsPres_liftRng _) fun v st st1 hok => ?_
        obtain ⟨rng1, hgen⟩ := liftRng_ok hok
        have hv := minimalValueT_hasDistPtrs hconsts hcustoms genFuel _ _ _ _ _ hgen
        refine slotsPres_proposeM ?_
        rw [mutationWf, Bool.and_eq_true]
        exact ⟨zipperDescendS_wf hz hvalue, hv⟩
      · by_cases hpos : (entries.map Prod.fst).length > 0
        · rw [if_pos hpos]
          refine slotsPres_bind (slotsPres_pickFromM _) fun randomKey _ _ _ => ?_
          refine slotsPres_bind (slotsPres_proposeM ?_) fun _ _ _ _ => ?_
          · rw [mutationWf]
            exact zipperDescendS_wf hz hvalue
          · rcases hget : entries.lookup randomKey with _ | v
            · exact slotsPres_throw _
            · refine hrec v _ ?_ (zipperDescendS_wf hz hvalue)
              simp only [hasDistPtrs, Bool.and_eq_true] at hvalue
              exact (hasDistPtrsEntries_iff entries).mp hvalue.2 _ (lookup_mem hget)
        · rw [if_neg hpos]
          exact slotsPres_pure ()
  · exact slotsPres_pure ()
  · -- custom source
    refine slotsPres_bind (slotsPres_ofExcept _) fun d st st1 hok => ?_
    rcases StM.ofExcept_ok hok with ⟨hcl, _⟩
    unfold customLookup at hcl
    rcases hl : ctx.customs.lookup name with _ | d2
    · rw [hl] at hcl
      simp at hcl
    · rw [hl] at hcl
      injection hcl with hd
      refine slotsPres_proposeAll fun m hm => ?_
      refine hmuts (name, d2) (lookup_mem hl) value zipper hvalue hz m ?_
      rw [hd]
      exact hm

theorem mutateValue_slotsPres {ctx : GenCtx} {k genFuel : Nat}
    (hconsts : ConstsOk hasDistPtrs ctx.model)
    (hcustoms : CustomsOk hasDistPtrs ctx.customs)
    (hmuts : CustomMutsOk ctx.customs) :
    ∀ (fuel : Nat) (value : Value) (zipper : Zipper),
      hasDistPtrs value = true → zipperWf zipper = true →
      SlotsPres (mutateValue ctx k genFuel fuel value zipper) := by
  intro fuel
  induction fuel with
  | zero =>
    intro value zipper _ _
    exact slotsPres_throw _
  | succ fuel ih =>
    intro value zipper hvalue hz
    rw [mutateValue]
    refine slotsPres_bind ?_ fun srcOpt _ _ _ => ?_
    · by_cases hvd : valueHasDistPtr value = true
      · rw [if_pos hvd]
        rcases hdp : value.getDistPtr with _ | dp
        · exact slotsPres_throw _
        · refine slotsPres_bind (slotsPres_ofExcept _) fun sources st st1 hok => ?_
          rcases StM.ofExcept_ok hok with ⟨hres, _⟩
          refine slotsPres_bind
            (proposeOtherSources_slotsPres hconsts hcustoms hz sources 0 ?_)
            fun _ _ _ _ => slotsPres_pure _
          intro s hs w hw
          exact resolveDistT_constant_ok hconsts hres s hs w hw
      · rw [if_neg hvd]
        exact slotsPres_pure _
    · rcases srcOpt with _ | source
      · exact slotsPres_pure ()
      · exact mutateValueSwitch_slotsPres hconsts hcustoms hmuts
          (fun v z hv hzz => ih v z hv hzz) hvalue hz

theorem slotsWf_replicate (k : Nat) : slotsWf (List.replicate k none) = true := by
  induction k with
  | zero => rfl
  | succ k ih =>
    rw [List.replicate_succ]
    unfold slotsWf at ih ⊢
    rw [List.all_cons, Bool.and_eq_true]
    exact ⟨rfl, ih⟩

theorem mapSlots_wf :
    ∀ {slots : List (Option Mutation)} {out : List (Option Value)},
      slotsWf slots = true → mapSlots slots = .ok out →
      ∀ v, some v ∈ out → hasDistPtrs v = true := by
  intro slots
  induction slots with
  | nil =>
    intro out _ h v hv
    rw [mapSlots] at h
    injection h with h1
    rw [← h1] at hv
    simp at hv
  | cons o rest ih =>
    intro out hwf h v hv
    unfold slotsWf at hwf
    rw [List.all_cons, Bool.and_eq_true] at hwf
    rcases o with _ | m
    · rw [mapSlots] at h
      rcases hrest : mapSlots rest with e | vs
      · rw [hrest] at h
        simp at h
      · rw [hrest] at h
        injection h with h1
        rw [← h1] at hv
        rcases List.mem_cons.mp hv with h2 | h2
        · simp at h2
        · exact ih hwf.2 hrest v h2
    · rw [mapSlots] at h
      rcases happ : applyMutation m with e | w
      · rw [happ] at h
        simp at h
      · rw [happ] at h
        rcases hrest : mapSlots rest with e | vs
        · rw [hrest] at h
          simp at h
        · rw [hrest] at h
          injection h with h1
          rw [← h1] at hv
          rcases List.mem_cons.mp hv with h2 | h2
          · injection h2 with h3
            rw [h3]
            exact applyMutation_wf hwf.1 happ
          · exact ih hwf.2 hrest v h2

theorem mutate_hasDistPtrs {ctx : GenCtx} {k genFuel fuel : Nat} {value : Value}
    (hconsts : ConstsOk hasDistPtrs ctx.model)
    (hcustoms : CustomsOk hasDistPtrs ctx.customs)
    (hmuts : CustomMutsOk ctx.customs)
    (hvalue : hasDistPtrs value = true)
    {st0 st1 : MutSt} {out : List (Option Value)}
    (hwf0 : slotsWf st0.slots = true)
    (h : mutate ctx k genFuel fuel value st0 = (.ok out, st1)) :
    ∀ v, some v ∈ out → hasDistPtrs v = true := by
  rw [mutate] at h
  rcases StM.bind_ok h with ⟨stg, s1, hget, hcont⟩
  have hgets : stg = st0 ∧ s1 = st0 := by
    rw [StM.get] at hget
    have h1 := congrArg Prod.fst hget
    have h2 := congrArg Prod.snd hget
    simp at h1 h2
    exact ⟨h1.symm, h2.symm⟩
  rcases hgets with ⟨hstg, hs1⟩
  by_cases hn : stg.n > 0
  · rw [if_pos hn] at hcont
    simp [StM.throw] at hcont
  · rw [if_neg hn] at hcont
    rcases StM.bind_ok hcont with ⟨_, s2, hmv, hcont2⟩
    rcases StM.bind_ok hcont2 with ⟨stg2, s3, hget2, hof⟩
    have hgets2 : stg2 = s2 ∧ s3 = s2 := by
      rw [StM.get] at hget2
      have h1 := congrArg Prod.fst hget2
      have h2 := congrArg Prod.snd hget2
      simp at h1 h2
      exact ⟨h1.symm, h2.symm⟩
    rcases hgets2 with ⟨hstg2, _⟩
    rcases StM.ofExcept_ok hof with ⟨hms, _⟩
    have hs2wf : slotsWf s2.slots = true := by
      have hpres := @mutateValue_slotsPres ctx k genFuel hconsts
        hcustoms hmuts fuel value [] hvalue rfl s1 (by rw [hs1]; exact hwf0)
      rw [hmv] at hpres
      exact hpres
    rw [hstg2] at hms
    exact mapSlots_wf hs2wf hms

/-- C4: every node except `Variable` carries a `DistPtr`, (1) in every value
the `part_010` `ValueGenerator.minimal(fqn)` returns (provided the model's
`Constant` sources and the custom distributions already satisfy the
invariant), (2) in every variant `ValueMutator.mutate(value)` returns when
handed a value satisfying the invariant (with custom plug-ins proposing only
well-formed mutations), and (3) in particular applying any well-formed `set`
or `delete` mutation through `zipperSet`/`zipperDelete` (`applyMutation`)
preserves the invariant on all nodes rebuilt along the path to the root. -/
theorem claim_C4_distptr_invariant (cfg : HashCfg) (model : ValueModel)
    (customs : List (String × CustomDist))
    (hconsts : ConstsOk hasDistPtrs model)
    (hcustoms : CustomsOk hasDistPtrs customs)
    (hmuts : CustomMutsOk customs) :
    (∀ fuel fqn rng v rng1,
      GenR.minimal cfg model customs fuel fqn rng = (.ok v, rng1) →
      hasDistPtrs v = true) ∧
    (∀ k genFuel fuel value rng out st1,
      hasDistPtrs value = true →
      mutate ⟨cfg, model, customs⟩ k genFuel fuel value
        ⟨rng, 0, List.replicate k none⟩ = (.ok out, st1) →
      ∀ v, some v ∈ out → hasDistPtrs v = true) ∧
    (∀ m w, mutationWf m = true → applyMutation m = .ok w →
      hasDistPtrs w = true) := by
  refine ⟨?_, ?_, ?_⟩
  · intro fuel fqn rng v rng1 h
    rw [GenR.minimal] at h
    rcases hrec : recordDistribution cfg model [ValueSource.fqn fqn] with ⟨r, model1⟩
    rw [hrec] at h
    match r, h with
    | .error e, h => simp [StM.throw] at h
    | .ok ref, h =>
      exact GenR.minimalValue_hasDistPtrs (ConstsOk_record hconsts hrec) hcustoms
        fuel [] ref [] rng v rng1 h
  · intro k genFuel fuel value rng out st1 hvalue h
    exact mutate_hasDistPtrs hconsts hcustoms hmuts hvalue (slotsWf_replicate k) h
  · intro m w hm h
    exact applyMutation_wf hm h

/-- C4 witness: on a model with the one-alternative number distribution
`dEl`, mutating the number `1` (own distPtr `dEl:0`) with the all-zero draw
stream proposes `1 + 1` at the root, and the single returned variant — the
number `2` carrying the same distPtr — satisfies the invariant. -/
theorem claim_C4_witness :
    hasDistPtrs (Value.primitiveValue (some ⟨"dEl", 0⟩) (.num 2)) = true :=
  (claim_C4_distptr_invariant hashCfgConst
      { fqnSources := [], distributions := [("dEl", [ValueSource.primitive .number])] }
      []
      (by unfold ConstsOk; decide)
      (fun nc h => absurd h (List.not_mem_nil nc))
      (fun nc h => absurd h (List.not_mem_nil nc))).2.1
    1 1 2 (Value.primitiveValue (some ⟨"dEl", 0⟩) (.num 1)) zeroRng
    [some (Value.primitiveValue (some ⟨"dEl", 0⟩) (.num 2))] _ (by rfl) (by rfl)
    (Value.primitiveValue (some ⟨"dEl", 0⟩) (.num 2))
    (List.mem_singleton_self _)
